import Mathlib

/-!
# ghost-to-hugo: the HTML rewriter (`ProcessHTML`) and the link substitution (`replaceInLink`)

A shallow embedding of `pkg/lib/parser.go` (identical to `lib/parser.go`).

Modelling conventions.

* A Go `string` is a Lean `String` (a sequence of Unicode code points, that is, a
  Go string holding valid UTF-8).
* A Go `error` is represented by its message (`err.Error()`), because the code
  itself tells errors apart by message (`err.Error() != "EOF"`). A nil error is
  `none`.
* `encoding/xml` is a library. Its `Decoder` is modelled by the sequence of
  tokens its successive `Token()` calls return, followed by the error that ends
  the stream (`"EOF"` for a normal end). `DecodeElement` only ever calls
  `Token()`, so it consumes from the same sequence. Its `Encoder` is abstract:
  any state type with an `EncodeToken` and a `Flush` that may fail. The tokens
  `ProcessHTML` hands to the encoder are observed with the encoder `recorder`,
  which never fails and keeps them in a list; `iteration_param` and
  `loop_param` show that every other encoder is handed the same tokens.
* A Go `map` has no iteration order: every `range` loop over it may visit the
  entries in a different order. The order used by the n-th `range` loop of a
  run is an explicit argument.
* `log.Printf` only writes to the process log and is not modelled.
-/

namespace GhostToHugo

/-! ## Strings: `strings.ReplaceAll` -/

/-- The scan of `strings.Replace(s, old, new, -1)` for a non-empty `old`: the
leftmost occurrence of `old` is replaced by `new`, and the scan resumes right
after it (occurrences do not overlap). `fuel` bounds the number of scan steps;
`s.length` steps always suffice. -/
def replaceScan (old new : List Char) : Nat → List Char → List Char
  | 0, s => s
  | _ + 1, [] => []
  | fuel + 1, ch :: s =>
    if old.isPrefixOf (ch :: s) then
      new ++ replaceScan old new fuel ((ch :: s).drop old.length)
    else
      ch :: replaceScan old new fuel s

/-- The case of an empty `old` in `strings.Replace`: it matches at the beginning
of the string and after each rune, so `new` is written before every rune and
once more at the end. -/
def replaceEmpty (new : List Char) : List Char → List Char
  | [] => new
  | ch :: s => new ++ ch :: replaceEmpty new s

/-- Go: `strings.ReplaceAll(s, old, new)`. `Replace` returns `s` itself when
`old == new`; otherwise every non-overlapping instance of `old` is replaced. -/
def ReplaceAll (s old new : String) : String :=
  if old = new then s
  else if old.data = [] then String.mk (replaceEmpty new.data s.data)
  else String.mk (replaceScan old.data new.data s.data.length s.data)

/-! ## Go maps and the configuration -/

/-- A Go `map[K]V`: `none` is the nil map, `some es` a map holding the entries
`es` (keys pairwise distinct). A map has no order of its own. -/
abbrev GoMap (κ ν : Type) := Option (List (κ × ν))

/-- The entries of a map; a nil map has none. -/
def GoMap.entries {κ ν : Type} (m : GoMap κ ν) : List (κ × ν) := m.getD []

/-- Go: `time.Time`, as an instant: the nanoseconds elapsed since the zero
`Time`, January 1, year 1, 00:00:00 UTC (the range of Go's 64-bit seconds
counter is not modelled). -/
structure Time where
  nsec : Int
deriving DecidableEq, Repr

/-- Go: the zero value `time.Time{}`. -/
def Time.zero : Time := ⟨0⟩

/-- Go: `(Time).IsZero`. -/
def Time.IsZero (t : Time) : Bool := t.nsec == 0

/-- Go: `time.Second`, a `Duration` in nanoseconds. -/
def Second : Int := 1000000000

/-- Go: `(Time).Add`. -/
def Time.Add (t : Time) (d : Int) : Time := ⟨t.nsec + d⟩

/-- Go: `sql.NullString`. -/
structure NullString where
  String : String := ""
  Valid : Bool := false
deriving DecidableEq, Repr

/-- Go: `FrontMatterConfig`. -/
structure FrontMatterConfig where
  Title : String := ""
  Date : String := ""
  Draft : String := ""
  Slug : String := ""
deriving DecidableEq, Repr

/-- Go: `Config`, without the parsed `template` (the template engine is not
modelled); each default is the Go zero value. -/
structure Config where
  MySQLConnectionString : String := ""
  FrontMatter : FrontMatterConfig := {}
  RawShortcodeStart : String := ""
  RawShortcodeEnd : String := ""
  OutputPath : String := ""
  GhostURL : String := ""
  PostTypes : GoMap String Bool := none
  PostStatuses : GoMap String Bool := none
  PostVisibilities : GoMap String Bool := none
  ForbidEmptyPosts : Bool := false
  SetUnpublishedToNow : Bool := false
  PublishDrafts : Bool := false
  LinkReplacements : GoMap String String := none
  Template : String := ""
  lastPublishOverride : Time := Time.zero
  ReplaceLinks : Bool := false
deriving DecidableEq, Repr

/-- The list `order` is a sequence in which one `range` loop over
`c.LinkReplacements` may visit the entries: every entry exactly once, in any
order. -/
def IsRangeOrder (c : Config) (order : List (String × String)) : Prop :=
  order.Perm c.LinkReplacements.entries

instance (c : Config) (order : List (String × String)) : Decidable (IsRangeOrder c order) :=
  inferInstanceAs (Decidable (List.Perm _ _))

/-- The orders of the `range` loops over `c.LinkReplacements` that a run
executes: `ρ k` is the sequence in which the `k`-th of them (counted from 0)
visits the entries. -/
abbrev RangeOrders := Nat → List (String × String)

/-! ## `replaceInLink` -/

/-- Go:
```go
func (c *Config) replaceInLink(href string) string {
	for k, v := range c.LinkReplacements {
		href = strings.ReplaceAll(href, k, v)
	}
	return href
}
```
`order` is the sequence in which this `range` loop visits the entries of the
map `c.LinkReplacements`. -/
def replaceInLink (order : List (String × String)) (href : String) : String :=
  match order with
  | [] => href
  | (k, v) :: rest => replaceInLink rest (ReplaceAll href k v)



/-! ## `encoding/xml`: tokens, decoder, encoder -/

/-- Go: `xml.Name`. -/
structure Name where
  Space : String
  Local : String
deriving DecidableEq, Repr

/-- Go: `xml.Attr`. -/
structure Attr where
  Name : Name
  Value : String
deriving DecidableEq, Repr

/-- Go: `xml.Token`, which holds one of `StartElement`, `EndElement`, `CharData`,
`Comment`, `ProcInst`, `Directive`. -/
inductive Token where
  | StartElement (Name : Name) (Attr : List Attr)
  | EndElement (Name : Name)
  | CharData (data : String)
  | Comment (data : String)
  | ProcInst (Target : String) (Inst : String)
  | Directive (data : String)
deriving DecidableEq, Repr

/-- The state of an `xml.Decoder`: the tokens its next `Token()` calls return, in
order, and the error message with which the stream ends (`"EOF"` for a normal
end of input). Once the tokens are used up, every further `Token()` call
returns that error again. -/
structure Decoder where
  pending : List Token
  terminal : String
deriving DecidableEq, Repr

/-- Go: `(*Decoder).Token`. -/
def Decoder.Token (d : Decoder) : Except String Token × Decoder :=
  match d.pending with
  | [] => (.error d.terminal, d)
  | t :: ts => (.ok t, { d with pending := ts })

/-- Go: the loop of `(*Decoder).Skip`, on the pending tokens (`depth` is an
`int64` there; it never goes below 0, and it cannot overflow on a stream of
fewer than 2^63 tokens):
```go
	var depth int64
	for {
		tok, err := d.Token()
		if err != nil { return err }
		switch tok.(type) {
		case StartElement: depth++
		case EndElement:
			if depth == 0 { return nil }
			depth--
		}
	}
```
Returns the error (if any) and the tokens left. -/
def skipTokens (terminal : String) : Nat → List Token → Option String × List Token
  | _, [] => (some terminal, [])
  | depth, .StartElement _ _ :: ts => skipTokens terminal (depth + 1) ts
  | 0, .EndElement _ :: ts => (none, ts)
  | depth + 1, .EndElement _ :: ts => skipTokens terminal depth ts
  | depth, _ :: ts => skipTokens terminal depth ts

/-- Go: `(*Decoder).Skip`. -/
def Decoder.Skip (d : Decoder) : Option String × Decoder :=
  ((skipTokens d.terminal 0 d.pending).1,
    { d with pending := (skipTokens d.terminal 0 d.pending).2 })

/-- Go: `x.DecodeElement(&i, &st)` with `var i any`. For a value of interface
kind `unmarshal` does `return d.Skip()`: the element is read up to its end
element and nothing is stored. -/
def Decoder.DecodeElementAny (d : Decoder) : Option String × Decoder :=
  d.Skip

/-- Go: the token loop of `unmarshal` for the struct
```go
type el struct {
	XMLName xml.Name
	Content string `xml:",chardata"`
}
```
No field matches a child element, so a child `StartElement` is passed over with
`d.Skip()`; `CharData` that is a direct child is appended to `data`; the first
`EndElement` ends the loop. `fuel` bounds the number of iterations
(`none` when it runs out; the number of pending tokens plus one suffices). -/
def unmarshalEl (terminal : String) : Nat → String → List Token →
    Option (Except String String × List Token)
  | 0, _, _ => none
  | _ + 1, _, [] => some (.error terminal, [])
  | fuel + 1, data, .StartElement _ _ :: ts =>
    match skipTokens terminal 0 ts with
    | (some err, r) => some (.error err, r)
    | (none, r) => unmarshalEl terminal fuel data r
  | _ + 1, data, .EndElement _ :: ts => some (.ok data, ts)
  | fuel + 1, data, .CharData t :: ts => unmarshalEl terminal fuel (data ++ t) ts
  | fuel + 1, data, _ :: ts => unmarshalEl terminal fuel data ts

/-- Go: `x.DecodeElement(&i, &st)` with `var i el`; on success the result is
`i.Content`. -/
def Decoder.DecodeElementEl (d : Decoder) : Option (Except String String × Decoder) :=
  (unmarshalEl d.terminal (d.pending.length + 1) "" d.pending).map
    fun r => (r.1, { d with pending := r.2 })

/-- An `xml.Encoder` writing to a buffer `o`: `σ` is the joint state of encoder
and buffer, `contents` reads the buffer (`o.String()`), of type `ω`. -/
structure Encoder (σ ω : Type) where
  init : σ
  EncodeToken : σ → Token → Except String σ
  Flush : σ → Except String σ
  contents : σ → ω

/-- The encoder that never fails and whose buffer is the list of the tokens it
was handed, in order. -/
def recorder : Encoder (List Token) (List Token) where
  init := []
  EncodeToken := fun s t => .ok (s ++ [t])
  Flush := fun s => .ok s
  contents := fun s => s

/-! ## `ProcessHTML` -/

/-- Go, in the `img` case (the argument `n` is `j + 1`):
```go
	for j := len(st.Attr) - 1; j >= 0; j-- {
		switch st.Attr[j].Name.Local {
		case "height":
			st.Attr[j].Value = ""
		case "width":
			st.Attr[j].Value = ""
		}
	}
``` -/
def imgAttrLoop : Nat → List Attr → List Attr
  | 0, attr => attr
  | j + 1, attr =>
    match attr[j]? with
    | none => imgAttrLoop j attr
    | some a =>
      if a.Name.Local = "height" then imgAttrLoop j (attr.set j { a with Value := "" })
      else if a.Name.Local = "width" then imgAttrLoop j (attr.set j { a with Value := "" })
      else imgAttrLoop j attr

/-- Go, in the `a` case (the argument `n` is `j + 1`):
```go
	for j := len(st.Attr) - 1; j >= 0; j-- {
		switch st.Attr[j].Name.Local {
		case "href":
			st.Attr[j].Value = c.replaceInLink(st.Attr[j].Value)
		}
	}
```
`ρ k` is the order in which the `k`-th `range` loop of the run visits the
entries of `c.LinkReplacements`; the result carries the number of `range`
loops run so far. -/
def aAttrLoop (ρ : RangeOrders) : Nat → Nat → List Attr → Nat × List Attr
  | 0, k, attr => (k, attr)
  | j + 1, k, attr =>
    match attr[j]? with
    | none => aAttrLoop ρ j k attr
    | some a =>
      if a.Name.Local = "href" then
        aAttrLoop ρ j (k + 1) (attr.set j { a with Value := replaceInLink (ρ k) a.Value })
      else aAttrLoop ρ j k attr

/-- The variables of `ProcessHTML` that change from one iteration of its loop to
the next: the decoder `x`, the encoder with its buffer `xe`, and the number of
`range` loops over `c.LinkReplacements` run so far. -/
structure State (σ : Type) where
  x : Decoder
  xe : σ
  ranges : Nat
deriving DecidableEq

/-- How one iteration of the loop of `ProcessHTML` ends: the loop goes on (the
body ends or does `continue`), the loop is left by `break`, or the function
returns. -/
inductive Step (σ ω : Type) where
  | next (s : State σ)
  | brk (s : State σ)
  | ret (out : ω) (err : Option String)

/-- Go: the two places where a token is written unchanged:
```go
	err = xe.EncodeToken(st)
	if err != nil {
		return "", fmt.Errorf("failed to re-encode token: %w", err)
	}
``` -/
def passThrough {σ ω : Type} [Inhabited ω] (enc : Encoder σ ω) (s : State σ) (x : Decoder)
    (t : Token) : Step σ ω :=
  match enc.EncodeToken s.xe t with
  | .error e => .ret default (some ("failed to re-encode token: " ++ e))
  | .ok xe => .next { s with x := x, xe := xe }

/-- Go: the `img` case of `ProcessHTML`, after `x.Token()` returned the start
element `name`, `attr` and left the decoder in state `x`. -/
def imageNormalize {σ ω : Type} [Inhabited ω] (enc : Encoder σ ω) (s : State σ) (x : Decoder)
    (name : Name) (attr : List Attr) : Step σ ω :=
  match x.DecodeElementAny with
  | (some _, x2) => .next { s with x := x2 }
  | (none, x2) =>
    let attr2 := if attr.length ≠ 0 then imgAttrLoop attr.length attr else attr
    match enc.EncodeToken s.xe (.StartElement name attr2) with
    | .error e => .ret default (some ("failed to re-encode token: " ++ e))
    | .ok xe1 =>
      match enc.EncodeToken xe1 (.EndElement name) with
      | .error e => .ret default (some ("failed to encode end token: " ++ e))
      | .ok xe2 => .next { s with x := x2, xe := xe2 }

/-- Go: the `a` case of `ProcessHTML` when `c.ReplaceLinks && len(st.Attr) != 0`
holds. -/
def anchorRewrite {σ ω : Type} [Inhabited ω] (enc : Encoder σ ω)
    (ρ : RangeOrders) (s : State σ) (x : Decoder)
    (name : Name) (attr : List Attr) : Option (Step σ ω) :=
  match x.DecodeElementEl with
  | none => none
  | some (.error _, x2) => some (.next { s with x := x2 })
  | some (.ok content, x2) =>
    let r := aAttrLoop ρ attr.length s.ranges attr
    match enc.EncodeToken s.xe (.StartElement name r.2) with
    | .error e => some (.ret default (some ("failed to re-encode token: " ++ e)))
    | .ok xe1 =>
      match enc.EncodeToken xe1 (.CharData content) with
      | .error e => some (.ret default (some ("failed to re-encode a content token: " ++ e)))
      | .ok xe2 =>
        match enc.EncodeToken xe2 (.EndElement name) with
        | .error e => some (.ret default (some ("failed to encode end token: " ++ e)))
        | .ok xe3 => some (.next { x := x2, xe := xe3, ranges := r.1 })

/-- Go: one iteration of the `for` loop of `ProcessHTML`:
```go
	t, err := x.Token()
	if err != nil { // EOF
		if err.Error() != "EOF" {
			return "", fmt.Errorf("token parsing error: %v", err.Error())
		}
		break
	}
	st, ok := t.(xml.StartElement)
	if ok {
		switch st.Name.Local {
		case "img": ...
		case "a":
			if c.ReplaceLinks && len(st.Attr) != 0 { ... }
		}
		err = xe.EncodeToken(st)
		...
	} else {
		err = xe.EncodeToken(t)
		...
	}
```
`none` only when the fuel inside `DecodeElementEl` ran out (it never does). -/
def iteration {σ ω : Type} [Inhabited ω] (enc : Encoder σ ω) (c : Config)
    (ρ : RangeOrders) (s : State σ) : Option (Step σ ω) :=
  match s.x.Token with
  | (.error err, _) =>
    if err ≠ "EOF" then some (.ret default (some ("token parsing error: " ++ err)))
    else some (.brk s)
  | (.ok t, x) =>
    match t with
    | .StartElement name attr =>
      if name.Local = "img" then some (imageNormalize enc s x name attr)
      else if name.Local = "a" ∧ c.ReplaceLinks = true ∧ attr.length ≠ 0 then
        anchorRewrite enc ρ s x name attr
      else some (passThrough enc s x (.StartElement name attr))
    | t => some (passThrough enc s x t)

/-- Go: the `for` loop of `ProcessHTML`, run for at most `fuel` iterations.
The result is the state in which the loop was left by `break`, or the values
returned from inside the loop; `none` when the fuel ran out. -/
def loop {σ ω : Type} [Inhabited ω] (enc : Encoder σ ω) (c : Config)
    (ρ : RangeOrders) : Nat → State σ → Option (State σ ⊕ (ω × Option String))
  | 0, _ => none
  | fuel + 1, s =>
    match iteration enc c ρ s with
    | none => none
    | some (.next s2) => loop enc c ρ fuel s2
    | some (.brk s2) => some (.inl s2)
    | some (.ret out err) => some (.inr (out, err))

/-- Go: `func (c *Config) ProcessHTML(s string) (string, error)`. The decoder
`x` stands for `xml.NewDecoder` over the input `s` with `Strict = false`,
`AutoClose = xml.HTMLAutoClose`, `Entity = xml.HTMLEntity`; `enc` for
`xml.NewEncoder(&o)`. Every iteration that does not leave the loop takes at
least one token from the decoder, so one more iteration than there are pending
tokens is enough. After the loop:
```go
	err := xe.Flush()
	if err != nil {
		return "", fmt.Errorf("failed to flush token re-encoder: %w", err)
	}
	return o.String(), nil
```
The result is `none` only if the fuel ran out (it never does, see
`ProcessHTML_returns`). -/
def ProcessHTML {σ ω : Type} [Inhabited ω] (enc : Encoder σ ω) (c : Config)
    (ρ : RangeOrders) (x : Decoder) : Option (ω × Option String) :=
  match loop enc c ρ (x.pending.length + 1) { x := x, xe := enc.init, ranges := 0 } with
  | none => none
  | some (.inr r) => some r
  | some (.inl s) =>
    match enc.Flush s.xe with
    | .error e => some (default, some ("failed to flush token re-encoder: " ++ e))
    | .ok xe => some (enc.contents xe, none)

/-! ### Test inputs -/

/-- Build an attribute without a name space. -/
def mkAttr (name value : String) : Attr :=
  { Name := { Space := "", Local := name }, Value := value }

/-- Build a name without a name space. -/
def mkName (name : String) : Name := { Space := "", Local := name }

/-- The tokens of `<p>Test</p><img height="900" width="200" src="foo.png"><p>Test 2</p>`
(the `img` end element is supplied by `HTMLAutoClose`). -/
def testTokens1 : List Token :=
  [.StartElement (mkName "p") [], .CharData "Test", .EndElement (mkName "p"),
   .StartElement (mkName "img")
     [mkAttr "height" "900", mkAttr "width" "200", mkAttr "src" "foo.png"],
   .EndElement (mkName "img"),
   .StartElement (mkName "p") [], .CharData "Test 2", .EndElement (mkName "p")]


/-- What the `a` case does to the attribute list, written as one pass over the
list: the loop runs from the last attribute to the first, so an attribute is
handled after all those behind it. The first component counts the `range`
loops run. -/
def rewriteHrefs (ρ : RangeOrders) (k : Nat) : List Attr → Nat × List Attr
  | [] => (k, [])
  | a :: rest =>
    if a.Name.Local = "href" then
      ((rewriteHrefs ρ k rest).1 + 1,
        { a with Value := replaceInLink (ρ (rewriteHrefs ρ k rest).1) a.Value }
          :: (rewriteHrefs ρ k rest).2)
    else ((rewriteHrefs ρ k rest).1, a :: (rewriteHrefs ρ k rest).2)

/-- The state of `ProcessHTML` after `n` iterations of its loop that all went on
to the next iteration (`none` if one of them left the loop or returned). -/
def iterate {σ ω : Type} [Inhabited ω] (enc : Encoder σ ω) (c : Config)
    (ρ : RangeOrders) : Nat → State σ → Option (State σ)
  | 0, s => some s
  | n + 1, s =>
    match iteration enc c ρ s with
    | some (Step.next s2) => iterate enc c ρ n s2
    | _ => none

/-- Hand the tokens `ts` to the encoder one after the other, stopping at the
first failure. -/
def feedAll {σ ω : Type} (enc : Encoder σ ω) : σ → List Token → Except String σ
  | xe, [] => .ok xe
  | xe, t :: ts =>
    match enc.EncodeToken xe t with
    | .error e => .error e
    | .ok xe2 => feedAll enc xe2 ts

/-- The tokens of `<a href="x"><img src="y"></a>`, ending with `EOF`. -/
def anchorWithImg : Decoder :=
  ⟨[.StartElement (mkName "a") [mkAttr "href" "x"],
    .StartElement (mkName "img") [mkAttr "src" "y"], .EndElement (mkName "img"),
    .EndElement (mkName "a")], "EOF"⟩

/-- The tokens of `<img height="900" width="200" src="foo.png"/>`, ending with
`EOF`. -/
def imgHeightWidth : Decoder :=
  ⟨[.StartElement (mkName "img")
      [mkAttr "height" "900", mkAttr "width" "200", mkAttr "src" "foo.png"],
    .EndElement (mkName "img")], "EOF"⟩

/-- The tokens of `<IMG height="900"/>`, ending with `EOF` (the decoder keeps the
letter case of a name). -/
def imgUpperCase : Decoder :=
  ⟨[.StartElement (mkName "IMG") [mkAttr "height" "900"], .EndElement (mkName "IMG")], "EOF"⟩

/-- The tokens of `<A href="a">t</A>`, ending with `EOF`. -/
def anchorUpperCase : Decoder :=
  ⟨[.StartElement (mkName "A") [mkAttr "href" "a"], .CharData "t", .EndElement (mkName "A")],
    "EOF"⟩

/-- The tokens of `<a href="a">t</a>`, ending with `EOF`. -/
def anchorLowerCase : Decoder :=
  ⟨[.StartElement (mkName "a") [mkAttr "href" "a"], .CharData "t", .EndElement (mkName "a")],
    "EOF"⟩

/-- The tokens of `<a href="https://example.com" rel="noopener">Example.com</a>`,
ending with `EOF`. -/
def anchorExample : Decoder :=
  ⟨[.StartElement (mkName "a") [mkAttr "href" "https://example.com", mkAttr "rel" "noopener"],
    .CharData "Example.com", .EndElement (mkName "a")], "EOF"⟩

/-- The configuration of the second case of `TestProcessHTML`. -/
def exampleConfig : Config :=
  { ReplaceLinks := true,
    LinkReplacements := some [("https://example.com", "https://nojs.example.com")] }

/-- The tokens of `<a href="x">go <em>here</em></a>`, ending with `EOF`. -/
def anchorWithEm : Decoder :=
  ⟨[.StartElement (mkName "a") [mkAttr "href" "x"], .CharData "go ",
    .StartElement (mkName "em") [], .CharData "here", .EndElement (mkName "em"),
    .EndElement (mkName "a")], "EOF"⟩

/-- The tokens `ts`, read at nesting depth `depth`, close every element they
open and `depth` more, and never more than are open: `balanced 0 body` says that
`body` is the content of one element, start and end tags properly nested. -/
def balanced : Nat → List Token → Bool
  | depth, [] => depth == 0
  | depth, .StartElement _ _ :: ts => balanced (depth + 1) ts
  | 0, .EndElement _ :: _ => false
  | depth + 1, .EndElement _ :: ts => balanced depth ts
  | depth, _ :: ts => balanced depth ts

/-- The character data of `ts` that stand at nesting depth 0, joined in document
order: for the content of an element, the text that is a direct child of it. -/
def directChildText : Nat → List Token → String
  | _, [] => ""
  | depth, .StartElement _ _ :: ts => directChildText (depth + 1) ts
  | depth, .EndElement _ :: ts => directChildText (depth - 1) ts
  | 0, .CharData t :: ts => t ++ directChildText 0 ts
  | depth, _ :: ts => directChildText depth ts

/-- All character data of `ts`, at any depth, joined in document order: the
text an element's content flattens to. -/
def allText : List Token → String
  | [] => ""
  | .CharData t :: ts => t ++ allText ts
  | _ :: ts => allText ts

/-- The tokens of `<a href="x">go <em>here</em></a><!--c-->`, ending with `EOF`. -/
def anchorWithEmAndComment : Decoder :=
  ⟨[.StartElement (mkName "a") [mkAttr "href" "x"], .CharData "go ",
    .StartElement (mkName "em") [], .CharData "here", .EndElement (mkName "em"),
    .EndElement (mkName "a"), .Comment "c"], "EOF"⟩

/-- The tokens of `<img height="900"/>`, ending with `EOF`. -/
def imgLowerCase : Decoder :=
  ⟨[.StartElement (mkName "img") [mkAttr "height" "900"], .EndElement (mkName "img")], "EOF"⟩

/-- A configuration with the two rules `a -> b` and `b -> c`. -/
def cascadeConfig : Config :=
  { ReplaceLinks := true, LinkReplacements := some [("a", "b"), ("b", "c")] }

/-- An encoder that refuses every end tag with the error `boom` and otherwise
appends one character to its buffer for each token. -/
def failOnEnd : Encoder String String where
  init := ""
  EncodeToken := fun s t =>
    match t with
    | .EndElement _ => .error "boom"
    | _ => .ok (s ++ "t")
  Flush := fun s => .ok s
  contents := fun s => s

/-- The tokens of `<p>x`, which the decoder ends with a syntax error: the element
is never closed. -/
def unclosedParagraph : Decoder :=
  ⟨[.StartElement (mkName "p") [], .CharData "x"],
    "XML syntax error on line 1: unexpected EOF"⟩

/-- The tokens of `<p>Test</p>`. -/
def paragraphTokens : List Token :=
  [.StartElement (mkName "p") [], .CharData "Test", .EndElement (mkName "p")]

/-- The tokens of `<p>Test</p><img src="foo.png">`: the input ends inside the
`img` element, which the decoder reports with a syntax error. -/
def unclosedImg : Decoder :=
  ⟨paragraphTokens ++ [.StartElement (mkName "img") [mkAttr "src" "foo.png"]],
    "XML syntax error on line 1: unexpected EOF"⟩

/-- The tokens of `<p>Test</p><a href="x">go`: the input ends inside the
anchor, which the decoder reports with a syntax error. -/
def unclosedAnchor : Decoder :=
  ⟨paragraphTokens ++ [.StartElement (mkName "a") [mkAttr "href" "x"], .CharData "go"],
    "XML syntax error on line 1: unexpected EOF"⟩

/-- The tokens of
`<p>Test</p><a href="x">go <em>here</em><img height="900"> on</a><img height="900"/>`,
ending with `EOF` (the end element of the nested `img` is supplied by
`HTMLAutoClose`): an anchor that holds text, an `em` element and an `img`, followed by an `img`
outside of it. -/
def anchorNesting : Decoder :=
  ⟨paragraphTokens ++
    [.StartElement (mkName "a") [mkAttr "href" "x"], .CharData "go ",
      .StartElement (mkName "em") [], .CharData "here", .EndElement (mkName "em"),
      .StartElement (mkName "img") [mkAttr "height" "900"], .EndElement (mkName "img"),
      .CharData " on", .EndElement (mkName "a"),
      .StartElement (mkName "img") [mkAttr "height" "900"], .EndElement (mkName "img")],
    "EOF"⟩

/-- The tokens of `<p>Test</p><a href="x">go  on</a><img height="900"/>`, ending
with `EOF`: the stream `anchorNesting` without the elements nested in the
anchor. -/
def anchorFlat : Decoder :=
  ⟨paragraphTokens ++
    [.StartElement (mkName "a") [mkAttr "href" "x"], .CharData "go  on",
      .EndElement (mkName "a"),
      .StartElement (mkName "img") [mkAttr "height" "900"], .EndElement (mkName "img")],
    "EOF"⟩

/-! ## `post.go`: posts, their processing, the configuration -/

/-- Go: `GhostPost` (its field `Type` is `Type_` here, `Type` being a keyword). -/
structure GhostPost where
  ID : String := ""
  UUID : String := ""
  Title : String := ""
  Slug : String := ""
  Mobiledoc : NullString := {}
  Lexical : NullString := {}
  HTML : NullString := {}
  CommentID : NullString := {}
  Plaintext : NullString := {}
  FeatureImage : NullString := {}
  Featured : Bool := false
  Type_ : String := ""
  Status : String := ""
  Locale : NullString := {}
  Visibility : String := ""
  EmailRecipientFilter : String := ""
  CreatedAt : Time := Time.zero
  CreatedBy : String := ""
  UpdatedAt : Time := Time.zero
  UpdatedBy : NullString := {}
  PublishedAt : Time := Time.zero
  PublishedBy : NullString := {}
  CustomExcerpt : NullString := {}
  CodeinjectionHead : NullString := {}
  CodeinjectionFoot : NullString := {}
  CustomTemplate : NullString := {}
  CanonicalUrl : NullString := {}
  NewsletterId : NullString := {}
  ShowTitleAndFeatureImage : Bool := false
  SqlCreatedAt : String := ""
  SqlUpdatedAt : NullString := {}
  SqlPublishedAt : NullString := {}
  IsDraft : Bool := false
deriving DecidableEq, Repr

/-- Go: `const GhostPostStatusDraft = "draft"`. -/
def GhostPostStatusDraft : String := "draft"

/-- Go, at the end of `ProcessGhostPost`:
```go
	if post.Status == GhostPostStatusDraft {
		post.IsDraft = true
	}
	if c.PublishDrafts {
		post.IsDraft = false
	}
``` -/
def markDraft (c : Config) (post : GhostPost) : GhostPost :=
  let post1 := if post.Status = GhostPostStatusDraft then { post with IsDraft := true } else post
  if c.PublishDrafts = true then { post1 with IsDraft := false } else post1

/-- Go: the part of `ProcessGhostPost` from `if post.SqlPublishedAt.Valid` to
the end. `parse s` stands for `time.Parse("2006-01-02 15:04:05", s)` (on an
error `time.Parse` returns the zero `Time`, which the assignment stores), and
`now` for the value `time.Now()` returns if this call reads the clock. The
second component is the `Config` after the call (`c` is a pointer receiver). -/
def processPublishedAt (parse : String → Except String Time) (now : Time) (c : Config)
    (post : GhostPost) : (GhostPost × Option String) × Config :=
  if post.SqlPublishedAt.Valid = true then
    match parse post.SqlPublishedAt.String with
    | .error e =>
      (({ post with PublishedAt := Time.zero },
        some ("failed to parse PublishedAt datetime: " ++ e)), c)
    | .ok t => ((markDraft c { post with PublishedAt := t }, none), c)
  else if (!post.SqlPublishedAt.Valid && c.SetUnpublishedToNow) = true then
    let c1 := if c.lastPublishOverride.IsZero = true then { c with lastPublishOverride := now } else c
    let c2 := { c1 with lastPublishOverride := c1.lastPublishOverride.Add (-1 * Second) }
    ((markDraft c2 { post with PublishedAt := c2.lastPublishOverride }, none), c2)
  else ((markDraft c post, none), c)

/-- Go: `func (c *Config) ProcessGhostPost(post GhostPost) (GhostPost, error)`;
see `processPublishedAt` for `parse`, `now` and the second component. -/
def ProcessGhostPost (parse : String → Except String Time) (now : Time) (c : Config)
    (post : GhostPost) : (GhostPost × Option String) × Config :=
  match parse post.SqlCreatedAt with
  | .error e =>
    (({ post with CreatedAt := Time.zero }, some ("failed to parse CreatedAt datetime: " ++ e)), c)
  | .ok created =>
    let post1 := { post with CreatedAt := created }
    if post1.SqlUpdatedAt.Valid = true then
      match parse post1.SqlUpdatedAt.String with
      | .error e =>
        (({ post1 with UpdatedAt := Time.zero },
          some ("failed to parse UpdatedAt datetime: " ++ e)), c)
      | .ok updated => processPublishedAt parse now c { post1 with UpdatedAt := updated }
    else processPublishedAt parse now c post1

/-- Go: `const ghostUrl = "__GHOST_URL__"`. -/
def ghostUrl : String := "__GHOST_URL__"

/-- Go: `postTemplate`, the value handed to the template. -/
structure postTemplate where
  FrontMatterConfig : FrontMatterConfig
  Post : GhostPost
  PostDate : String
  PostHTML : String
  RawShortcodeStart : String
  RawShortcodeEnd : String

/-- Go: `func (c *Config) RenderString(post GhostPost) (string, error)`.
`tokenize h` stands for the decoder `ProcessHTML` builds over its argument `h`,
`format` for `(Time).Format(time.RFC3339)` and `execute` for
`c.template.Execute` followed by `b.String()`. `none` only if the fuel inside
`ProcessHTML` ran out. -/
def RenderString {σ : Type} (enc : Encoder σ String) (tokenize : String → Decoder)
    (format : Time → String) (execute : postTemplate → Except String String)
    (c : Config) (ρ : RangeOrders) (post : GhostPost) : Option (String × Option String) :=
  if (!post.HTML.Valid && c.ForbidEmptyPosts) = true then
    some ("", some ("post " ++ post.ID ++ " html is null, cannot render"))
  else
    let h := ReplaceAll post.HTML.String ghostUrl c.GhostURL
    match ProcessHTML enc c ρ (tokenize h) with
    | none => none
    | some (_, some err) => some ("", some ("failed to process html: " ++ err))
    | some (h2, none) =>
      match execute ⟨c.FrontMatter, post, format post.PublishedAt, h2, c.RawShortcodeStart,
          c.RawShortcodeEnd⟩ with
      | .error e => some ("", some ("failed to render post: " ++ e))
      | .ok b => some (b, none)

/-- Go: `DefaultRawShortcodeStart`. -/
def DefaultRawShortcodeStart : String := "\x7b\x7b< rawhtml >\x7d\x7d"

/-- Go: `DefaultRawShortcodeEnd`. -/
def DefaultRawShortcodeEnd : String := "\x7b\x7b</ rawhtml >\x7d\x7d"

/-- Go: `DefaultTemplate`. -/
def DefaultTemplate : String :=
  "---\n\x7b\x7b .FrontMatterConfig.Title \x7d\x7d: |\n  \x7b\x7b .Post.Title \x7d\x7d\n" ++
  "\x7b\x7b .FrontMatterConfig.Date \x7d\x7d: \"\x7b\x7b .PostDate \x7d\x7d\"\n" ++
  "\x7b\x7b .FrontMatterConfig.Draft \x7d\x7d: \x7b\x7b .Post.IsDraft \x7d\x7d\n" ++
  "\x7b\x7b .FrontMatterConfig.Slug \x7d\x7d: \x7b\x7b .Post.Slug \x7d\x7d\n" ++
  "isPost: true\n---\n\n\x7b\x7b .RawShortcodeStart \x7d\x7d\n\x7b\x7b .PostHTML \x7d\x7d\n" ++
  "\x7b\x7b .RawShortcodeEnd \x7d\x7d\n"

/-- Go: `DefaultFrontMatterTitle`. -/
def DefaultFrontMatterTitle : String := "title"

/-- Go: `DefaultFrontMatterDate`. -/
def DefaultFrontMatterDate : String := "date"

/-- Go: `DefaultFrontMatterSlug`. -/
def DefaultFrontMatterSlug : String := "slug"

/-- Go: `DefaultFrontMatterDraft`. -/
def DefaultFrontMatterDraft : String := "draft"

/-- Go: `func (f *FrontMatterConfig) ApplyDefaults()`; the result is the value
`f` points to after the call. -/
def FrontMatterConfig.ApplyDefaults (f : FrontMatterConfig) : FrontMatterConfig :=
  let f1 := if f.Title = "" then { f with Title := DefaultFrontMatterTitle } else f
  let f2 := if f1.Date = "" then { f1 with Date := DefaultFrontMatterDate } else f1
  let f3 := if f2.Draft = "" then { f2 with Draft := DefaultFrontMatterDraft } else f2
  if f3.Slug = "" then { f3 with Slug := DefaultFrontMatterSlug } else f3

/-- Go: `func (c *Config) ApplyDefaults()`; the result is the `Config` after the
call. `len` of a map is the number of its entries, 0 for a nil map. -/
def Config.ApplyDefaults (c : Config) : Config :=
  let c1 := if c.Template = "" then { c with Template := DefaultTemplate } else c
  let c2 := if c1.PostStatuses.entries.length = 0 then
    { c1 with PostStatuses := some [("published", true), ("draft", false)] } else c1
  let c3 := if c2.PostTypes.entries.length = 0 then
    { c2 with PostTypes := some [("post", true), ("page", true)] } else c2
  let c4 := if c3.PostVisibilities.entries.length = 0 then
    { c3 with PostVisibilities := some [("public", true)] } else c3
  let c5 := if c4.RawShortcodeStart = "" then
    { c4 with RawShortcodeStart := DefaultRawShortcodeStart } else c4
  let c6 := if c5.RawShortcodeEnd = "" then
    { c5 with RawShortcodeEnd := DefaultRawShortcodeEnd } else c5
  { c6 with FrontMatter := c6.FrontMatter.ApplyDefaults }

/-- Go: `func (c *Config) Process()`; the result is the `Config` after the call.
```go
	if c.LinkReplacements == nil {
		c.LinkReplacements = make(map[string]string)
	}
	c.ReplaceLinks = len(c.LinkReplacements) > 0
``` -/
def Config.Process (c : Config) : Config :=
  let c1 := if c.LinkReplacements = none then { c with LinkReplacements := some [] } else c
  { c1 with ReplaceLinks := decide (c1.LinkReplacements.entries.length > 0) }

/-- Go: one of the three loops of `IsValid`,
```go
	for k, v := range m {
		if key == k && !v {
			return false
		}
	}
```
run over the entries in the order `order`; `false` when the loop returned
`false`, `true` when it ran to its end. -/
def validLoop (key : String) : List (String × Bool) → Bool
  | [] => true
  | (k, v) :: rest => if (key = k ∧ v = false) then false else validLoop key rest

/-- Go: `func (c *Config) IsValid(p GhostPost) bool`. `oT`, `oS` and `oV` are the
orders in which the three `range` loops visit the entries of `c.PostTypes`,
`c.PostStatuses` and `c.PostVisibilities`. -/
def Config.IsValid (c : Config) (oT oS oV : List (String × Bool)) (p : GhostPost) : Bool :=
  if c.PostTypes.entries.length = 0 ∨ c.PostStatuses.entries.length = 0 ∨
      c.PostVisibilities.entries.length = 0 then false
  else if validLoop p.Type_ oT = false then false
  else if validLoop p.Status oS = false then false
  else if validLoop p.Visibility oV = false then false
  else true

/-! ### Test inputs for `post.go` -/

/-- The instant 2006-01-02 15:04:05 UTC: 63271811045 seconds after the zero
`Time` (1136214245 seconds after the Unix epoch). -/
def time2006 : Time := ⟨63271811045 * 1000000000⟩

/-- A stand-in for `time.Parse("2006-01-02 15:04:05", s)` on the strings of
`TestProcessGhostPost`: it accepts `2006-01-02 15:04:05` and nothing else. -/
def parseTest (s : String) : Except String Time :=
  if s = "2006-01-02 15:04:05" then .ok time2006 else .error ("cannot parse " ++ s)

/-- The post `tp` of `TestProcessGhostPost`. -/
def testPost : GhostPost :=
  { SqlCreatedAt := "2006-01-02 15:04:05",
    SqlUpdatedAt := { String := "2006-01-02 15:04:05", Valid := true },
    SqlPublishedAt := { String := "2006-01-02 15:04:05", Valid := true },
    Status := GhostPostStatusDraft }

/-- The date `badDate` of `TestProcessGhostPost`. -/
def badDate : String := "0-99-99 50:99:99"

/-- A configuration of `TestIsValid`: every map allows its one key. -/
def validConfig : Config :=
  { PostTypes := some [("foo", true)], PostVisibilities := some [("bar", true)],
    PostStatuses := some [("baz", true)] }

/-- The configuration that `ApplyDefaults` makes of the zero `Config`. -/
def defaultConfig : Config := Config.ApplyDefaults {}

/-- A draft post of type `post`, visible to the public. -/
def draftPost : GhostPost :=
  { Type_ := "post", Status := "draft", Visibility := "public", IsDraft := true }

/-- The post `draftPost`, published. -/
def publishedPost : GhostPost :=
  { Type_ := "post", Status := "published", Visibility := "public", IsDraft := false }

/-- The string `s` parses: `time.Parse` returns a nil error on it. -/
def Parses (parse : String → Except String Time) (s : String) : Prop :=
  ∃ t, parse s = Except.ok t

/-- Go: successive calls `c.ProcessGhostPost(post)` on one `Config`, in the
order of the list; each post comes with the value `time.Now()` returns if its
call reads the clock. The result is the list of the values the calls return
and the `Config` after the last call. -/
def processAll (parse : String → Except String Time) (c : Config) :
    List (Time × GhostPost) → List (GhostPost × Option String) × Config
  | [] => ([], c)
  | (now, post) :: rest =>
    ((ProcessGhostPost parse now c post).1 ::
        (processAll parse (ProcessGhostPost parse now c post).2 rest).1,
      (processAll parse (ProcessGhostPost parse now c post).2 rest).2)

/-- The calls whose post has a null published date. -/
def nullCalls (calls : List (Time × GhostPost)) : List (Time × GhostPost) :=
  calls.filter (fun q => !q.2.SqlPublishedAt.Valid)

/-- A post without dates to update or publish: created at `2006-01-02 15:04:05`,
`SqlUpdatedAt` and `SqlPublishedAt` null. -/
def unpublishedPost : GhostPost := { SqlCreatedAt := "2006-01-02 15:04:05" }

/-- A configuration with `SetUnpublishedToNow` true and everything else at its
zero value, the counter `lastPublishOverride` included. -/
def counterConfig : Config := { SetUnpublishedToNow := true }

/-- Three clock readings, one hundred seconds apart, long after the zero
time. -/
def clock1 : Time := ⟨63900000000 * 1000000000⟩

def clock2 : Time := ⟨63900000100 * 1000000000⟩

def clock3 : Time := ⟨63900000200 * 1000000000⟩

/-- Two calls: a post with a null published date at `clock1`, then the post of
`TestProcessGhostPost`, which has a published date, at `clock2`. -/
def twoCalls : List (Time × GhostPost) := [(clock1, unpublishedPost), (clock2, testPost)]

/-- An encoder that writes the text of each `CharData` token it is handed and
nothing for any other token, and never fails: what `xml.Encoder` writes for
character data without a character it escapes. -/
def textWriter : Encoder String String where
  init := ""
  EncodeToken := fun s t =>
    match t with
    | .CharData d => .ok (s ++ d)
    | _ => .ok s
  Flush := fun s => .ok s
  contents := fun s => s

/-- The decoder over a text without markup: one `CharData` token holding the
text, then the end of input. -/
def plainText (h : String) : Decoder := ⟨[Token.CharData h], "EOF"⟩

/-- An HTML text in which the placeholder appears only once the occurrence in
its middle is taken out. -/
def nestedPlaceholder : String := "__GHOST___GHOST_URL__URL__"

/-- The attribute text of `TestRenderString`. -/
def ghostImgSrc : String := "src=\"__GHOST_URL__/foo.png\""

/-- The `GhostURL` of `TestRenderString`. -/
def exampleGhostURL : String := "https://example.com"

/-! ## `strings.ReplaceAll`: what the model computes -/

/-- The scan is over once the string is used up: any fuel of at least the length
of the string gives the same result. -/
theorem replaceScan_fuel (old new : List Char) (hold : old ≠ []) :
    ∀ (f1 f2 : Nat) (s : List Char), s.length ≤ f1 → s.length ≤ f2 →
      replaceScan old new f1 s = replaceScan old new f2 s := by
  intro f1
  induction f1 with
  | zero =>
    intro f2 s h1 _
    have hs : s = [] := List.length_eq_zero.mp (Nat.le_zero.mp h1)
    subst hs
    cases f2 <;> rfl
  | succ f1 ih =>
    intro f2 s h1 h2
    cases s with
    | nil => cases f2 <;> rfl
    | cons ch t =>
      cases f2 with
      | zero => simp at h2
      | succ f2 =>
        simp only [List.length_cons, Nat.add_le_add_iff_right] at h1 h2
        have hlen : 1 ≤ old.length := List.length_pos.mpr hold
        have hd : ((ch :: t).drop old.length).length ≤ t.length := by
          simp only [List.length_drop, List.length_cons]; omega
        simp only [replaceScan]
        split
        · rw [ih f2 _ (by omega) (by omega)]
        · rw [ih f2 t h1 h2]

/-- A pattern that does not occur in the string leaves it as it is. -/
theorem replaceScan_of_absent (old new : List Char) :
    ∀ (fuel : Nat) (s : List Char), ¬ old <:+: s → replaceScan old new fuel s = s := by
  intro fuel
  induction fuel with
  | zero => intro s _; rfl
  | succ fuel ih =>
    intro s h
    cases s with
    | nil => rfl
    | cons ch t =>
      have hp : ¬ old.isPrefixOf (ch :: t) = true :=
        fun hp => h (List.isPrefixOf_iff_prefix.mp hp).isInfix
      simp only [replaceScan, if_neg hp]
      rw [ih t (fun ht => h (List.infix_cons ht))]

/-- The leftmost occurrence of the pattern is replaced and the scan goes on
behind it: if `old` does not occur in `p ++ old` before the end, then
`p ++ old ++ q` becomes `p ++ new` followed by the result for `q`. -/
theorem replaceScan_leftmost (old new : List Char) (hold : old ≠ []) (q : List Char) :
    ∀ (p : List Char) (fuel : Nat), ¬ old <:+: p ++ old.dropLast →
      (p ++ old ++ q).length ≤ fuel →
      replaceScan old new fuel (p ++ old ++ q)
        = p ++ new ++ replaceScan old new q.length q := by
  have hlen : 1 ≤ old.length := List.length_pos.mpr hold
  intro p
  induction p with
  | nil =>
    intro fuel _ hf
    obtain ⟨c, o, rfl⟩ := List.exists_cons_of_ne_nil hold
    cases fuel with
    | zero => simp at hf
    | succ fuel =>
      have hp : (c :: o).isPrefixOf (c :: (o ++ q)) = true :=
        List.isPrefixOf_iff_prefix.mpr ⟨q, rfl⟩
      have hd : (c :: (o ++ q)).drop (c :: o).length = q := List.drop_left (c :: o) q
      simp only [List.nil_append, List.cons_append]
      rw [replaceScan, if_pos hp, hd]
      rw [replaceScan_fuel (c :: o) new hold fuel q.length q
        (by simp only [List.nil_append, List.cons_append, List.length_cons,
              List.length_append] at hf; omega) (Nat.le_refl _)]
  | cons c p ih =>
    intro fuel hno hf
    cases fuel with
    | zero => simp at hf
    | succ fuel =>
      have hp : ¬ old.isPrefixOf (c :: (p ++ old ++ q)) = true := by
        intro hp
        have h1 : old <+: c :: (p ++ old ++ q) := List.isPrefixOf_iff_prefix.mp hp
        have h2 : (c :: p ++ old.dropLast) <+: c :: (p ++ old ++ q) := by
          refine ⟨[old.getLast hold] ++ q, ?_⟩
          have := List.dropLast_append_getLast hold
          simp only [List.cons_append, List.append_assoc, List.cons.injEq, true_and,
            List.append_cancel_left_eq, List.nil_append]
          rw [← List.singleton_append, ← List.append_assoc, this]
        have h3 : old.length ≤ (c :: p ++ old.dropLast).length := by
          simp only [List.cons_append, List.length_cons, List.length_append,
            List.length_dropLast]
          omega
        exact hno (List.prefix_of_prefix_length_le h1 h2 h3).isInfix
      have hno2 : ¬ old <:+: p ++ old.dropLast := fun h => hno (List.infix_cons h)
      simp only [List.cons_append]
      rw [replaceScan, if_neg hp, ih fuel hno2 (by simpa using hf)]

/-- `strings.ReplaceAll` leaves a string in which the pattern does not occur as
it is. -/
theorem ReplaceAll_of_absent (s old new : String) (hno : ¬ old.data <:+: s.data) :
    ReplaceAll s old new = s := by
  have hold : old.data ≠ [] := fun h => hno (h ▸ List.nil_infix)
  unfold ReplaceAll
  split
  · rfl
  · rw [replaceScan_of_absent _ _ _ _ hno]

/-- `strings.ReplaceAll` replaces the leftmost occurrence of a non-empty pattern
and goes on in the rest of the string. -/
theorem ReplaceAll_leftmost (p q old new : String) (hold : old ≠ "") (hne : old ≠ new)
    (hno : ¬ old.data <:+: p.data ++ old.data.dropLast) :
    ReplaceAll (p ++ old ++ q) old new = p ++ new ++ ReplaceAll q old new := by
  have hd : old.data ≠ [] := fun h => hold (String.ext h)
  unfold ReplaceAll
  rw [if_neg hne, if_neg hd, if_neg hne, if_neg hd]
  apply String.ext
  simp only [String.data_append]
  exact replaceScan_leftmost old.data new.data hd q.data p.data _ hno (Nat.le_refl _)

/-! ## Basic facts: the decoder only moves forward, the loop ends -/

theorem skipTokens_length (terminal : String) (ts : List Token) :
    ∀ depth, (skipTokens terminal depth ts).2.length ≤ ts.length := by
  induction ts with
  | nil => intro depth; simp [skipTokens]
  | cons t ts ih =>
    intro depth
    cases t with
    | StartElement n a => simp only [skipTokens]; exact Nat.le_succ_of_le (ih _)
    | EndElement n =>
      cases depth with
      | zero => simp [skipTokens]
      | succ d => simp only [skipTokens]; exact Nat.le_succ_of_le (ih _)
    | CharData d => simp only [skipTokens]; exact Nat.le_succ_of_le (ih _)
    | Comment d => simp only [skipTokens]; exact Nat.le_succ_of_le (ih _)
    | ProcInst a b => simp only [skipTokens]; exact Nat.le_succ_of_le (ih _)
    | Directive d => simp only [skipTokens]; exact Nat.le_succ_of_le (ih _)

theorem skipTokens_ok_length (terminal : String) (ts : List Token) :
    ∀ depth, (skipTokens terminal depth ts).1 = none →
      (skipTokens terminal depth ts).2.length < ts.length := by
  induction ts with
  | nil => intro depth; simp [skipTokens]
  | cons t ts ih =>
    intro depth
    cases t with
    | StartElement n a =>
      simp only [skipTokens]; intro h; exact Nat.lt_succ_of_lt (ih _ h)
    | EndElement n =>
      cases depth with
      | zero => simp [skipTokens]
      | succ d => simp only [skipTokens]; intro h; exact Nat.lt_succ_of_lt (ih _ h)
    | CharData d => simp only [skipTokens]; intro h; exact Nat.lt_succ_of_lt (ih _ h)
    | Comment d => simp only [skipTokens]; intro h; exact Nat.lt_succ_of_lt (ih _ h)
    | ProcInst a b => simp only [skipTokens]; intro h; exact Nat.lt_succ_of_lt (ih _ h)
    | Directive d => simp only [skipTokens]; intro h; exact Nat.lt_succ_of_lt (ih _ h)

/-- With more fuel than pending tokens `unmarshalEl` returns, and it leaves no
more tokens than it was given. -/
theorem unmarshalEl_returns (terminal : String) :
    ∀ (fuel : Nat) (data : String) (ts : List Token), ts.length < fuel →
      ∃ r, unmarshalEl terminal fuel data ts = some r ∧ r.2.length ≤ ts.length := by
  intro fuel
  induction fuel with
  | zero => intro data ts h; omega
  | succ fuel ih =>
    intro data ts h
    cases ts with
    | nil => exact ⟨_, rfl, Nat.le_refl _⟩
    | cons t ts =>
      simp only [List.length_cons] at h
      cases t with
      | StartElement n a =>
        simp only [unmarshalEl]
        have hlen := skipTokens_length terminal ts 0
        rcases hsk : skipTokens terminal 0 ts with ⟨e, r⟩
        rw [hsk] at hlen
        cases e with
        | some err => exact ⟨_, rfl, Nat.le_succ_of_le hlen⟩
        | none =>
          obtain ⟨q, hq, hql⟩ := ih data r (by simp only at hlen; omega)
          exact ⟨q, hq, by simp only [List.length_cons]; simp only at hlen; omega⟩
      | EndElement n => exact ⟨_, rfl, Nat.le_succ _⟩
      | CharData d =>
        obtain ⟨q, hq, hql⟩ := ih (data ++ d) ts (by omega)
        exact ⟨q, by simpa only [unmarshalEl] using hq, Nat.le_succ_of_le hql⟩
      | Comment d =>
        obtain ⟨q, hq, hql⟩ := ih data ts (by omega)
        exact ⟨q, by simpa only [unmarshalEl] using hq, Nat.le_succ_of_le hql⟩
      | ProcInst a b =>
        obtain ⟨q, hq, hql⟩ := ih data ts (by omega)
        exact ⟨q, by simpa only [unmarshalEl] using hq, Nat.le_succ_of_le hql⟩
      | Directive d =>
        obtain ⟨q, hq, hql⟩ := ih data ts (by omega)
        exact ⟨q, by simpa only [unmarshalEl] using hq, Nat.le_succ_of_le hql⟩

theorem passThrough_next {σ ω : Type} [Inhabited ω] (enc : Encoder σ ω) (s s2 : State σ)
    (x : Decoder) (t : Token) (h : passThrough enc s x t = Step.next s2) : s2.x = x := by
  unfold passThrough at h
  split at h
  · cases h
  · cases h; rfl

theorem passThrough_not_brk {σ ω : Type} [Inhabited ω] (enc : Encoder σ ω) (s s2 : State σ)
    (x : Decoder) (t : Token) : passThrough enc s x t ≠ Step.brk s2 := by
  unfold passThrough
  split <;> simp

theorem imageNormalize_next {σ ω : Type} [Inhabited ω] (enc : Encoder σ ω) (s s2 : State σ)
    (x : Decoder) (name : Name) (attr : List Attr)
    (h : imageNormalize enc s x name attr = Step.next s2) :
    s2.x.pending.length ≤ x.pending.length ∧ s2.x.terminal = x.terminal := by
  unfold imageNormalize at h
  have hlen := skipTokens_length x.terminal x.pending 0
  simp only [Decoder.DecodeElementAny, Decoder.Skip] at h
  split at h
  · next heq =>
    cases h
    simp only [Prod.mk.injEq] at heq
    obtain ⟨-, rfl⟩ := heq
    exact ⟨hlen, rfl⟩
  · next heq =>
    simp only [Prod.mk.injEq] at heq
    obtain ⟨-, rfl⟩ := heq
    split at h
    · cases h
    · split at h
      · cases h
      · cases h; exact ⟨hlen, rfl⟩

theorem imageNormalize_not_brk {σ ω : Type} [Inhabited ω] (enc : Encoder σ ω) (s s2 : State σ)
    (x : Decoder) (name : Name) (attr : List Attr) :
    imageNormalize enc s x name attr ≠ Step.brk s2 := by
  unfold imageNormalize
  split
  · simp
  · dsimp only
    generalize (if attr.length ≠ 0 then imgAttrLoop attr.length attr else attr) = attr2
    split
    · simp
    · split <;> simp

theorem DecodeElementEl_returns (d : Decoder) :
    ∃ r, d.DecodeElementEl = some r ∧ r.2.pending.length ≤ d.pending.length ∧
      r.2.terminal = d.terminal := by
  obtain ⟨q, hq, hql⟩ := unmarshalEl_returns d.terminal (d.pending.length + 1) "" d.pending
    (Nat.lt_succ_self _)
  exact ⟨(q.1, { d with pending := q.2 }), by simp [Decoder.DecodeElementEl, hq], hql, rfl⟩

theorem anchorRewrite_returns {σ ω : Type} [Inhabited ω] (enc : Encoder σ ω)
    (ρ : RangeOrders) (s : State σ) (x : Decoder) (name : Name)
    (attr : List Attr) : ∃ st, anchorRewrite enc ρ s x name attr = some st := by
  obtain ⟨r, hr, -⟩ := DecodeElementEl_returns x
  unfold anchorRewrite
  rw [hr]
  rcases r with ⟨_ | content, x2⟩
  · exact ⟨_, rfl⟩
  · simp only
    split
    · exact ⟨_, rfl⟩
    · split
      · exact ⟨_, rfl⟩
      · split <;> exact ⟨_, rfl⟩

theorem anchorRewrite_next {σ ω : Type} [Inhabited ω] (enc : Encoder σ ω)
    (ρ : RangeOrders) (s s2 : State σ) (x : Decoder) (name : Name)
    (attr : List Attr) (h : anchorRewrite enc ρ s x name attr = some (Step.next s2)) :
    s2.x.pending.length ≤ x.pending.length ∧ s2.x.terminal = x.terminal := by
  obtain ⟨r, hr, hlen, hterm⟩ := DecodeElementEl_returns x
  unfold anchorRewrite at h
  rw [hr] at h
  rcases r with ⟨_ | content, x2⟩
  · simp only [Option.some.injEq, Step.next.injEq] at h
    subst h
    exact ⟨hlen, hterm⟩
  · simp only at h
    split at h
    · cases h
    · split at h
      · cases h
      · split at h
        · cases h
        · cases h; exact ⟨hlen, hterm⟩

theorem anchorRewrite_not_brk {σ ω : Type} [Inhabited ω] (enc : Encoder σ ω)
    (ρ : RangeOrders) (s s2 : State σ) (x : Decoder) (name : Name)
    (attr : List Attr) : anchorRewrite enc ρ s x name attr ≠ some (Step.brk s2) := by
  unfold anchorRewrite
  split
  · simp
  · simp
  · simp only
    split
    · simp
    · split
      · simp
      · split <;> simp

/-- An iteration always ends in one of the three ways. -/
theorem iteration_returns {σ ω : Type} [Inhabited ω] (enc : Encoder σ ω) (c : Config)
    (ρ : RangeOrders) (s : State σ) : ∃ st, iteration enc c ρ s = some st := by
  unfold iteration
  split
  · split <;> exact ⟨_, rfl⟩
  · split
    · split
      · exact ⟨_, rfl⟩
      · split
        · exact anchorRewrite_returns enc ρ s _ _ _
        · exact ⟨_, rfl⟩
    · exact ⟨_, rfl⟩

theorem Token_ok (d d2 : Decoder) (t : Token) (h : d.Token = (Except.ok t, d2)) :
    d.pending = t :: d2.pending ∧ d2.terminal = d.terminal := by
  unfold Decoder.Token at h
  split at h
  · simp at h
  · next t2 ts heq =>
    simp only [Prod.mk.injEq, Except.ok.injEq] at h
    obtain ⟨rfl, rfl⟩ := h
    exact ⟨heq, rfl⟩

theorem Token_error (d d2 : Decoder) (e : String) (h : d.Token = (Except.error e, d2)) :
    d.pending = [] ∧ e = d.terminal ∧ d2 = d := by
  unfold Decoder.Token at h
  split at h
  · next heq =>
    simp only [Prod.mk.injEq, Except.error.injEq] at h
    exact ⟨heq, h.1.symm, h.2.symm⟩
  · simp at h

/-- An iteration after which the loop goes on has taken at least one token from
the decoder. -/
theorem iteration_next {σ ω : Type} [Inhabited ω] (enc : Encoder σ ω) (c : Config)
    (ρ : RangeOrders) (s s2 : State σ)
    (h : iteration enc c ρ s = some (Step.next s2)) :
    s2.x.pending.length < s.x.pending.length ∧ s2.x.terminal = s.x.terminal := by
  unfold iteration at h
  split at h
  · split at h <;> simp at h
  · next t x htok =>
    obtain ⟨hp, ht⟩ := Token_ok _ _ _ htok
    rw [hp, ← ht, List.length_cons]
    split at h
    · split at h
      · simp only [Option.some.injEq] at h
        have := imageNormalize_next enc s s2 x _ _ h
        exact ⟨by omega, this.2⟩
      · split at h
        · have := anchorRewrite_next enc ρ s s2 x _ _ h
          exact ⟨by omega, this.2⟩
        · simp only [Option.some.injEq] at h
          have := passThrough_next enc s s2 x _ h
          rw [this]; exact ⟨Nat.lt_succ_self _, rfl⟩
    · simp only [Option.some.injEq] at h
      have := passThrough_next enc s s2 x _ h
      rw [this]; exact ⟨Nat.lt_succ_self _, rfl⟩

/-- The loop is left by `break` only when the decoder has no token left and ends
with the error `EOF`. -/
theorem iteration_brk {σ ω : Type} [Inhabited ω] (enc : Encoder σ ω) (c : Config)
    (ρ : RangeOrders) (s s2 : State σ)
    (h : iteration enc c ρ s = some (Step.brk s2)) :
    s2 = s ∧ s.x.pending = [] ∧ s.x.terminal = "EOF" := by
  unfold iteration at h
  split at h
  · next err x htok =>
    obtain ⟨hp, he, -⟩ := Token_error _ _ _ htok
    split at h
    · simp at h
    · next hne =>
      simp only [Option.some.injEq, Step.brk.injEq] at h
      simp only [ne_eq, Decidable.not_not] at hne
      exact ⟨h.symm, hp, he ▸ hne⟩
  · split at h
    · split at h
      · simp only [Option.some.injEq] at h
        exact absurd h (imageNormalize_not_brk enc s s2 _ _ _)
      · split at h
        · exact absurd h (anchorRewrite_not_brk enc ρ s s2 _ _ _)
        · simp only [Option.some.injEq] at h
          exact absurd h (passThrough_not_brk enc s s2 _ _)
    · simp only [Option.some.injEq] at h
      exact absurd h (passThrough_not_brk enc s s2 _ _)

/-- With more fuel than pending tokens the loop ends. -/
theorem loop_returns {σ ω : Type} [Inhabited ω] (enc : Encoder σ ω) (c : Config)
    (ρ : RangeOrders) :
    ∀ (fuel : Nat) (s : State σ), s.x.pending.length < fuel →
      ∃ r, loop enc c ρ fuel s = some r := by
  intro fuel
  induction fuel with
  | zero => intro s h; omega
  | succ fuel ih =>
    intro s h
    obtain ⟨st, hst⟩ := iteration_returns enc c ρ s
    unfold loop
    rw [hst]
    cases st with
    | next s2 =>
      have := iteration_next enc c ρ s s2 hst
      exact ih s2 (by omega)
    | brk s2 => exact ⟨_, rfl⟩
    | ret out err => exact ⟨_, rfl⟩

/-- The result of the loop does not depend on the fuel, once there is enough. -/
theorem loop_fuel {σ ω : Type} [Inhabited ω] (enc : Encoder σ ω) (c : Config)
    (ρ : RangeOrders) :
    ∀ (fuel fuel2 : Nat) (s : State σ), s.x.pending.length < fuel → s.x.pending.length < fuel2 →
      loop enc c ρ fuel s = loop enc c ρ fuel2 s := by
  intro fuel
  induction fuel with
  | zero => intro fuel2 s h; omega
  | succ fuel ih =>
    intro fuel2 s h h2
    cases fuel2 with
    | zero => omega
    | succ fuel2 =>
      obtain ⟨st, hst⟩ := iteration_returns enc c ρ s
      unfold loop
      rw [hst]
      cases st with
      | next s2 =>
        have := iteration_next enc c ρ s s2 hst
        exact ih fuel2 s2 (by omega) (by omega)
      | brk s2 => rfl
      | ret out err => rfl

/-- `ProcessHTML` returns on every input, for every encoder. -/
theorem ProcessHTML_returns {σ ω : Type} [Inhabited ω] (enc : Encoder σ ω) (c : Config)
    (ρ : RangeOrders) (x : Decoder) :
    ∃ r, ProcessHTML enc c ρ x = some r := by
  obtain ⟨r, hr⟩ := loop_returns enc c ρ (x.pending.length + 1)
    { x := x, xe := enc.init, ranges := 0 } (Nat.lt_succ_self _)
  unfold ProcessHTML
  rw [hr]
  cases r with
  | inr r => exact ⟨_, rfl⟩
  | inl s =>
    simp only
    split <;> exact ⟨_, rfl⟩

/-! ## Running the loop from a state reached after some iterations -/

theorem iterate_bounds {σ ω : Type} [Inhabited ω] (enc : Encoder σ ω) (c : Config)
    (ρ : RangeOrders) :
    ∀ (n : Nat) (s0 s : State σ), iterate enc c ρ n s0 = some s →
      s.x.pending.length + n ≤ s0.x.pending.length ∧ s.x.terminal = s0.x.terminal := by
  intro n
  induction n with
  | zero =>
    intro s0 s h
    simp only [iterate, Option.some.injEq] at h
    subst h
    exact ⟨Nat.le_refl _, rfl⟩
  | succ n ih =>
    intro s0 s h
    unfold iterate at h
    split at h
    · next s1 hit =>
      have h1 := iteration_next enc c ρ s0 s1 hit
      have h2 := ih s1 s h
      exact ⟨by omega, h2.2.trans h1.2⟩
    · cases h

theorem iterate_succ {σ ω : Type} [Inhabited ω] (enc : Encoder σ ω) (c : Config)
    (ρ : RangeOrders) :
    ∀ (n : Nat) (s0 s s2 : State σ), iterate enc c ρ n s0 = some s →
      iteration enc c ρ s = some (Step.next s2) → iterate enc c ρ (n + 1) s0 = some s2 := by
  intro n
  induction n with
  | zero =>
    intro s0 s s2 h hit
    simp only [iterate, Option.some.injEq] at h
    subst h
    simp [iterate, hit]
  | succ n ih =>
    intro s0 s s2 h hit
    unfold iterate at h
    split at h
    · next s1 hit1 =>
      have := ih s1 s s2 h hit
      rw [iterate, hit1]
      exact this
    · cases h

theorem loop_iterate {σ ω : Type} [Inhabited ω] (enc : Encoder σ ω) (c : Config)
    (ρ : RangeOrders) :
    ∀ (n : Nat) (s0 s : State σ) (fuel : Nat), iterate enc c ρ n s0 = some s →
      s0.x.pending.length < fuel →
      loop enc c ρ fuel s0 = loop enc c ρ (s.x.pending.length + 1) s := by
  intro n
  induction n with
  | zero =>
    intro s0 s fuel h hf
    simp only [iterate, Option.some.injEq] at h
    subst h
    exact loop_fuel enc c ρ _ _ _ hf (Nat.lt_succ_self _)
  | succ n ih =>
    intro s0 s fuel h hf
    unfold iterate at h
    split at h
    · next s1 hit1 =>
      have h1 := iteration_next enc c ρ s0 s1 hit1
      cases fuel with
      | zero => omega
      | succ fuel =>
        rw [loop, hit1]
        exact ih s1 s fuel h (by omega)
    · cases h

/-! ## The recording encoder -/

theorem passThrough_recorder (s : State (List Token)) (x : Decoder) (t : Token) :
    (passThrough recorder s x t : Step (List Token) (List Token))
      = Step.next { x := x, xe := s.xe ++ [t], ranges := s.ranges } := rfl

theorem imgAttrLoop_zero_length (attr : List Attr) :
    (if attr.length ≠ 0 then imgAttrLoop attr.length attr else attr)
      = imgAttrLoop attr.length attr := by
  split
  · rfl
  · next h =>
    simp only [ne_eq, Decidable.not_not] at h
    rw [h]; rfl

theorem imageNormalize_recorder (s : State (List Token)) (x : Decoder) (name : Name)
    (attr : List Attr) :
    (imageNormalize recorder s x name attr : Step (List Token) (List Token))
      = match skipTokens x.terminal 0 x.pending with
        | (some _, r) => Step.next ⟨⟨r, x.terminal⟩, s.xe, s.ranges⟩
        | (none, r) => Step.next ⟨⟨r, x.terminal⟩,
            s.xe ++ [Token.StartElement name (imgAttrLoop attr.length attr),
              Token.EndElement name], s.ranges⟩ := by
  unfold imageNormalize
  simp only [Decoder.DecodeElementAny, Decoder.Skip, imgAttrLoop_zero_length]
  rcases hsk : skipTokens x.terminal 0 x.pending with ⟨_ | e, r⟩
  · simp [recorder]
  · simp

theorem anchorRewrite_recorder (ρ : RangeOrders) (s : State (List Token))
    (x : Decoder) (name : Name) (attr : List Attr) :
    (anchorRewrite recorder ρ s x name attr : Option (Step (List Token) (List Token)))
      = match unmarshalEl x.terminal (x.pending.length + 1) "" x.pending with
        | none => none
        | some (Except.error _, r) =>
          some (Step.next ⟨⟨r, x.terminal⟩, s.xe, s.ranges⟩)
        | some (Except.ok content, r) =>
          some (Step.next ⟨⟨r, x.terminal⟩,
            s.xe ++ [Token.StartElement name (aAttrLoop ρ attr.length s.ranges attr).2,
              Token.CharData content, Token.EndElement name],
            (aAttrLoop ρ attr.length s.ranges attr).1⟩) := by
  unfold anchorRewrite
  simp only [Decoder.DecodeElementEl]
  rcases hun : unmarshalEl x.terminal (x.pending.length + 1) "" x.pending with _ | ⟨_ | content, r⟩
  · simp
  · simp
  · simp [recorder]

/-- With the recording encoder an iteration never returns on account of the
encoder: it returns only when the decoder ends with an error other than `EOF`. -/
theorem iteration_recorder_ret (c : Config) (ρ : RangeOrders)
    (s : State (List Token)) (out : List Token) (err : Option String)
    (h : iteration recorder c ρ s = some (Step.ret out err)) :
    s.x.pending = [] ∧ s.x.terminal ≠ "EOF" := by
  unfold iteration at h
  split at h
  · next e x htok =>
    obtain ⟨hp, he, -⟩ := Token_error _ _ _ htok
    split at h
    · next hne => exact ⟨hp, he ▸ hne⟩
    · simp at h
  · split at h
    · split at h
      · rw [imageNormalize_recorder] at h
        split at h <;> simp at h
      · split at h
        · rw [anchorRewrite_recorder] at h
          split at h <;> simp at h
        · simp [passThrough_recorder] at h
    · simp [passThrough_recorder] at h

/-- With the recording encoder the tokens written so far are never taken back. -/
theorem iteration_recorder_next (c : Config) (ρ : RangeOrders)
    (s s2 : State (List Token))
    (h : iteration recorder c ρ s = some (Step.next s2)) :
    ∃ em, s2.xe = s.xe ++ em := by
  unfold iteration at h
  split at h
  · split at h <;> simp at h
  · split at h
    · split at h
      · rw [imageNormalize_recorder] at h
        split at h
        · simp only [Option.some.injEq, Step.next.injEq] at h
          subst h; exact ⟨[], by simp⟩
        · simp only [Option.some.injEq, Step.next.injEq] at h
          subst h; exact ⟨_, rfl⟩
      · split at h
        · rw [anchorRewrite_recorder] at h
          split at h
          · simp at h
          · simp only [Option.some.injEq, Step.next.injEq] at h
            subst h; exact ⟨[], by simp⟩
          · simp only [Option.some.injEq, Step.next.injEq] at h
            subst h; exact ⟨_, rfl⟩
        · simp only [passThrough_recorder, Option.some.injEq, Step.next.injEq] at h
          subst h; exact ⟨_, rfl⟩
    · simp only [passThrough_recorder, Option.some.injEq, Step.next.injEq] at h
      subst h; exact ⟨_, rfl⟩

/-- On a decoder that ends with `EOF` the loop, run with the recording encoder,
is left by `break`, with the tokens written before still at the front of the
buffer. -/
theorem loop_recorder_eof (c : Config) (ρ : RangeOrders) :
    ∀ (fuel : Nat) (s : State (List Token)), s.x.terminal = "EOF" → s.x.pending.length < fuel →
      ∃ (after : List Token) (k : Nat), loop recorder c ρ fuel s
        = some (Sum.inl ⟨⟨[], "EOF"⟩, s.xe ++ after, k⟩) := by
  intro fuel
  induction fuel with
  | zero => intro s _ h; omega
  | succ fuel ih =>
    intro s hterm hf
    obtain ⟨st, hst⟩ := iteration_returns recorder c ρ s
    rw [loop, hst]
    cases st with
    | next s2 =>
      have h1 := iteration_next recorder c ρ s s2 hst
      obtain ⟨em, hem⟩ := iteration_recorder_next c ρ s s2 hst
      obtain ⟨after, k, hl⟩ := ih s2 (h1.2.trans hterm) (by omega)
      exact ⟨em ++ after, k, by simp only [hl, hem, List.append_assoc]⟩
    | brk s2 =>
      obtain ⟨rfl, hp, ht⟩ := iteration_brk recorder c ρ s s2 hst
      refine ⟨[], s2.ranges, ?_⟩
      obtain ⟨⟨p, t⟩, xe, k⟩ := s2
      simp only at hp ht
      subst hp ht
      simp
    | ret out err =>
      exact absurd hterm (iteration_recorder_ret c ρ s out err hst).2

/-- The tokens written by an iteration that the loop reaches are part of the
output: if the loop is still running after `n` iterations, in state `s`, and the
decoder ends with `EOF`, then `ProcessHTML` succeeds and its output starts with
the tokens written up to then. -/
theorem output_extends (c : Config) (ρ : RangeOrders) (x : Decoder)
    (n : Nat) (s : State (List Token)) (heof : x.terminal = "EOF")
    (hreach : iterate recorder c ρ n { x := x, xe := [], ranges := 0 } = some s) :
    ∃ after, ProcessHTML recorder c ρ x = some (s.xe ++ after, none) := by
  have hb := iterate_bounds recorder c ρ n _ s hreach
  have hl := loop_iterate recorder c ρ n _ s (x.pending.length + 1) hreach (Nat.lt_succ_self _)
  obtain ⟨after, k, ha⟩ := loop_recorder_eof c ρ (s.x.pending.length + 1) s
    (hb.2.trans heof) (Nat.lt_succ_self _)
  refine ⟨after, ?_⟩
  unfold ProcessHTML
  have : recorder.init = ([] : List Token) := rfl
  rw [this, hl, ha]
  rfl

/-- What an iteration that the loop reaches writes is written for good: if the
loop is still running after `n` iterations, in state `s`, and the next
iteration goes on in state `s2`, then `s2` is the state after `n + 1`
iterations, and when the decoder ends with `EOF` the call succeeds with an
output that starts with the tokens written up to `s2`. -/
theorem emitted_then_output (c : Config) (ρ : RangeOrders) (x : Decoder)
    (n : Nat) (s s2 : State (List Token))
    (hreach : iterate recorder c ρ n { x := x, xe := [], ranges := 0 } = some s)
    (hit : iteration recorder c ρ s = some (Step.next s2)) :
    iterate recorder c ρ (n + 1) { x := x, xe := [], ranges := 0 } = some s2 ∧
    (x.terminal = "EOF" → ∃ after, ProcessHTML recorder c ρ x = some (s2.xe ++ after, none)) := by
  have hnext := iterate_succ recorder c ρ n _ s s2 hreach hit
  exact ⟨hnext, fun heof => output_extends c ρ x (n + 1) s2 heof hnext⟩

/-! ## The attribute loops -/

theorem getElem?_mid {α : Type} (p : List α) (a : α) (post : List α) :
    (p ++ a :: post)[p.length]? = some a := by
  rw [List.getElem?_append_right (Nat.le_refl _)]
  simp

theorem set_mid {α : Type} (p : List α) (a b : α) (post : List α) :
    (p ++ a :: post).set p.length b = p ++ b :: post := by
  rw [List.set_append_right _ _ (Nat.le_refl _)]
  simp

theorem imgAttrLoop_append (pre : List Attr) :
    ∀ post : List Attr, imgAttrLoop pre.length (pre ++ post)
      = pre.map (fun a => if a.Name.Local = "height" ∨ a.Name.Local = "width"
          then { a with Value := "" } else a) ++ post := by
  induction pre using List.reverseRecOn with
  | nil => intro post; rfl
  | append_singleton p a ih =>
    intro post
    simp only [List.length_append, List.length_singleton, List.append_assoc, List.singleton_append,
      List.map_append, List.map_cons, List.map_nil]
    rw [imgAttrLoop, getElem?_mid]
    simp only
    by_cases h1 : a.Name.Local = "height"
    · rw [if_pos h1, if_pos (Or.inl h1), set_mid, ih]
    · by_cases h2 : a.Name.Local = "width"
      · rw [if_neg h1, if_pos h2, if_pos (Or.inr h2), set_mid, ih]
      · rw [if_neg h1, if_neg h2, if_neg (not_or.mpr ⟨h1, h2⟩), ih]

/-- The `img` attribute loop blanks the value of every attribute named exactly
`height` or `width` and leaves everything else as it is. -/
theorem imgAttrLoop_eq_map (attr : List Attr) :
    imgAttrLoop attr.length attr
      = attr.map (fun a => if a.Name.Local = "height" ∨ a.Name.Local = "width"
          then { a with Value := "" } else a) := by
  have := imgAttrLoop_append attr []
  simpa using this

theorem rewriteHrefs_append (ρ : RangeOrders) (k : Nat) (l1 : List Attr) :
    ∀ l2 : List Attr, rewriteHrefs ρ k (l1 ++ l2)
      = ((rewriteHrefs ρ (rewriteHrefs ρ k l2).1 l1).1,
          (rewriteHrefs ρ (rewriteHrefs ρ k l2).1 l1).2 ++ (rewriteHrefs ρ k l2).2) := by
  induction l1 with
  | nil => intro l2; rfl
  | cons a l1 ih =>
    intro l2
    rw [List.cons_append]
    by_cases h : a.Name.Local = "href"
    · rw [rewriteHrefs, if_pos h, ih]
      simp [rewriteHrefs, h]
    · rw [rewriteHrefs, if_neg h, ih]
      simp [rewriteHrefs, h]

theorem aAttrLoop_append (ρ : RangeOrders) (pre : List Attr) :
    ∀ (k : Nat) (post : List Attr), aAttrLoop ρ pre.length k (pre ++ post)
      = ((rewriteHrefs ρ k pre).1, (rewriteHrefs ρ k pre).2 ++ post) := by
  induction pre using List.reverseRecOn with
  | nil => intro k post; rfl
  | append_singleton p a ih =>
    intro k post
    simp only [List.length_append, List.length_singleton, List.append_assoc, List.singleton_append]
    rw [aAttrLoop, getElem?_mid]
    simp only
    rw [rewriteHrefs_append]
    by_cases h1 : a.Name.Local = "href"
    · simp only [h1, if_true]
      rw [set_mid, ih]
      simp [rewriteHrefs, h1]
    · simp only [h1, if_false]
      rw [ih]
      simp [rewriteHrefs, h1]

theorem aAttrLoop_eq (ρ : RangeOrders) (k : Nat) (attr : List Attr) :
    aAttrLoop ρ attr.length k attr = rewriteHrefs ρ k attr := by
  have := aAttrLoop_append ρ attr k []
  simpa using this

theorem rewriteHrefs_count (ρ : RangeOrders) (k : Nat) (l : List Attr) :
    (rewriteHrefs ρ k l).1 = k + (l.filter (fun b => b.Name.Local = "href")).length := by
  induction l with
  | nil => rfl
  | cons a l ih =>
    by_cases h : a.Name.Local = "href"
    · simp [rewriteHrefs, h, ih, Nat.add_assoc]
    · simp [rewriteHrefs, h, ih]

theorem rewriteHrefs_length (ρ : RangeOrders) (k : Nat) (l : List Attr) :
    (rewriteHrefs ρ k l).2.length = l.length := by
  induction l with
  | nil => rfl
  | cons a l ih =>
    by_cases h : a.Name.Local = "href" <;> simp [rewriteHrefs, h, ih]

/-- The `a` attribute loop, attribute by attribute: an attribute named `href`
gets its value replaced by `replaceInLink`, run with the order of the `range`
loop whose number is the count of `range` loops run before (one for every
`href` attribute further back in the list); any other attribute is unchanged. -/
theorem rewriteHrefs_getElem? (ρ : RangeOrders) (k : Nat) (l : List Attr) :
    ∀ (i : Nat) (a : Attr), l[i]? = some a →
      (rewriteHrefs ρ k l).2[i]? = some (if a.Name.Local = "href" then
        { a with Value := (replaceInLink
            (ρ (k + ((l.drop (i + 1)).filter (fun b => b.Name.Local = "href")).length)) a.Value) }
        else a) := by
  induction l with
  | nil => intro i a h; simp at h
  | cons b l ih =>
    intro i a h
    cases i with
    | zero =>
      simp only [List.getElem?_cons_zero, Option.some.injEq] at h
      subst h
      by_cases hb : b.Name.Local = "href"
      · simp [rewriteHrefs, hb, rewriteHrefs_count]
      · simp [rewriteHrefs, hb]
    | succ i =>
      simp only [List.getElem?_cons_succ] at h
      have := ih i a h
      by_cases hb : b.Name.Local = "href"
      · simpa [rewriteHrefs, hb] using this
      · simpa [rewriteHrefs, hb] using this

/-! ## One iteration, case by case, with the recording encoder -/

theorem iteration_img (c : Config) (ρ : RangeOrders) (s : State (List Token))
    (name : Name) (attr : List Attr) (rest : List Token)
    (hp : s.x.pending = Token.StartElement name attr :: rest) (hn : name.Local = "img")
    (hdec : (Decoder.DecodeElementAny ⟨rest, s.x.terminal⟩).1 = none) :
    iteration recorder c ρ s = some (Step.next
      ⟨(Decoder.DecodeElementAny ⟨rest, s.x.terminal⟩).2,
        s.xe ++ [Token.StartElement name (attr.map (fun a =>
          if a.Name.Local = "height" ∨ a.Name.Local = "width" then { a with Value := "" } else a)),
          Token.EndElement name], s.ranges⟩) := by
  obtain ⟨⟨p, t⟩, xe, k⟩ := s
  simp only at hp hdec
  subst hp
  simp only [Decoder.DecodeElementAny, Decoder.Skip] at hdec ⊢
  simp only [iteration, Decoder.Token, hn, if_true, imageNormalize_recorder, imgAttrLoop_eq_map]
  rcases hsk : skipTokens t 0 rest with ⟨_ | e, r⟩
  · rfl
  · rw [hsk] at hdec; simp at hdec

theorem iteration_passStart (c : Config) (ρ : RangeOrders)
    (s : State (List Token)) (name : Name) (attr : List Attr) (rest : List Token)
    (hp : s.x.pending = Token.StartElement name attr :: rest) (hn : name.Local ≠ "img")
    (ha : ¬ (name.Local = "a" ∧ c.ReplaceLinks = true ∧ attr.length ≠ 0)) :
    iteration recorder c ρ s = some (Step.next
      ⟨⟨rest, s.x.terminal⟩, s.xe ++ [Token.StartElement name attr], s.ranges⟩) := by
  obtain ⟨⟨p, t⟩, xe, k⟩ := s
  simp only at hp
  subst hp
  simp only [iteration, Decoder.Token, if_neg hn, if_neg ha, passThrough_recorder]

/-! ## C1: an `img` inside a rewritten anchor -/

/-- C1, counterexample to the claim as stated ("every img element occurring
anywhere"): in `<a href="x"><img src="y"></a>`, processed with `ReplaceLinks`
true, the `img` element is complete (decoding it would not fail), the call
succeeds, and the output is `<a href="x"></a>`: it holds no start tag named
`img` at all. -/
theorem C1_counterexample :
    Token.StartElement (mkName "img") [mkAttr "src" "y"] ∈ anchorWithImg.pending ∧
    (Decoder.DecodeElementAny ⟨[.EndElement (mkName "img"), .EndElement (mkName "a")], "EOF"⟩).1
      = none ∧
    ProcessHTML recorder { ReplaceLinks := true } (fun _ => []) anchorWithImg
      = some ([.StartElement (mkName "a") [mkAttr "href" "x"], .CharData "",
          .EndElement (mkName "a")], none) ∧
    ¬ ∃ out name attr, ProcessHTML recorder { ReplaceLinks := true } (fun _ => []) anchorWithImg
        = some (out, none) ∧ Token.StartElement name attr ∈ out ∧ name.Local = "img" := by
  refine ⟨by decide, by decide, by decide, ?_⟩
  rintro ⟨out, name, attr, hout, hmem, hn⟩
  have h : ProcessHTML recorder { ReplaceLinks := true } (fun _ => []) anchorWithImg
      = some ([.StartElement (mkName "a") [mkAttr "href" "x"], .CharData "",
          .EndElement (mkName "a")], none) := by decide
  rw [h] at hout
  simp only [Option.some.injEq, Prod.mk.injEq, and_true] at hout
  subst hout
  simp only [List.mem_cons, Token.StartElement.injEq, List.mem_singleton, reduceCtorEq,
    or_false, false_or, List.not_mem_nil] at hmem
  obtain ⟨rfl, -⟩ := hmem
  exact absurd hn (by decide)

/-! ## C2 -/

/-- C2 (as amended). For every `img` start tag the loop takes from the decoder
and decodes successfully, the start tag handed to the encoder still carries
every attribute of the source, under the same name and in the same place
(nothing is removed), and every attribute whose local name is exactly `height`
or `width` has the empty string as its value. -/
theorem C2_img_height_width_blank (c : Config) (ρ : RangeOrders) (x : Decoder)
    (n : Nat) (s : State (List Token)) (name : Name) (attr : List Attr) (rest : List Token)
    (hreach : iterate recorder c ρ n ⟨x, [], 0⟩ = some s)
    (hp : s.x.pending = Token.StartElement name attr :: rest) (hn : name.Local = "img")
    (hdec : (Decoder.DecodeElementAny ⟨rest, x.terminal⟩).1 = none) :
    ∃ attr2,
      iterate recorder c ρ (n + 1) ⟨x, [], 0⟩ = some
        ⟨(Decoder.DecodeElementAny ⟨rest, x.terminal⟩).2,
          s.xe ++ [Token.StartElement name attr2, Token.EndElement name], s.ranges⟩ ∧
      (x.terminal = "EOF" → ∃ after, ProcessHTML recorder c ρ x = some
        (s.xe ++ [Token.StartElement name attr2, Token.EndElement name] ++ after, none)) ∧
      attr2.map (fun a => a.Name) = attr.map (fun a => a.Name) ∧
      ∀ a ∈ attr2, a.Name.Local = "height" ∨ a.Name.Local = "width" → a.Value = "" := by
  have hterm : s.x.terminal = x.terminal := (iterate_bounds recorder c ρ n _ s hreach).2
  have hit := iteration_img c ρ s name attr rest hp hn (by rw [hterm]; exact hdec)
  rw [hterm] at hit
  obtain ⟨h1, h2⟩ := emitted_then_output c ρ x n s _ hreach hit
  refine ⟨_, h1, h2, ?_, ?_⟩
  · rw [List.map_map]
    apply List.map_congr_left
    intro a _
    simp only [Function.comp]
    split <;> rfl
  · intro a ha hhw
    simp only [List.mem_map] at ha
    obtain ⟨b, -, rfl⟩ := ha
    split
    · rfl
    · next hb => split at hhw <;> exact absurd hhw hb

/-- C2, witness: `<img height="900" width="200" src="foo.png"/>`. -/
theorem C2_img_height_width_blank_witness :
    ∃ attr2,
      iterate recorder {} (fun _ => []) 1 ⟨imgHeightWidth, [], 0⟩ = some
        ⟨⟨[], "EOF"⟩,
          [] ++ [Token.StartElement (mkName "img") attr2, Token.EndElement (mkName "img")], 0⟩ ∧
      (∃ after, ProcessHTML recorder {} (fun _ => []) imgHeightWidth = some
        ([] ++ [Token.StartElement (mkName "img") attr2, Token.EndElement (mkName "img")]
          ++ after, none)) ∧
      attr2.map (fun a => a.Name) = [mkName "height", mkName "width", mkName "src"] ∧
      ∀ a ∈ attr2, a.Name.Local = "height" ∨ a.Name.Local = "width" → a.Value = "" :=
  (C2_img_height_width_blank {} (fun _ => []) imgHeightWidth 0 ⟨imgHeightWidth, [], 0⟩
    (mkName "img") [mkAttr "height" "900", mkAttr "width" "200", mkAttr "src" "foo.png"]
    [.EndElement (mkName "img")] rfl rfl rfl (by decide)).imp
    fun _ h => ⟨h.1, h.2.1 rfl, h.2.2⟩

/-- C2, counterexample to the claim as stated: for
`<img height="900" width="200" src="foo.png"/>` the output is
`<img height="" width="" src="foo.png"></img>`, whose start tag still carries
attributes named `height` and `width`; it is not `<img src="foo.png"></img>`. -/
theorem C2_counterexample :
    ProcessHTML recorder {} (fun _ => []) imgHeightWidth
      = some ([.StartElement (mkName "img")
          [mkAttr "height" "", mkAttr "width" "", mkAttr "src" "foo.png"],
          .EndElement (mkName "img")], none) ∧
    ProcessHTML recorder {} (fun _ => []) imgHeightWidth
      ≠ some ([.StartElement (mkName "img") [mkAttr "src" "foo.png"],
          .EndElement (mkName "img")], none) := by
  constructor <;> decide

/-! ## C3 -/

/-- C3. For every `img` start tag the loop takes from the decoder and decodes
successfully, the start tag handed to the encoder has the attributes of the
source, as many and in the same order, where every attribute whose local name
is exactly `height` or `width` has its value replaced by the empty string and
every other attribute is unchanged; it is immediately followed by the end tag,
and both stand in the output of a call that ends normally. -/
theorem C3_img_attributes (c : Config) (ρ : RangeOrders) (x : Decoder)
    (n : Nat) (s : State (List Token)) (name : Name) (attr : List Attr) (rest : List Token)
    (hreach : iterate recorder c ρ n ⟨x, [], 0⟩ = some s)
    (hp : s.x.pending = Token.StartElement name attr :: rest) (hn : name.Local = "img")
    (hdec : (Decoder.DecodeElementAny ⟨rest, x.terminal⟩).1 = none) :
    iterate recorder c ρ (n + 1) ⟨x, [], 0⟩ = some
      ⟨(Decoder.DecodeElementAny ⟨rest, x.terminal⟩).2,
        s.xe ++ [Token.StartElement name (attr.map (fun a =>
          if a.Name.Local = "height" ∨ a.Name.Local = "width" then { a with Value := "" } else a)),
          Token.EndElement name], s.ranges⟩ ∧
    (x.terminal = "EOF" → ∃ after, ProcessHTML recorder c ρ x = some
      (s.xe ++ [Token.StartElement name (attr.map (fun a =>
          if a.Name.Local = "height" ∨ a.Name.Local = "width" then { a with Value := "" } else a)),
        Token.EndElement name] ++ after, none)) := by
  have hterm : s.x.terminal = x.terminal := (iterate_bounds recorder c ρ n _ s hreach).2
  have hit := iteration_img c ρ s name attr rest hp hn (by rw [hterm]; exact hdec)
  rw [hterm] at hit
  exact emitted_then_output c ρ x n s _ hreach hit

/-- C3, witness: the first case of `TestProcessHTML`,
`<p>Test</p><img height="900" width="200" src="foo.png"><p>Test 2</p>`, gives
`<p>Test</p><img height="" width="" src="foo.png"></img>` and then the rest. -/
theorem C3_img_attributes_witness :
    iterate recorder {} (fun _ => []) 4 ⟨⟨testTokens1, "EOF"⟩, [], 0⟩ = some
      ⟨⟨[.StartElement (mkName "p") [], .CharData "Test 2", .EndElement (mkName "p")], "EOF"⟩,
        [.StartElement (mkName "p") [], .CharData "Test", .EndElement (mkName "p")] ++
          [Token.StartElement (mkName "img")
            [mkAttr "height" "", mkAttr "width" "", mkAttr "src" "foo.png"],
          Token.EndElement (mkName "img")], 0⟩ ∧
    (∃ after, ProcessHTML recorder {} (fun _ => []) ⟨testTokens1, "EOF"⟩ = some
      ([.StartElement (mkName "p") [], .CharData "Test", .EndElement (mkName "p")] ++
        [Token.StartElement (mkName "img")
          [mkAttr "height" "", mkAttr "width" "", mkAttr "src" "foo.png"],
        Token.EndElement (mkName "img")] ++ after, none)) :=
  have h := C3_img_attributes {} (fun _ => []) ⟨testTokens1, "EOF"⟩ 3
    ⟨⟨testTokens1.drop 3, "EOF"⟩, testTokens1.take 3, 0⟩ (mkName "img")
    [mkAttr "height" "900", mkAttr "width" "200", mkAttr "src" "foo.png"]
    (testTokens1.drop 4) (by decide) rfl rfl (by decide)
  ⟨h.1, h.2 rfl⟩

/-! ## C4 -/

theorem iteration_a (c : Config) (ρ : RangeOrders) (s : State (List Token))
    (name : Name) (attr : List Attr) (rest : List Token) (content : String) (x2 : Decoder)
    (hp : s.x.pending = Token.StartElement name attr :: rest) (hn : name.Local = "a")
    (hrl : c.ReplaceLinks = true) (hattr : attr ≠ [])
    (hdec : Decoder.DecodeElementEl ⟨rest, s.x.terminal⟩ = some (Except.ok content, x2)) :
    iteration recorder c ρ s = some (Step.next
      ⟨x2, s.xe ++ [Token.StartElement name (rewriteHrefs ρ s.ranges attr).2,
          Token.CharData content, Token.EndElement name],
        (rewriteHrefs ρ s.ranges attr).1⟩) := by
  obtain ⟨⟨p, t⟩, xe, k⟩ := s
  simp only at hp hdec
  subst hp
  have hni : name.Local ≠ "img" := by rw [hn]; decide
  have hlen : attr.length ≠ 0 := by
    intro h; exact hattr (List.length_eq_zero.mp h)
  simp only [Decoder.DecodeElementEl, Option.map_eq_some'] at hdec
  obtain ⟨⟨q1, q2⟩, hq, hq2⟩ := hdec
  simp only [Prod.mk.injEq] at hq2
  obtain ⟨rfl, rfl⟩ := hq2
  simp only [iteration, Decoder.Token]
  rw [if_neg hni, if_pos ⟨hn, hrl, hlen⟩, anchorRewrite_recorder]
  simp only [hq, aAttrLoop_eq]

/-- C4. For every start tag named `a` with at least one attribute that the loop
takes from the decoder with `ReplaceLinks` true and decodes successfully, that
iteration hands the encoder exactly three tokens: the start tag, one `CharData`
token with the captured text, and an explicit end tag of the same name (`a`);
they stand in the output of a call that ends normally. The start tag has the
attributes of the source, as many and in the same positions; the value of each
attribute named `href` is replaced by `replaceInLink` of it (run with the order
of its own `range` loop: the loops are counted from the last attribute to the
first), and every other attribute is unchanged. -/
theorem C4_anchor_three_tokens (c : Config) (ρ : RangeOrders) (x : Decoder)
    (n : Nat) (s : State (List Token)) (name : Name) (attr : List Attr) (rest : List Token)
    (content : String) (x2 : Decoder)
    (hreach : iterate recorder c ρ n ⟨x, [], 0⟩ = some s)
    (hp : s.x.pending = Token.StartElement name attr :: rest) (hn : name.Local = "a")
    (hrl : c.ReplaceLinks = true) (hattr : attr ≠ [])
    (hdec : Decoder.DecodeElementEl ⟨rest, x.terminal⟩ = some (Except.ok content, x2)) :
    ∃ attr2,
      iterate recorder c ρ (n + 1) ⟨x, [], 0⟩ = some
        ⟨x2, s.xe ++ [Token.StartElement name attr2, Token.CharData content,
            Token.EndElement name],
          s.ranges + (attr.filter (fun b => b.Name.Local = "href")).length⟩ ∧
      (x.terminal = "EOF" → ∃ after, ProcessHTML recorder c ρ x = some
        (s.xe ++ [Token.StartElement name attr2, Token.CharData content, Token.EndElement name]
          ++ after, none)) ∧
      attr2.length = attr.length ∧
      ∀ (i : Nat) (a : Attr), attr[i]? = some a →
        attr2[i]? = some (if a.Name.Local = "href" then
          { a with Value := (replaceInLink
              (ρ (s.ranges + ((attr.drop (i + 1)).filter (fun b => b.Name.Local = "href")).length))
              a.Value) }
          else a) := by
  have hterm : s.x.terminal = x.terminal := (iterate_bounds recorder c ρ n _ s hreach).2
  have hit := iteration_a c ρ s name attr rest content x2 hp hn hrl hattr
    (by rw [hterm]; exact hdec)
  rw [rewriteHrefs_count] at hit
  obtain ⟨h1, h2⟩ := emitted_then_output c ρ x n s _ hreach hit
  exact ⟨_, h1, h2, rewriteHrefs_length ρ s.ranges attr, rewriteHrefs_getElem? ρ s.ranges attr⟩

/-- C4, witness: with the rule `https://example.com -> https://nojs.example.com`,
`<a href="https://example.com" rel="noopener">Example.com</a>` becomes
`<a href="https://nojs.example.com" rel="noopener">Example.com</a>`. -/
theorem C4_anchor_three_tokens_witness :
    (∃ attr2,
      iterate recorder exampleConfig (fun _ => exampleConfig.LinkReplacements.entries) 1
        ⟨anchorExample, [], 0⟩ = some
        ⟨⟨[], "EOF"⟩, [] ++ [Token.StartElement (mkName "a") attr2, Token.CharData "Example.com",
            Token.EndElement (mkName "a")], 0 + 1⟩ ∧
      (∃ after,
        ProcessHTML recorder exampleConfig (fun _ => exampleConfig.LinkReplacements.entries)
          anchorExample = some
          ([] ++ [Token.StartElement (mkName "a") attr2, Token.CharData "Example.com",
            Token.EndElement (mkName "a")] ++ after, none)) ∧
      attr2.length = 2 ∧
      ∀ (i : Nat) (a : Attr),
        [mkAttr "href" "https://example.com", mkAttr "rel" "noopener"][i]? = some a →
        attr2[i]? = some (if a.Name.Local = "href" then
          { a with Value := (replaceInLink
              ((fun _ => exampleConfig.LinkReplacements.entries)
                (0 + (([mkAttr "href" "https://example.com", mkAttr "rel" "noopener"].drop
                  (i + 1)).filter (fun b => b.Name.Local = "href")).length))
              a.Value) }
          else a)) ∧
    ProcessHTML recorder exampleConfig (fun _ => exampleConfig.LinkReplacements.entries)
      anchorExample = some
      ([.StartElement (mkName "a")
          [mkAttr "href" "https://nojs.example.com", mkAttr "rel" "noopener"],
        .CharData "Example.com", .EndElement (mkName "a")], none) :=
  ⟨(C4_anchor_three_tokens exampleConfig (fun _ => exampleConfig.LinkReplacements.entries)
    anchorExample 0 ⟨anchorExample, [], 0⟩ (mkName "a")
    [mkAttr "href" "https://example.com", mkAttr "rel" "noopener"]
    [.CharData "Example.com", .EndElement (mkName "a")] "Example.com" ⟨[], "EOF"⟩
    rfl rfl rfl rfl (by decide) rfl).imp fun _ h => ⟨h.1, h.2.1 rfl, h.2.2⟩, by decide⟩

/-! ## C5 -/

/-- Skipping from depth `k` inside tokens that close `k + 1 + D` levels stops
behind the end tag that closes level `k + 1`; up to there no text stands at
depth 0. -/
theorem skipTokens_balanced (terminal : String) (b : List Token) :
    ∀ (k D : Nat), balanced (k + 1 + D) b = true →
      ∃ rest, balanced D rest = true ∧ rest.length < b.length ∧
        directChildText (k + 1 + D) b = directChildText D rest ∧
        ∀ suffix, skipTokens terminal k (b ++ suffix) = (none, rest ++ suffix) := by
  induction b with
  | nil => intro k D h; simp [balanced] at h
  | cons t b ih =>
    intro k D h
    cases t with
    | StartElement nm a =>
      simp only [balanced] at h
      obtain ⟨rest, h1, h2, h3, h4⟩ := ih (k + 1) D (by rw [← h]; congr 1; omega)
      refine ⟨rest, h1, Nat.lt_succ_of_lt h2, ?_, ?_⟩
      · simp only [directChildText]
        rw [← h3]; congr 1; omega
      · intro suffix
        simp only [List.cons_append, skipTokens]
        exact h4 suffix
    | EndElement nm =>
      cases k with
      | zero =>
        have h0 : balanced D b = true := by
          have : 0 + 1 + D = D + 1 := by omega
          rw [this] at h
          simpa only [balanced] using h
        refine ⟨b, h0, Nat.lt_succ_self _, ?_, ?_⟩
        · simp only [directChildText]
          congr 1; omega
        · intro suffix
          simp [skipTokens]
      | succ k =>
        have hk : balanced (k + 1 + D) b = true := by
          have : k + 1 + 1 + D = (k + 1 + D) + 1 := by omega
          rw [this] at h
          simpa only [balanced] using h
        obtain ⟨rest, h1, h2, h3, h4⟩ := ih k D hk
        refine ⟨rest, h1, Nat.lt_succ_of_lt h2, ?_, ?_⟩
        · simp only [directChildText]
          rw [← h3]; congr 1; omega
        · intro suffix
          simp only [List.cons_append, skipTokens]
          exact h4 suffix
    | CharData d =>
      have hk : balanced (k + 1 + D) b = true := by
        have : k + 1 + D = (k + D) + 1 := by omega
        rw [this] at h ⊢
        simpa only [balanced] using h
      obtain ⟨rest, h1, h2, h3, h4⟩ := ih k D hk
      refine ⟨rest, h1, Nat.lt_succ_of_lt h2, ?_, ?_⟩
      · rw [← h3]
        have : k + 1 + D = (k + D) + 1 := by omega
        rw [this]
        simp only [directChildText]
      · intro suffix
        have hs : ∀ l, skipTokens terminal k (Token.CharData d :: l) = skipTokens terminal k l := by
          intro l; cases k <;> simp only [skipTokens]
        rw [List.cons_append, hs]
        exact h4 suffix
    | Comment d =>
      have hk : balanced (k + 1 + D) b = true := by
        have : k + 1 + D = (k + D) + 1 := by omega
        rw [this] at h ⊢
        simpa only [balanced] using h
      obtain ⟨rest, h1, h2, h3, h4⟩ := ih k D hk
      refine ⟨rest, h1, Nat.lt_succ_of_lt h2, ?_, ?_⟩
      · rw [← h3]
        have : k + 1 + D = (k + D) + 1 := by omega
        rw [this]
        simp only [directChildText]
      · intro suffix
        have hs : ∀ l, skipTokens terminal k (Token.Comment d :: l) = skipTokens terminal k l := by
          intro l; cases k <;> simp only [skipTokens]
        rw [List.cons_append, hs]
        exact h4 suffix
    | ProcInst d1 d2 =>
      have hk : balanced (k + 1 + D) b = true := by
        have : k + 1 + D = (k + D) + 1 := by omega
        rw [this] at h ⊢
        simpa only [balanced] using h
      obtain ⟨rest, h1, h2, h3, h4⟩ := ih k D hk
      refine ⟨rest, h1, Nat.lt_succ_of_lt h2, ?_, ?_⟩
      · rw [← h3]
        have : k + 1 + D = (k + D) + 1 := by omega
        rw [this]
        simp only [directChildText]
      · intro suffix
        have hs : ∀ l, skipTokens terminal k (Token.ProcInst d1 d2 :: l)
            = skipTokens terminal k l := by
          intro l; cases k <;> simp only [skipTokens]
        rw [List.cons_append, hs]
        exact h4 suffix
    | Directive d =>
      have hk : balanced (k + 1 + D) b = true := by
        have : k + 1 + D = (k + D) + 1 := by omega
        rw [this] at h ⊢
        simpa only [balanced] using h
      obtain ⟨rest, h1, h2, h3, h4⟩ := ih k D hk
      refine ⟨rest, h1, Nat.lt_succ_of_lt h2, ?_, ?_⟩
      · rw [← h3]
        have : k + 1 + D = (k + D) + 1 := by omega
        rw [this]
        simp only [directChildText]
      · intro suffix
        have hs : ∀ l, skipTokens terminal k (Token.Directive d :: l)
            = skipTokens terminal k l := by
          intro l; cases k <;> simp only [skipTokens]
        rw [List.cons_append, hs]
        exact h4 suffix

/-- Decoding into `el` the content `body` of an element, up to its end tag:
the captured text is the character data that are direct children. -/
theorem unmarshalEl_balanced (terminal : String) (e : Name) (post : List Token) :
    ∀ (fuel : Nat) (data : String) (body : List Token), body.length < fuel →
      balanced 0 body = true →
      unmarshalEl terminal fuel data (body ++ Token.EndElement e :: post)
        = some (Except.ok (data ++ directChildText 0 body), post) := by
  intro fuel
  induction fuel with
  | zero => intro data body h; omega
  | succ fuel ih =>
    intro data body hlen hbal
    cases body with
    | nil => simp [unmarshalEl, directChildText]
    | cons t b =>
      simp only [List.length_cons] at hlen
      cases t with
      | StartElement nm a =>
        simp only [balanced] at hbal
        obtain ⟨rest, h1, h2, h3, h4⟩ := skipTokens_balanced terminal b 0 0 hbal
        rw [List.cons_append, unmarshalEl, h4]
        simp only
        rw [ih data rest (by omega) h1]
        simp only [directChildText]
        rw [← h3]
      | EndElement nm => simp [balanced] at hbal
      | CharData d =>
        simp only [balanced] at hbal
        rw [List.cons_append, unmarshalEl, ih (data ++ d) b (by omega) hbal]
        simp only [directChildText, String.append_assoc]
      | Comment d =>
        simp only [balanced] at hbal
        rw [List.cons_append]
        simp only [unmarshalEl]
        rw [ih data b (by omega) hbal]
        simp only [directChildText]
      | ProcInst d1 d2 =>
        simp only [balanced] at hbal
        rw [List.cons_append]
        simp only [unmarshalEl]
        rw [ih data b (by omega) hbal]
        simp only [directChildText]
      | Directive d =>
        simp only [balanced] at hbal
        rw [List.cons_append]
        simp only [unmarshalEl]
        rw [ih data b (by omega) hbal]
        simp only [directChildText]

theorem DecodeElementEl_balanced (terminal : String) (e : Name) (body post : List Token)
    (hbal : balanced 0 body = true) :
    Decoder.DecodeElementEl ⟨body ++ Token.EndElement e :: post, terminal⟩
      = some (Except.ok (directChildText 0 body), ⟨post, terminal⟩) := by
  have := unmarshalEl_balanced terminal e post
    ((body ++ Token.EndElement e :: post).length + 1) "" body
    (by simp only [List.length_append, List.length_cons]; omega) hbal
  simp only [Decoder.DecodeElementEl, this, Option.map_some', String.empty_append]

/-- Content without a nested element: the direct-child text is all the text. -/
theorem directChildText_eq_allText (body : List Token)
    (hflat : ∀ nm a, Token.StartElement nm a ∉ body) (hbal : balanced 0 body = true) :
    directChildText 0 body = allText body := by
  induction body with
  | nil => rfl
  | cons t b ih =>
    have hb : ∀ nm a, Token.StartElement nm a ∉ b :=
      fun nm a h => hflat nm a (List.mem_cons_of_mem _ h)
    cases t with
    | StartElement nm a => exact absurd (List.mem_cons_self _ _) (hflat nm a)
    | EndElement nm => simp [balanced] at hbal
    | CharData d =>
      simp only [balanced] at hbal
      simp only [directChildText, allText, ih hb hbal]
    | Comment d =>
      simp only [balanced] at hbal
      simp only [directChildText, allText, ih hb hbal]
    | ProcInst d1 d2 =>
      simp only [balanced] at hbal
      simp only [directChildText, allText, ih hb hbal]
    | Directive d =>
      simp only [balanced] at hbal
      simp only [directChildText, allText, ih hb hbal]

/-- C5 (as amended). When the AnchorRewrite path triggers (`ReplaceLinks` true,
a start tag named `a` with at least one attribute, whose content `body` is
properly nested and closed by an end tag), markup nested inside the anchor is
dropped: the single `CharData` token handed to the encoder between the anchor's
start tag and end tag carries, in document order, the character data that are
direct children of the anchor. Text inside nested elements is not part of it;
it is all the text of the anchor when the anchor holds no nested element. -/
theorem C5_anchor_text_direct_children (c : Config) (ρ : RangeOrders)
    (x : Decoder) (n : Nat) (s : State (List Token)) (name : Name) (attr : List Attr)
    (body : List Token) (e : Name) (post : List Token)
    (hreach : iterate recorder c ρ n ⟨x, [], 0⟩ = some s)
    (hp : s.x.pending = Token.StartElement name attr :: (body ++ Token.EndElement e :: post))
    (hn : name.Local = "a") (hrl : c.ReplaceLinks = true) (hattr : attr ≠ [])
    (hbal : balanced 0 body = true) :
    ∃ attr2 k,
      iterate recorder c ρ (n + 1) ⟨x, [], 0⟩ = some
        ⟨⟨post, x.terminal⟩,
          s.xe ++ [Token.StartElement name attr2, Token.CharData (directChildText 0 body),
            Token.EndElement name], k⟩ ∧
      (x.terminal = "EOF" → ∃ after, ProcessHTML recorder c ρ x = some
        (s.xe ++ [Token.StartElement name attr2, Token.CharData (directChildText 0 body),
          Token.EndElement name] ++ after, none)) ∧
      ((∀ nm a, Token.StartElement nm a ∉ body) → directChildText 0 body = allText body) := by
  have hterm : s.x.terminal = x.terminal := (iterate_bounds recorder c ρ n _ s hreach).2
  have hit := iteration_a c ρ s name attr _ (directChildText 0 body) ⟨post, x.terminal⟩ hp hn hrl
    hattr (by rw [hterm]; exact DecodeElementEl_balanced x.terminal e body post hbal)
  obtain ⟨h1, h2⟩ := emitted_then_output c ρ x n s _ hreach hit
  exact ⟨_, _, h1, h2, fun hflat => directChildText_eq_allText body hflat hbal⟩

/-- C5, witness: `<a href="x">go <em>here</em></a>` with `ReplaceLinks` true;
the direct-child text is `go `. -/
theorem C5_anchor_text_direct_children_witness :
    (∃ attr2 k,
      iterate recorder { ReplaceLinks := true } (fun _ => []) 1 ⟨anchorWithEm, [], 0⟩ = some
        ⟨⟨[], "EOF"⟩,
          [] ++ [Token.StartElement (mkName "a") attr2,
            Token.CharData (directChildText 0 [.CharData "go ", .StartElement (mkName "em") [],
              .CharData "here", .EndElement (mkName "em")]),
            Token.EndElement (mkName "a")], k⟩ ∧
      (∃ after,
        ProcessHTML recorder { ReplaceLinks := true } (fun _ => []) anchorWithEm = some
          ([] ++ [Token.StartElement (mkName "a") attr2,
            Token.CharData (directChildText 0 [.CharData "go ", .StartElement (mkName "em") [],
              .CharData "here", .EndElement (mkName "em")]),
            Token.EndElement (mkName "a")] ++ after, none)) ∧
      ((∀ nm a, Token.StartElement nm a ∉ [Token.CharData "go ",
          Token.StartElement (mkName "em") [], .CharData "here", .EndElement (mkName "em")]) →
        directChildText 0 [.CharData "go ", .StartElement (mkName "em") [],
            .CharData "here", .EndElement (mkName "em")]
          = allText [.CharData "go ", .StartElement (mkName "em") [],
            .CharData "here", .EndElement (mkName "em")])) ∧
    directChildText 0 [.CharData "go ", .StartElement (mkName "em") [],
      .CharData "here", .EndElement (mkName "em")] = "go " :=
  ⟨(C5_anchor_text_direct_children { ReplaceLinks := true } (fun _ => []) anchorWithEm 0
    ⟨anchorWithEm, [], 0⟩ (mkName "a") [mkAttr "href" "x"]
    [.CharData "go ", .StartElement (mkName "em") [], .CharData "here",
      .EndElement (mkName "em")] (mkName "a") [] rfl rfl rfl rfl (by decide) rfl).imp
      fun _ h => h.imp fun _ h => ⟨h.1, h.2.1 rfl, h.2.2⟩,
    by decide⟩

/-- C5, counterexample to the claim as stated: `<a href="x">go <em>here</em></a>`
with `ReplaceLinks` true gives `<a href="x">go </a>`. All the text contained in
the anchor is `go here`, but the `CharData` token handed to the encoder carries
`go ` only: the text inside `em` is lost. -/
theorem C5_counterexample :
    ProcessHTML recorder { ReplaceLinks := true } (fun _ => []) anchorWithEm
      = some ([.StartElement (mkName "a") [mkAttr "href" "x"], .CharData "go ",
          .EndElement (mkName "a")], none) ∧
    allText [.CharData "go ", .StartElement (mkName "em") [], .CharData "here",
      .EndElement (mkName "em")] = "go here" ∧
    ProcessHTML recorder { ReplaceLinks := true } (fun _ => []) anchorWithEm
      ≠ some ([.StartElement (mkName "a") [mkAttr "href" "x"], .CharData "go here",
          .EndElement (mkName "a")], none) := by
  refine ⟨by decide, by decide, by decide⟩

/-! ## C6 -/

/-- A token that is not a start tag named `img`, and not a start tag named `a`
with attributes while `ReplaceLinks` is true, is written unchanged, for every
encoder. -/
theorem iteration_passThrough {σ ω : Type} [Inhabited ω] (enc : Encoder σ ω) (c : Config)
    (ρ : RangeOrders) (t : Token) (ts : List Token) (terminal : String)
    (xe : σ) (k : Nat)
    (himg : ∀ name attr, t = Token.StartElement name attr → name.Local ≠ "img")
    (ha : c.ReplaceLinks = false ∨
      ∀ name attr, t = Token.StartElement name attr → name.Local = "a" → attr = []) :
    iteration enc c ρ ⟨⟨t :: ts, terminal⟩, xe, k⟩
      = some (passThrough enc ⟨⟨t :: ts, terminal⟩, xe, k⟩ ⟨ts, terminal⟩ t) := by
  cases t with
  | StartElement name attr =>
    have h1 : name.Local ≠ "img" := himg name attr rfl
    have h2 : ¬ (name.Local = "a" ∧ c.ReplaceLinks = true ∧ attr.length ≠ 0) := by
      rintro ⟨hn, hrl, hlen⟩
      rcases ha with ha | ha
      · rw [ha] at hrl; cases hrl
      · exact hlen (by rw [ha name attr rfl hn]; rfl)
    simp only [iteration, Decoder.Token]
    rw [if_neg h1, if_neg h2]
  | EndElement nm => rfl
  | CharData d => rfl
  | Comment d => rfl
  | ProcInst d1 d2 => rfl
  | Directive d => rfl

theorem loop_passThrough {σ ω : Type} [Inhabited ω] (enc : Encoder σ ω) (c : Config)
    (ρ : RangeOrders) (terminal : String) (k : Nat) :
    ∀ (fuel : Nat) (ts : List Token) (xe : σ), ts.length < fuel →
      (∀ name attr, Token.StartElement name attr ∈ ts → name.Local ≠ "img") →
      (c.ReplaceLinks = false ∨
        ∀ name attr, Token.StartElement name attr ∈ ts → name.Local = "a" → attr = []) →
      loop enc c ρ fuel ⟨⟨ts, terminal⟩, xe, k⟩
        = match feedAll enc xe ts with
          | Except.error e => some (Sum.inr (default, some ("failed to re-encode token: " ++ e)))
          | Except.ok xe2 =>
            if terminal ≠ "EOF" then
              some (Sum.inr (default, some ("token parsing error: " ++ terminal)))
            else some (Sum.inl ⟨⟨[], terminal⟩, xe2, k⟩) := by
  intro fuel
  induction fuel with
  | zero => intro ts xe h; omega
  | succ fuel ih =>
    intro ts xe hlen himg ha
    cases ts with
    | nil =>
      by_cases hterm : terminal = "EOF"
      · simp [loop, iteration, Decoder.Token, feedAll, hterm]
      · simp [loop, iteration, Decoder.Token, feedAll, hterm]
    | cons t ts =>
      simp only [List.length_cons] at hlen
      have hit := iteration_passThrough enc c ρ t ts terminal xe k
        (fun name attr h => himg name attr (h ▸ List.mem_cons_self _ _))
        (ha.imp id (fun ha name attr h => ha name attr (h ▸ List.mem_cons_self _ _)))
      rw [loop, hit]
      simp only [passThrough, feedAll]
      cases henc : enc.EncodeToken xe t with
      | error e => rfl
      | ok xe2 =>
        simp only
        exact ih ts xe2 (by omega)
          (fun name attr h => himg name attr (List.mem_cons_of_mem _ h))
          (ha.imp id (fun ha name attr h => ha name attr (List.mem_cons_of_mem _ h)))

/-- C6. PassThrough is the identity on tokens. For every token stream that holds
no start tag named `img`, and in which `ReplaceLinks` is false or no start tag
named `a` carries an attribute, and for every encoder, `ProcessHTML` hands the
encoder exactly the input tokens, in their order, each one as it was received,
nothing added and nothing dropped: its result is that of encoding the input
token sequence (an encoder failure, else the decoder's final error if that is
not `EOF`, else the flushed buffer). -/
theorem C6_passThrough_identity {σ ω : Type} [Inhabited ω] (enc : Encoder σ ω) (c : Config)
    (ρ : RangeOrders) (x : Decoder)
    (himg : ∀ name attr, Token.StartElement name attr ∈ x.pending → name.Local ≠ "img")
    (ha : c.ReplaceLinks = false ∨
      ∀ name attr, Token.StartElement name attr ∈ x.pending → name.Local = "a" → attr = []) :
    ProcessHTML enc c ρ x = some
      (match feedAll enc enc.init x.pending with
        | Except.error e => (default, some ("failed to re-encode token: " ++ e))
        | Except.ok xe =>
          if x.terminal ≠ "EOF" then (default, some ("token parsing error: " ++ x.terminal))
          else
            match enc.Flush xe with
            | Except.error e => (default, some ("failed to flush token re-encoder: " ++ e))
            | Except.ok xe2 => (enc.contents xe2, none)) := by
  obtain ⟨ts, terminal⟩ := x
  simp only at himg ha
  have hl := loop_passThrough enc c ρ terminal 0 (ts.length + 1) ts enc.init
    (Nat.lt_succ_self _) himg ha
  unfold ProcessHTML
  simp only
  rw [hl]
  cases hfeed : feedAll enc enc.init ts with
  | error e => rfl
  | ok xe =>
    simp only
    by_cases hterm : terminal = "EOF"
    · simp only [hterm, ne_eq, not_true_eq_false, if_false]
      cases enc.Flush xe <;> rfl
    · simp only [ne_eq, hterm, not_false_eq_true, if_true]

/-- C6, witness: with `ReplaceLinks` false, the anchor of
`<a href="x">go <em>here</em></a><!--c-->` and its nested markup are written
token for token as they came. -/
theorem C6_passThrough_identity_witness :
    ProcessHTML recorder {} (fun _ => []) anchorWithEmAndComment
      = some (anchorWithEmAndComment.pending, none) :=
  C6_passThrough_identity recorder {} (fun _ => []) anchorWithEmAndComment
    (by
      intro name attr h
      simp only [anchorWithEmAndComment, List.mem_cons, Token.StartElement.injEq, reduceCtorEq,
        List.mem_singleton, or_false, false_or, List.not_mem_nil] at h
      rcases h with ⟨rfl, -⟩ | ⟨rfl, -⟩ <;> decide)
    (Or.inl rfl)

/-! ## C7 -/

/-- C7 (as amended). The dispatch on the local name is exact and case-sensitive:
a start tag whose local name is not exactly `img` and not exactly `a` (so also
`IMG`, `Img`, `A`) is handled by neither ImageNormalize nor AnchorRewrite. The
iteration that takes it from the decoder hands it to the encoder unmodified and
does not consume its element, and the output of a call that ends normally
contains it as it came. -/
theorem C7_dispatch_exact_name (c : Config) (ρ : RangeOrders) (x : Decoder)
    (n : Nat) (s : State (List Token)) (name : Name) (attr : List Attr) (rest : List Token)
    (hreach : iterate recorder c ρ n ⟨x, [], 0⟩ = some s)
    (hp : s.x.pending = Token.StartElement name attr :: rest)
    (hn1 : name.Local ≠ "img") (hn2 : name.Local ≠ "a") :
    iterate recorder c ρ (n + 1) ⟨x, [], 0⟩ = some
      ⟨⟨rest, x.terminal⟩, s.xe ++ [Token.StartElement name attr], s.ranges⟩ ∧
    (x.terminal = "EOF" → ∃ after,
      ProcessHTML recorder c ρ x = some (s.xe ++ [Token.StartElement name attr] ++ after, none)) := by
  have hterm : s.x.terminal = x.terminal := (iterate_bounds recorder c ρ n _ s hreach).2
  have hit := iteration_passStart c ρ s name attr rest hp hn1 (fun h => hn2 h.1)
  rw [hterm] at hit
  exact emitted_then_output c ρ x n s _ hreach hit

/-- C7, witness: `<IMG height="900"/>` is written as it came, `height` value
included. -/
theorem C7_dispatch_exact_name_witness :
    iterate recorder {} (fun _ => []) 1 ⟨imgUpperCase, [], 0⟩ = some
      ⟨⟨[.EndElement (mkName "IMG")], "EOF"⟩,
        [] ++ [Token.StartElement (mkName "IMG") [mkAttr "height" "900"]], 0⟩ ∧
    (∃ after, ProcessHTML recorder {} (fun _ => []) imgUpperCase = some
      ([] ++ [Token.StartElement (mkName "IMG") [mkAttr "height" "900"]] ++ after, none)) :=
  have h := C7_dispatch_exact_name {} (fun _ => []) imgUpperCase 0 ⟨imgUpperCase, [], 0⟩
    (mkName "IMG") [mkAttr "height" "900"] [.EndElement (mkName "IMG")] rfl rfl
    (by decide) (by decide)
  ⟨h.1, h.2 rfl⟩

/-- C7, counterexample to the claim as stated: `<IMG height="900"/>` is not
rewritten the way `<img height="900"/>` is (the `height` value stays), and with
`ReplaceLinks` true and the rule `a -> b`, `<A href="a">t</A>` keeps its `href`
while `<a href="a">t</a>` gets `href="b"`. -/
theorem C7_counterexample :
    ProcessHTML recorder {} (fun _ => []) imgLowerCase
      = some ([.StartElement (mkName "img") [mkAttr "height" ""],
          .EndElement (mkName "img")], none) ∧
    ProcessHTML recorder {} (fun _ => []) imgUpperCase
      = some ([.StartElement (mkName "IMG") [mkAttr "height" "900"],
          .EndElement (mkName "IMG")], none) ∧
    ProcessHTML recorder { ReplaceLinks := true } (fun _ => [("a", "b")]) anchorLowerCase
      = some ([.StartElement (mkName "a") [mkAttr "href" "b"], .CharData "t",
          .EndElement (mkName "a")], none) ∧
    ProcessHTML recorder { ReplaceLinks := true } (fun _ => [("a", "b")]) anchorUpperCase
      = some ([.StartElement (mkName "A") [mkAttr "href" "a"], .CharData "t",
          .EndElement (mkName "A")], none) := by
  refine ⟨by decide, by decide, by decide, by decide⟩

/-! ## C8 -/

/-- C8 (as amended). For every href and every order in which the `range` loop
visits the rules of the `LinkReplacements` map, `replaceInLink` is the left fold
of `strings.ReplaceAll` over the rules in that order: each rule acts on the
output of the one before. The result is determined by href and that order; the
rules `a -> b`, `b -> c`, visited in this order, turn `a` into `c`. -/
theorem C8_replaceInLink_fold (order : List (String × String)) (href : String) :
    replaceInLink order href = order.foldl (fun h rule => ReplaceAll h rule.1 rule.2) href ∧
    replaceInLink [("a", "b"), ("b", "c")] "a" = "c" := by
  refine ⟨?_, by decide⟩
  induction order generalizing href with
  | nil => rfl
  | cons rule rest ih =>
    obtain ⟨k, v⟩ := rule
    rw [replaceInLink, ih, List.foldl_cons]

/-- C8, counterexample to the claim as stated: the rules are the entries of a Go
map, which has no configured order. Both orders below are orders in which a
`range` loop may visit the map `{a: b, b: c}`; one turns `a` into `c`, the other
into `b`, so the result is not determined by href and the rule set. -/
theorem C8_counterexample :
    IsRangeOrder cascadeConfig [("a", "b"), ("b", "c")] ∧
    IsRangeOrder cascadeConfig [("b", "c"), ("a", "b")] ∧
    replaceInLink [("a", "b"), ("b", "c")] "a" = "c" ∧
    replaceInLink [("b", "c"), ("a", "b")] "a" = "b" ∧
    replaceInLink [("a", "b"), ("b", "c")] "a" ≠ replaceInLink [("b", "c"), ("a", "b")] "a" := by
  refine ⟨by decide, by decide, by decide, by decide, by decide⟩

/-! ## C9 -/

theorem replaceInLink_append (l1 l2 : List (String × String)) (href : String) :
    replaceInLink (l1 ++ l2) href = replaceInLink l2 (replaceInLink l1 href) := by
  induction l1 generalizing href with
  | nil => rfl
  | cons rule rest ih =>
    obtain ⟨k, v⟩ := rule
    rw [List.cons_append, replaceInLink, replaceInLink, ih]

theorem replaceEmpty_eq (new s : List Char) :
    replaceEmpty new s = new ++ s.flatMap (fun ch => ch :: new) := by
  induction s with
  | nil => simp [replaceEmpty]
  | cons ch s ih => simp [replaceEmpty, ih]

theorem flatMap_singleton_self (s : List Char) : s.flatMap (fun ch => [ch]) = s := by
  induction s with
  | nil => rfl
  | cons ch s ih => simp [List.flatMap_cons, ih]

/-- A rule with the empty pattern: `strings.ReplaceAll` writes the replacement
in front of every character and at the end. -/
theorem ReplaceAll_empty (s r : String) :
    ReplaceAll s "" r = String.mk (r.data ++ s.data.flatMap (fun ch => ch :: r.data)) := by
  unfold ReplaceAll
  by_cases h : "" = r
  · subst h
    simp [flatMap_singleton_self]
  · rw [if_neg h, if_pos rfl, replaceEmpty_eq]

/-- C9 (as amended). A link replacement rule whose pattern is the empty string
is neither rejected nor skipped: wherever it stands among the rules, it turns
the current string into the replacement text followed by every character of the
string, each followed by the replacement text again. It leaves the string as it
is only when the replacement text is empty too; otherwise a rule `("", r)`
alone makes href longer by `(length href + 1) * length r`. -/
theorem C9_empty_pattern_inserts (pre post : List (String × String)) (r href : String) :
    replaceInLink (pre ++ ("", r) :: post) href
      = replaceInLink post (String.mk
          (r.data ++ (replaceInLink pre href).data.flatMap (fun ch => ch :: r.data))) ∧
    (replaceInLink [("", r)] href).length = href.length + (href.length + 1) * r.length ∧
    replaceInLink (pre ++ ("", "") :: post) href = replaceInLink (pre ++ post) href := by
  refine ⟨?_, ?_, ?_⟩
  · rw [replaceInLink_append, replaceInLink, ReplaceAll_empty]
  · rw [replaceInLink, replaceInLink, ReplaceAll_empty]
    simp only [String.length, List.length_append]
    induction href.data with
    | nil => simp
    | cons ch s ih =>
      simp only [List.flatMap_cons, List.length_append, List.length_cons] at ih ⊢
      rw [Nat.add_mul] at ih ⊢
      rw [Nat.add_mul]
      omega
  · rw [replaceInLink_append, replaceInLink_append, replaceInLink, ReplaceAll]
    simp

/-- C9, counterexample to the claim as stated: the rule `("", "x")` is accepted
and turns `ab` into `xaxbx`, while without the rule `ab` stays `ab`. -/
theorem C9_counterexample :
    replaceInLink [("", "x")] "ab" = "xaxbx" ∧ replaceInLink [] "ab" = "ab" ∧
    replaceInLink [("", "x")] "ab" ≠ replaceInLink [] "ab" := by
  refine ⟨by decide, by decide, by decide⟩

/-! ## C10 -/

theorem passThrough_ret {σ ω : Type} [Inhabited ω] (enc : Encoder σ ω) (s : State σ)
    (x : Decoder) (t : Token) (out : ω) (err : Option String)
    (h : passThrough enc s x t = Step.ret out err) : out = default ∧ err ≠ none := by
  unfold passThrough at h
  split at h
  · simp only [Step.ret.injEq] at h
    exact ⟨h.1.symm, by rw [← h.2]; simp⟩
  · cases h

theorem imageNormalize_ret {σ ω : Type} [Inhabited ω] (enc : Encoder σ ω) (s : State σ)
    (x : Decoder) (name : Name) (attr : List Attr) (out : ω) (err : Option String)
    (h : imageNormalize enc s x name attr = Step.ret out err) : out = default ∧ err ≠ none := by
  unfold imageNormalize at h
  split at h
  · cases h
  · dsimp only at h
    generalize (if attr.length ≠ 0 then imgAttrLoop attr.length attr else attr) = attr2 at h
    split at h
    · simp only [Step.ret.injEq] at h
      exact ⟨h.1.symm, by rw [← h.2]; simp⟩
    · split at h
      · simp only [Step.ret.injEq] at h
        exact ⟨h.1.symm, by rw [← h.2]; simp⟩
      · cases h

theorem anchorRewrite_ret {σ ω : Type} [Inhabited ω] (enc : Encoder σ ω)
    (ρ : RangeOrders) (s : State σ) (x : Decoder) (name : Name)
    (attr : List Attr) (out : ω) (err : Option String)
    (h : anchorRewrite enc ρ s x name attr = some (Step.ret out err)) :
    out = default ∧ err ≠ none := by
  unfold anchorRewrite at h
  split at h
  · cases h
  · cases h
  · dsimp only at h
    split at h
    · simp only [Option.some.injEq, Step.ret.injEq] at h
      exact ⟨h.1.symm, by rw [← h.2]; simp⟩
    · split at h
      · simp only [Option.some.injEq, Step.ret.injEq] at h
        exact ⟨h.1.symm, by rw [← h.2]; simp⟩
      · split at h
        · simp only [Option.some.injEq, Step.ret.injEq] at h
          exact ⟨h.1.symm, by rw [← h.2]; simp⟩
        · cases h

/-- Every `return` inside the loop returns the zero value of the output
together with an error. -/
theorem iteration_ret {σ ω : Type} [Inhabited ω] (enc : Encoder σ ω) (c : Config)
    (ρ : RangeOrders) (s : State σ) (out : ω) (err : Option String)
    (h : iteration enc c ρ s = some (Step.ret out err)) : out = default ∧ err ≠ none := by
  unfold iteration at h
  split at h
  · split at h
    · simp only [Option.some.injEq, Step.ret.injEq] at h
      exact ⟨h.1.symm, by rw [← h.2]; simp⟩
    · cases h
  · split at h
    · split at h
      · simp only [Option.some.injEq] at h
        exact imageNormalize_ret enc s _ _ _ out err h
      · split at h
        · exact anchorRewrite_ret enc ρ s _ _ _ out err h
        · simp only [Option.some.injEq] at h
          exact passThrough_ret enc s _ _ out err h
    · simp only [Option.some.injEq] at h
      exact passThrough_ret enc s _ _ out err h

theorem loop_inr {σ ω : Type} [Inhabited ω] (enc : Encoder σ ω) (c : Config)
    (ρ : RangeOrders) :
    ∀ (fuel : Nat) (s : State σ) (out : ω) (err : Option String),
      loop enc c ρ fuel s = some (Sum.inr (out, err)) → out = default ∧ err ≠ none := by
  intro fuel
  induction fuel with
  | zero => intro s out err h; simp [loop] at h
  | succ fuel ih =>
    intro s out err h
    unfold loop at h
    split at h
    · cases h
    · exact ih _ out err h
    · cases h
    · next o e hit =>
      simp only [Option.some.injEq, Sum.inr.injEq, Prod.mk.injEq] at h
      obtain ⟨rfl, rfl⟩ := h
      exact iteration_ret enc c ρ s _ _ hit

theorem loop_inl {σ ω : Type} [Inhabited ω] (enc : Encoder σ ω) (c : Config)
    (ρ : RangeOrders) :
    ∀ (fuel : Nat) (s s2 : State σ),
      loop enc c ρ fuel s = some (Sum.inl s2) → s.x.terminal = "EOF" := by
  intro fuel
  induction fuel with
  | zero => intro s s2 h; simp [loop] at h
  | succ fuel ih =>
    intro s s2 h
    unfold loop at h
    split at h
    · cases h
    · next s1 hit =>
      exact (iteration_next enc c ρ s s1 hit).2 ▸ ih _ s2 h
    · next s1 hit => exact (iteration_brk enc c ρ s s1 hit).2.2
    · cases h

theorem feedAll_append {σ ω : Type} (enc : Encoder σ ω) (a b : List Token) :
    ∀ (xe xe2 xe3 : σ), feedAll enc xe a = Except.ok xe2 → feedAll enc xe2 b = Except.ok xe3 →
      feedAll enc xe (a ++ b) = Except.ok xe3 := by
  induction a with
  | nil =>
    intro xe xe2 xe3 h1 h2
    simp only [feedAll, Except.ok.injEq] at h1
    subst h1
    exact h2
  | cons t a ih =>
    intro xe xe2 xe3 h1 h2
    simp only [feedAll, List.cons_append] at h1 ⊢
    cases henc : enc.EncodeToken xe t with
    | error e => rw [henc] at h1; cases h1
    | ok xe1 =>
      rw [henc] at h1
      exact ih xe1 xe2 xe3 h1 h2

/-! ### Every encoder is handed the tokens the recording encoder records -/

theorem passThrough_param {σ ω : Type} [Inhabited ω] (enc : Encoder σ ω) (x0 x : Decoder)
    (xe : σ) (k : Nat) (acc : List Token) (t : Token) (s2 : State σ)
    (h : passThrough enc ⟨x0, xe, k⟩ x t = Step.next s2) :
    ∃ em, (passThrough recorder ⟨x0, acc, k⟩ x t : Step (List Token) (List Token))
        = Step.next ⟨s2.x, acc ++ em, s2.ranges⟩ ∧
      feedAll enc xe em = Except.ok s2.xe := by
  unfold passThrough at h
  split at h
  · cases h
  · next xe2 henc =>
    simp only [Step.next.injEq] at h
    subst h
    exact ⟨[t], rfl, by simp only [feedAll, henc]⟩

theorem imageNormalize_param {σ ω : Type} [Inhabited ω] (enc : Encoder σ ω) (x0 x : Decoder)
    (xe : σ) (k : Nat) (acc : List Token) (name : Name) (attr : List Attr) (s2 : State σ)
    (h : imageNormalize enc ⟨x0, xe, k⟩ x name attr = Step.next s2) :
    ∃ em, (imageNormalize recorder ⟨x0, acc, k⟩ x name attr : Step (List Token) (List Token))
        = Step.next ⟨s2.x, acc ++ em, s2.ranges⟩ ∧
      feedAll enc xe em = Except.ok s2.xe := by
  rw [imageNormalize_recorder]
  unfold imageNormalize at h
  simp only [Decoder.DecodeElementAny, Decoder.Skip, imgAttrLoop_zero_length] at h
  rcases hsk : skipTokens x.terminal 0 x.pending with ⟨_ | e, r⟩
  · rw [hsk] at h
    simp only at h
    split at h
    · cases h
    · next xe1 henc1 =>
      split at h
      · cases h
      · next xe2 henc2 =>
        simp only [Step.next.injEq] at h
        subst h
        exact ⟨_, rfl, by simp only [feedAll, henc1, henc2]⟩
  · rw [hsk] at h
    simp only [Step.next.injEq] at h
    subst h
    exact ⟨[], by simp, rfl⟩

theorem anchorRewrite_param {σ ω : Type} [Inhabited ω] (enc : Encoder σ ω)
    (ρ : RangeOrders) (x0 x : Decoder)
    (xe : σ) (k : Nat) (acc : List Token) (name : Name) (attr : List Attr) (s2 : State σ)
    (h : anchorRewrite enc ρ ⟨x0, xe, k⟩ x name attr = some (Step.next s2)) :
    ∃ em, (anchorRewrite recorder ρ ⟨x0, acc, k⟩ x name attr :
          Option (Step (List Token) (List Token)))
        = some (Step.next ⟨s2.x, acc ++ em, s2.ranges⟩) ∧
      feedAll enc xe em = Except.ok s2.xe := by
  rw [anchorRewrite_recorder]
  unfold anchorRewrite at h
  simp only [Decoder.DecodeElementEl] at h
  rcases hun : unmarshalEl x.terminal (x.pending.length + 1) "" x.pending
    with _ | ⟨_ | content, r⟩
  · rw [hun] at h; simp at h
  · rw [hun] at h
    simp only [Option.map_some', Option.some.injEq, Step.next.injEq] at h
    subst h
    exact ⟨[], by simp, rfl⟩
  · rw [hun] at h
    simp only [Option.map_some'] at h
    split at h
    · cases h
    · next xe1 henc1 =>
      split at h
      · cases h
      · next xe2 henc2 =>
        split at h
        · cases h
        · next xe3 henc3 =>
          simp only [Option.some.injEq, Step.next.injEq] at h
          subst h
          exact ⟨_, rfl, by simp only [feedAll, henc1, henc2, henc3]⟩

/-- An iteration run with any encoder and the same iteration run with the
recording encoder move the decoder alike; the tokens the recording encoder
records are the ones the other encoder was handed, and it accepted them. -/
theorem iteration_param {σ ω : Type} [Inhabited ω] (enc : Encoder σ ω) (c : Config)
    (ρ : RangeOrders) (x : Decoder) (xe : σ) (k : Nat) (acc : List Token)
    (s2 : State σ) (h : iteration enc c ρ ⟨x, xe, k⟩ = some (Step.next s2)) :
    ∃ em, iteration recorder c ρ ⟨x, acc, k⟩ = some (Step.next ⟨s2.x, acc ++ em, s2.ranges⟩) ∧
      feedAll enc xe em = Except.ok s2.xe := by
  obtain ⟨p, t⟩ := x
  cases p with
  | nil =>
    simp only [iteration, Decoder.Token] at h
    split at h <;> cases h
  | cons tok ts =>
    cases tok with
    | StartElement name attr =>
      simp only [iteration, Decoder.Token] at h ⊢
      by_cases h1 : name.Local = "img"
      · rw [if_pos h1] at h ⊢
        simp only [Option.some.injEq] at h ⊢
        exact imageNormalize_param enc _ _ xe k acc name attr s2 h
      · rw [if_neg h1] at h ⊢
        by_cases h2 : name.Local = "a" ∧ c.ReplaceLinks = true ∧ attr.length ≠ 0
        · rw [if_pos h2] at h ⊢
          exact anchorRewrite_param enc ρ _ _ xe k acc name attr s2 h
        · rw [if_neg h2] at h ⊢
          simp only [Option.some.injEq] at h ⊢
          exact passThrough_param enc _ _ xe k acc _ s2 h
    | EndElement nm =>
      simp only [iteration, Decoder.Token, Option.some.injEq] at h ⊢
      exact passThrough_param enc _ _ xe k acc _ s2 h
    | CharData d =>
      simp only [iteration, Decoder.Token, Option.some.injEq] at h ⊢
      exact passThrough_param enc _ _ xe k acc _ s2 h
    | Comment d =>
      simp only [iteration, Decoder.Token, Option.some.injEq] at h ⊢
      exact passThrough_param enc _ _ xe k acc _ s2 h
    | ProcInst d1 d2 =>
      simp only [iteration, Decoder.Token, Option.some.injEq] at h ⊢
      exact passThrough_param enc _ _ xe k acc _ s2 h
    | Directive d =>
      simp only [iteration, Decoder.Token, Option.some.injEq] at h ⊢
      exact passThrough_param enc _ _ xe k acc _ s2 h

theorem loop_param {σ ω : Type} [Inhabited ω] (enc : Encoder σ ω) (c : Config)
    (ρ : RangeOrders) :
    ∀ (fuel : Nat) (x : Decoder) (xe : σ) (k : Nat) (acc : List Token) (s2 : State σ),
      loop enc c ρ fuel ⟨x, xe, k⟩ = some (Sum.inl s2) →
      ∃ em, loop recorder c ρ fuel ⟨x, acc, k⟩ = some (Sum.inl ⟨s2.x, acc ++ em, s2.ranges⟩) ∧
        feedAll enc xe em = Except.ok s2.xe := by
  intro fuel
  induction fuel with
  | zero => intro x xe k acc s2 h; simp [loop] at h
  | succ fuel ih =>
    intro x xe k acc s2 h
    unfold loop at h
    split at h
    · cases h
    · next s1 hit =>
      obtain ⟨em1, hr1, hf1⟩ := iteration_param enc c ρ x xe k acc s1 hit
      obtain ⟨em2, hr2, hf2⟩ := ih s1.x s1.xe s1.ranges (acc ++ em1) s2 h
      refine ⟨em1 ++ em2, ?_, feedAll_append enc em1 em2 xe s1.xe s2.xe hf1 hf2⟩
      rw [loop, hr1]
      simp only
      rw [hr2, List.append_assoc]
    · next s1 hit =>
      obtain ⟨rfl, hp, ht⟩ := iteration_brk enc c ρ _ s1 hit
      simp only [Option.some.injEq, Sum.inl.injEq] at h
      subst h
      obtain ⟨p, t⟩ := x
      simp only at hp ht
      subst hp ht
      exact ⟨[], by simp [loop, iteration, Decoder.Token], rfl⟩
    · cases h

/-- C10. `ProcessHTML` returns, and whenever it returns a non-nil error the
string it returns is empty, whatever the encoder had been handed before. It
returns a non-nil error whenever the decoder ends with an error other than
`EOF`. It returns a nil error only if the encoder accepted every token it was
handed (the tokens the recording encoder records) and `Flush` succeeded: a
failure of `EncodeToken` or of `Flush` makes the call return an error. -/
theorem C10_error_returns_nothing {σ : Type} (enc : Encoder σ String) (c : Config)
    (ρ : RangeOrders) (x : Decoder) :
    ∃ out err, ProcessHTML enc c ρ x = some (out, err) ∧
      (err ≠ none → out = "") ∧
      (x.terminal ≠ "EOF" → err ≠ none) ∧
      (err = none → ∃ toks xe xe2, ProcessHTML recorder c ρ x = some (toks, none) ∧
        feedAll enc enc.init toks = Except.ok xe ∧ enc.Flush xe = Except.ok xe2 ∧
        out = enc.contents xe2) := by
  obtain ⟨r, hr⟩ := loop_returns enc c ρ (x.pending.length + 1)
    { x := x, xe := enc.init, ranges := 0 } (Nat.lt_succ_self _)
  cases r with
  | inr r =>
    obtain ⟨out, err⟩ := r
    obtain ⟨ho, he⟩ := loop_inr enc c ρ _ _ out err hr
    refine ⟨out, err, ?_, fun _ => ho, fun _ => he, fun h => absurd h he⟩
    unfold ProcessHTML
    rw [hr]
  | inl s2 =>
    have hterm : x.terminal = "EOF" := loop_inl enc c ρ _ _ s2 hr
    obtain ⟨em, hrec, hfeed⟩ := loop_param enc c ρ _ x enc.init 0 [] s2 hr
    cases hfl : enc.Flush s2.xe with
    | error e =>
      refine ⟨"", some ("failed to flush token re-encoder: " ++ e), ?_, fun _ => rfl,
        fun _ => by simp, fun h => by simp at h⟩
      unfold ProcessHTML
      rw [hr]
      simp only [hfl]
      rfl
    | ok xe2 =>
      refine ⟨enc.contents xe2, none, ?_, fun h => absurd rfl h, fun h => absurd hterm h,
        fun _ => ⟨em, s2.xe, xe2, ?_, hfeed, hfl, rfl⟩⟩
      · unfold ProcessHTML
        rw [hr]
        simp only [hfl]
      · unfold ProcessHTML
        have hinit : recorder.init = ([] : List Token) := rfl
        rw [hinit, hrec]
        simp [recorder]

/-- C10, witness: an encoder that fails on the end tag of
`<img height="900" width="200" src="foo.png"/>`, after the start tag was already
written, and a decoder that ends `<p>x` with a syntax error; both calls return
an error and the empty string. -/
theorem C10_error_returns_nothing_witness :
    (∃ out err, ProcessHTML failOnEnd {} (fun _ => []) imgHeightWidth = some (out, err) ∧
      (err ≠ none → out = "") ∧
      (imgHeightWidth.terminal ≠ "EOF" → err ≠ none) ∧
      (err = none → ∃ toks xe xe2,
        ProcessHTML recorder {} (fun _ => []) imgHeightWidth = some (toks, none) ∧
        feedAll failOnEnd failOnEnd.init toks = Except.ok xe ∧
        failOnEnd.Flush xe = Except.ok xe2 ∧ out = failOnEnd.contents xe2)) ∧
    ProcessHTML failOnEnd {} (fun _ => []) imgHeightWidth
      = some ("", some "failed to encode end token: boom") ∧
    ProcessHTML recorder {} (fun _ => []) unclosedParagraph
      = some ([], some "token parsing error: XML syntax error on line 1: unexpected EOF") :=
  ⟨C10_error_returns_nothing failOnEnd {} (fun _ => []) imgHeightWidth, by decide, by decide⟩

/-! ## C12 -/

theorem validLoop_eq_true (key : String) (order : List (String × Bool)) :
    validLoop key order = true ↔ (key, false) ∉ order := by
  induction order with
  | nil => simp [validLoop]
  | cons kv rest ih =>
    obtain ⟨k, v⟩ := kv
    simp only [validLoop, List.mem_cons, Prod.mk.injEq, not_or]
    by_cases h : key = k ∧ v = false
    · simp [h]
    · rw [if_neg h, ih]
      constructor
      · intro hr
        exact ⟨fun h2 => h ⟨h2.1, h2.2.symm⟩, hr⟩
      · exact fun hr => hr.2

/-- C12. For every `Config`, every post and every order in which the three
`range` loops visit their maps, `IsValid` returns true if and only if
`PostTypes`, `PostStatuses` and `PostVisibilities` are all non-empty and none of
them maps the post's `Type`, `Status` or `Visibility` respectively to false (a
value that is absent from its map is therefore allowed). -/
theorem C12_isValid_iff (c : Config) (oT oS oV : List (String × Bool)) (p : GhostPost)
    (hT : oT.Perm c.PostTypes.entries) (hS : oS.Perm c.PostStatuses.entries)
    (hV : oV.Perm c.PostVisibilities.entries) :
    c.IsValid oT oS oV p = true ↔
      c.PostTypes.entries ≠ [] ∧ c.PostStatuses.entries ≠ [] ∧
      c.PostVisibilities.entries ≠ [] ∧
      (p.Type_, false) ∉ c.PostTypes.entries ∧ (p.Status, false) ∉ c.PostStatuses.entries ∧
      (p.Visibility, false) ∉ c.PostVisibilities.entries := by
  have e1 : validLoop p.Type_ oT = true ↔ (p.Type_, false) ∉ c.PostTypes.entries := by
    rw [validLoop_eq_true, hT.mem_iff]
  have e2 : validLoop p.Status oS = true ↔ (p.Status, false) ∉ c.PostStatuses.entries := by
    rw [validLoop_eq_true, hS.mem_iff]
  have e3 : validLoop p.Visibility oV = true ↔
      (p.Visibility, false) ∉ c.PostVisibilities.entries := by
    rw [validLoop_eq_true, hV.mem_iff]
  rw [← e1, ← e2, ← e3]
  unfold Config.IsValid
  simp only [List.length_eq_zero]
  by_cases h0 : c.PostTypes.entries = [] ∨ c.PostStatuses.entries = [] ∨
      c.PostVisibilities.entries = []
  · rw [if_pos h0]
    simp only [Bool.false_eq_true, false_iff, not_and]
    intro a b d
    rcases h0 with h | h | h
    · exact absurd h a
    · exact absurd h b
    · exact absurd h d
  · rw [if_neg h0]
    simp only [not_or] at h0
    cases validLoop p.Type_ oT <;> cases validLoop p.Status oS <;>
      cases validLoop p.Visibility oV <;> simp [h0]

/-- C12, witness: cases of `TestIsValid`; a post whose type `foo` is allowed
and whose status and visibility are absent from their maps is valid. -/
theorem C12_isValid_iff_witness :
    validConfig.IsValid [("foo", true)] [("baz", true)] [("bar", true)] { Type_ := "foo" }
      = true :=
  (C12_isValid_iff validConfig [("foo", true)] [("baz", true)] [("bar", true)]
    { Type_ := "foo" } (List.Perm.refl _) (List.Perm.refl _) (List.Perm.refl _)).mpr
    (by decide)

/-! ## C13 -/

/-- C13 (as amended). `IsValid` reads only the `Type`, the `Status` and the
`Visibility` of a post: for every `Config` and every two posts that agree on
these three fields, so in particular for two posts that differ only in
`IsDraft`, it returns the same result. (The `Status` itself, `draft` or
`published` included, is checked against `PostStatuses`.) -/
theorem C13_isValid_ignores_other_fields (c : Config) (oT oS oV : List (String × Bool))
    (p q : GhostPost) (hT : p.Type_ = q.Type_) (hS : p.Status = q.Status)
    (hV : p.Visibility = q.Visibility) :
    c.IsValid oT oS oV p = c.IsValid oT oS oV q := by
  unfold Config.IsValid
  rw [hT, hS, hV]

/-- C13, witness: the draft post with `IsDraft` true and with `IsDraft` false. -/
theorem C13_isValid_ignores_other_fields_witness :
    defaultConfig.IsValid defaultConfig.PostTypes.entries defaultConfig.PostStatuses.entries
        defaultConfig.PostVisibilities.entries draftPost
      = defaultConfig.IsValid defaultConfig.PostTypes.entries defaultConfig.PostStatuses.entries
        defaultConfig.PostVisibilities.entries { draftPost with IsDraft := false } :=
  C13_isValid_ignores_other_fields defaultConfig _ _ _ draftPost
    { draftPost with IsDraft := false } rfl rfl rfl

/-- C13, counterexample to the claim as stated: with the default maps, which
have `draft: false` and `published: true` in `PostStatuses`, two posts that
differ only in their published/draft state (`Status` and `IsDraft`) get
different results: the draft is not valid, the published post is. -/
theorem C13_counterexample :
    defaultConfig.PostStatuses = some [("published", true), ("draft", false)] ∧
    publishedPost = { draftPost with Status := "published", IsDraft := false } ∧
    defaultConfig.IsValid defaultConfig.PostTypes.entries defaultConfig.PostStatuses.entries
      defaultConfig.PostVisibilities.entries draftPost = false ∧
    defaultConfig.IsValid defaultConfig.PostTypes.entries defaultConfig.PostStatuses.entries
      defaultConfig.PostVisibilities.entries publishedPost = true := by
  refine ⟨by decide, by decide, by decide, by decide⟩

/-! ## C14 -/

theorem FrontMatterConfig_ApplyDefaults (f : FrontMatterConfig) :
    f.ApplyDefaults.Title = (if f.Title = "" then DefaultFrontMatterTitle else f.Title) ∧
    f.ApplyDefaults.Date = (if f.Date = "" then DefaultFrontMatterDate else f.Date) ∧
    f.ApplyDefaults.Draft = (if f.Draft = "" then DefaultFrontMatterDraft else f.Draft) ∧
    f.ApplyDefaults.Slug = (if f.Slug = "" then DefaultFrontMatterSlug else f.Slug) := by
  unfold FrontMatterConfig.ApplyDefaults
  refine ⟨?_, ?_, ?_, ?_⟩ <;> (simp only []; split_ifs <;> rfl)

/-- The result of `Config.ApplyDefaults`, field by field. -/
theorem Config_ApplyDefaults_eq (c : Config) :
    c.ApplyDefaults = { c with
      Template := if c.Template = "" then DefaultTemplate else c.Template
      PostStatuses := if c.PostStatuses.entries.length = 0
        then some [("published", true), ("draft", false)] else c.PostStatuses
      PostTypes := if c.PostTypes.entries.length = 0
        then some [("post", true), ("page", true)] else c.PostTypes
      PostVisibilities := if c.PostVisibilities.entries.length = 0
        then some [("public", true)] else c.PostVisibilities
      RawShortcodeStart := if c.RawShortcodeStart = ""
        then DefaultRawShortcodeStart else c.RawShortcodeStart
      RawShortcodeEnd := if c.RawShortcodeEnd = ""
        then DefaultRawShortcodeEnd else c.RawShortcodeEnd
      FrontMatter := c.FrontMatter.ApplyDefaults } := by
  unfold Config.ApplyDefaults
  by_cases h1 : c.Template = "" <;> by_cases h2 : c.PostStatuses.entries.length = 0 <;>
    by_cases h3 : c.PostTypes.entries.length = 0 <;>
    by_cases h4 : c.PostVisibilities.entries.length = 0 <;>
    by_cases h5 : c.RawShortcodeStart = "" <;> by_cases h6 : c.RawShortcodeEnd = "" <;>
    simp only [h1, h2, h3, h4, h5, h6, if_true, if_false]

/-- C14. After `Config.ApplyDefaults`, each of `Template`, `RawShortcodeStart`,
`RawShortcodeEnd` and `FrontMatter.Title`, `Date`, `Draft`, `Slug` equals its
previous value if that was non-empty and its `Default*` constant otherwise, and
each of `PostStatuses`, `PostTypes` and `PostVisibilities` is unchanged if it
was non-empty and otherwise is the map `{published: true, draft: false}`,
`{post: true, page: true}` and `{public: true}` respectively. -/
theorem C14_applyDefaults (c : Config) :
    c.ApplyDefaults.Template = (if c.Template = "" then DefaultTemplate else c.Template) ∧
    c.ApplyDefaults.RawShortcodeStart
      = (if c.RawShortcodeStart = "" then DefaultRawShortcodeStart else c.RawShortcodeStart) ∧
    c.ApplyDefaults.RawShortcodeEnd
      = (if c.RawShortcodeEnd = "" then DefaultRawShortcodeEnd else c.RawShortcodeEnd) ∧
    c.ApplyDefaults.FrontMatter.Title
      = (if c.FrontMatter.Title = "" then DefaultFrontMatterTitle else c.FrontMatter.Title) ∧
    c.ApplyDefaults.FrontMatter.Date
      = (if c.FrontMatter.Date = "" then DefaultFrontMatterDate else c.FrontMatter.Date) ∧
    c.ApplyDefaults.FrontMatter.Draft
      = (if c.FrontMatter.Draft = "" then DefaultFrontMatterDraft else c.FrontMatter.Draft) ∧
    c.ApplyDefaults.FrontMatter.Slug
      = (if c.FrontMatter.Slug = "" then DefaultFrontMatterSlug else c.FrontMatter.Slug) ∧
    c.ApplyDefaults.PostStatuses
      = (if c.PostStatuses.entries = [] then some [("published", true), ("draft", false)]
          else c.PostStatuses) ∧
    c.ApplyDefaults.PostTypes
      = (if c.PostTypes.entries = [] then some [("post", true), ("page", true)]
          else c.PostTypes) ∧
    c.ApplyDefaults.PostVisibilities
      = (if c.PostVisibilities.entries = [] then some [("public", true)]
          else c.PostVisibilities) := by
  obtain ⟨f1, f2, f3, f4⟩ := FrontMatterConfig_ApplyDefaults c.FrontMatter
  rw [Config_ApplyDefaults_eq]
  refine ⟨rfl, rfl, rfl, f1, f2, f3, f4, ?_, ?_, ?_⟩ <;> simp only [List.length_eq_zero]

/-! ## C15 -/

/-- C15. After `Config.Process`, `LinkReplacements` is non-nil and holds exactly
the entries it held before, and `ReplaceLinks` is true if and only if
`LinkReplacements` has at least one entry, whatever `ReplaceLinks` was before
the call; a `Config` without link replacements ends with `ReplaceLinks`
false. -/
theorem C15_process (c : Config) :
    c.Process.LinkReplacements ≠ none ∧
    c.Process.LinkReplacements.entries = c.LinkReplacements.entries ∧
    (c.Process.ReplaceLinks = true ↔ c.LinkReplacements.entries ≠ []) ∧
    (c.LinkReplacements.entries = [] → c.Process.ReplaceLinks = false) := by
  unfold Config.Process
  cases h : c.LinkReplacements with
  | none => simp [GoMap.entries]
  | some es =>
    cases es with
    | nil => simp [GoMap.entries, h]
    | cons e es => simp [GoMap.entries, h]

/-! ## `ProcessGhostPost`: the draft flag -/

/-- The draft flag after the last two statements of `ProcessGhostPost`; nothing
else is changed by them. -/
theorem markDraft_eq (c : Config) (post : GhostPost) :
    markDraft c post = { post with IsDraft :=
      if c.PublishDrafts = true then false
      else if post.Status = GhostPostStatusDraft then true else post.IsDraft } := by
  unfold markDraft
  cases h2 : c.PublishDrafts <;> by_cases h1 : post.Status = GhostPostStatusDraft <;>
    simp [h1]

/-- A successful call ends with the two statements on the draft flag, run on a
post that still has the `Status` and the `IsDraft` of the argument, under a
`Config` with the `PublishDrafts` of the receiver. -/
theorem ProcessGhostPost_ok (parse : String → Except String Time) (now : Time) (c : Config)
    (post : GhostPost) (h : (ProcessGhostPost parse now c post).1.2 = none) :
    ∃ (post2 : GhostPost) (c2 : Config),
      (ProcessGhostPost parse now c post).1.1 = markDraft c2 post2 ∧
      c2.PublishDrafts = c.PublishDrafts ∧ post2.Status = post.Status ∧
      post2.IsDraft = post.IsDraft := by
  unfold ProcessGhostPost at h ⊢
  cases hc : parse post.SqlCreatedAt with
  | error e => rw [hc] at h; simp at h
  | ok created =>
    rw [hc] at h
    simp only [] at h ⊢
    by_cases hu : post.SqlUpdatedAt.Valid = true
    · rw [if_pos hu] at h ⊢
      cases hup : parse post.SqlUpdatedAt.String with
      | error e => rw [hup] at h; simp at h
      | ok updated =>
        rw [hup] at h
        simp only [] at h ⊢
        unfold processPublishedAt at h ⊢
        by_cases hp : post.SqlPublishedAt.Valid = true
        · rw [if_pos hp] at h ⊢
          cases hpp : parse post.SqlPublishedAt.String with
          | error e => rw [hpp] at h; simp at h
          | ok published => exact ⟨_, c, rfl, rfl, rfl, rfl⟩
        · rw [if_neg hp] at h ⊢
          by_cases hs : (!post.SqlPublishedAt.Valid && c.SetUnpublishedToNow) = true
          · rw [if_pos hs]
            refine ⟨_, _, rfl, ?_, rfl, rfl⟩
            simp only []
            split <;> rfl
          · rw [if_neg hs]
            exact ⟨_, c, rfl, rfl, rfl, rfl⟩
    · rw [if_neg hu] at h ⊢
      unfold processPublishedAt at h ⊢
      by_cases hp : post.SqlPublishedAt.Valid = true
      · rw [if_pos hp] at h ⊢
        cases hpp : parse post.SqlPublishedAt.String with
        | error e => rw [hpp] at h; simp at h
        | ok published => exact ⟨_, c, rfl, rfl, rfl, rfl⟩
      · rw [if_neg hp] at h ⊢
        by_cases hs : (!post.SqlPublishedAt.Valid && c.SetUnpublishedToNow) = true
        · rw [if_pos hs]
          refine ⟨_, _, rfl, ?_, rfl, rfl⟩
          simp only []
          split <;> rfl
        · rw [if_neg hs]
          exact ⟨_, c, rfl, rfl, rfl, rfl⟩

/-! ## C16 -/

/-- C16. If `PublishDrafts` is true, no post is marked as a draft: for every
post on which `ProcessGhostPost` succeeds, the returned post has `IsDraft`
false, whatever its `Status` and its incoming `IsDraft`. -/
theorem C16_publishDrafts_clears_isDraft (parse : String → Except String Time) (now : Time)
    (c : Config) (post : GhostPost) (hpd : c.PublishDrafts = true)
    (hok : (ProcessGhostPost parse now c post).1.2 = none) :
    (ProcessGhostPost parse now c post).1.1.IsDraft = false := by
  obtain ⟨post2, c2, heq, hc2, -, -⟩ := ProcessGhostPost_ok parse now c post hok
  rw [heq, markDraft_eq, hc2, hpd]
  rfl

/-- C16, witness: the first case of `TestProcessGhostPost`, a post with `Status`
`draft`, here with an incoming `IsDraft` of true as well. -/
theorem C16_publishDrafts_clears_isDraft_witness :
    (ProcessGhostPost parseTest time2006 { PublishDrafts := true }
      { testPost with IsDraft := true }).1.1.IsDraft = false :=
  C16_publishDrafts_clears_isDraft parseTest time2006 { PublishDrafts := true }
    { testPost with IsDraft := true } rfl (by decide)

/-! ## C17 -/

/-- C17 (what the code does). With `PublishDrafts` false, for every post on
which `ProcessGhostPost` succeeds, the returned `IsDraft` is true if and only if
the post's `Status` equals `draft` or the incoming `IsDraft` was already true:
the flag is set for a draft and never reset. -/
theorem C17_isDraft_from_status_or_incoming (parse : String → Except String Time) (now : Time)
    (c : Config) (post : GhostPost) (hpd : c.PublishDrafts = false)
    (hok : (ProcessGhostPost parse now c post).1.2 = none) :
    (ProcessGhostPost parse now c post).1.1.IsDraft = true ↔
      post.Status = GhostPostStatusDraft ∨ post.IsDraft = true := by
  obtain ⟨post2, c2, heq, hc2, hst, hid⟩ := ProcessGhostPost_ok parse now c post hok
  rw [heq, markDraft_eq, hc2, hpd, hst, hid]
  simp only [Bool.false_eq_true, if_false]
  by_cases h : post.Status = GhostPostStatusDraft
  · simp [h]
  · simp [h]

/-- C17, the failing input: a post with `Status` `published` that comes in with
`IsDraft` true. `ProcessGhostPost` succeeds on it and returns `IsDraft` true,
although the `Status` is not `draft`. -/
theorem C17_failing_input :
    (ProcessGhostPost parseTest time2006 {}
      { testPost with Status := "published", IsDraft := true }).1.2 = none ∧
    (ProcessGhostPost parseTest time2006 {}
      { testPost with Status := "published", IsDraft := true }).1.1.IsDraft = true ∧
    ({ testPost with Status := "published", IsDraft := true } : GhostPost).Status
      ≠ GhostPostStatusDraft :=
  ⟨by decide,
    (C17_isDraft_from_status_or_incoming parseTest time2006 {}
      { testPost with Status := "published", IsDraft := true } rfl (by decide)).mpr
      (Or.inr rfl),
    by decide⟩

/-! ## C18 -/

theorem markDraft_times (c : Config) (post : GhostPost) :
    (markDraft c post).CreatedAt = post.CreatedAt ∧
    (markDraft c post).UpdatedAt = post.UpdatedAt ∧
    (markDraft c post).PublishedAt = post.PublishedAt := by
  rw [markDraft_eq]
  exact ⟨rfl, rfl, rfl⟩

theorem processPublishedAt_spec (parse : String → Except String Time) (now : Time) (c : Config)
    (post : GhostPost) :
    ((processPublishedAt parse now c post).1.2 ≠ none ↔
      post.SqlPublishedAt.Valid = true ∧ ¬ Parses parse post.SqlPublishedAt.String) ∧
    ((processPublishedAt parse now c post).1.2 = none →
      (processPublishedAt parse now c post).1.1.CreatedAt = post.CreatedAt ∧
      (processPublishedAt parse now c post).1.1.UpdatedAt = post.UpdatedAt ∧
      (post.SqlPublishedAt.Valid = true →
        parse post.SqlPublishedAt.String
          = Except.ok (processPublishedAt parse now c post).1.1.PublishedAt)) := by
  unfold processPublishedAt Parses
  by_cases hp : post.SqlPublishedAt.Valid = true
  · rw [if_pos hp]
    cases hpp : parse post.SqlPublishedAt.String with
    | error e => simp [hp]
    | ok t =>
      simp only [ne_eq, not_true_eq_false, hp, Except.ok.injEq, exists_eq', not_true_eq_false,
        and_false, true_implies, markDraft_times, and_self]
  · rw [if_neg hp]
    by_cases hs : (!post.SqlPublishedAt.Valid && c.SetUnpublishedToNow) = true
    · rw [if_pos hs]
      simp [hp, markDraft_times]
    · rw [if_neg hs]
      simp [hp, markDraft_times]

/-- C18. `ProcessGhostPost` returns an error if and only if `SqlCreatedAt` does
not parse, or `SqlUpdatedAt` is non-null and does not parse, or
`SqlPublishedAt` is non-null and does not parse. On success `CreatedAt` is the
parsed instant, and so are `UpdatedAt` and `PublishedAt` when their source is
non-null. A null `SqlUpdatedAt` or `SqlPublishedAt` is never parsed: the result
is the same with every other parser that agrees on `SqlCreatedAt` and on the
non-null strings. (`parse` is `time.Parse` with the layout
`2006-01-02 15:04:05`.) -/
theorem C18_error_iff_parse_fails (parse : String → Except String Time) (now : Time)
    (c : Config) (post : GhostPost) :
    ((ProcessGhostPost parse now c post).1.2 ≠ none ↔
      ¬ Parses parse post.SqlCreatedAt ∨
      (post.SqlUpdatedAt.Valid = true ∧ ¬ Parses parse post.SqlUpdatedAt.String) ∨
      (post.SqlPublishedAt.Valid = true ∧ ¬ Parses parse post.SqlPublishedAt.String)) ∧
    ((ProcessGhostPost parse now c post).1.2 = none →
      parse post.SqlCreatedAt = Except.ok (ProcessGhostPost parse now c post).1.1.CreatedAt ∧
      (post.SqlUpdatedAt.Valid = true →
        parse post.SqlUpdatedAt.String
          = Except.ok (ProcessGhostPost parse now c post).1.1.UpdatedAt) ∧
      (post.SqlPublishedAt.Valid = true →
        parse post.SqlPublishedAt.String
          = Except.ok (ProcessGhostPost parse now c post).1.1.PublishedAt)) ∧
    (∀ parse2 : String → Except String Time,
      parse2 post.SqlCreatedAt = parse post.SqlCreatedAt →
      (post.SqlUpdatedAt.Valid = true →
        parse2 post.SqlUpdatedAt.String = parse post.SqlUpdatedAt.String) →
      (post.SqlPublishedAt.Valid = true →
        parse2 post.SqlPublishedAt.String = parse post.SqlPublishedAt.String) →
      ProcessGhostPost parse2 now c post = ProcessGhostPost parse now c post) := by
  refine ⟨?_, ?_, ?_⟩
  · unfold ProcessGhostPost
    cases hc : parse post.SqlCreatedAt with
    | error e => simp [Parses, hc]
    | ok created =>
      have hpc : Parses parse post.SqlCreatedAt := ⟨created, hc⟩
      simp only []
      by_cases hu : post.SqlUpdatedAt.Valid = true
      · rw [if_pos hu]
        cases hup : parse post.SqlUpdatedAt.String with
        | error e => simp [Parses, hup, hu]
        | ok updated =>
          have hpu : Parses parse post.SqlUpdatedAt.String := ⟨updated, hup⟩
          simp only []
          rw [(processPublishedAt_spec parse now c _).1]
          simp [hpc, hpu]
      · rw [if_neg hu]
        rw [(processPublishedAt_spec parse now c _).1]
        simp [hpc, hu]
  · unfold ProcessGhostPost
    cases hc : parse post.SqlCreatedAt with
    | error e => simp
    | ok created =>
      simp only []
      by_cases hu : post.SqlUpdatedAt.Valid = true
      · rw [if_pos hu]
        cases hup : parse post.SqlUpdatedAt.String with
        | error e => simp
        | ok updated =>
          simp only []
          intro h
          obtain ⟨h1, h2, h3⟩ := (processPublishedAt_spec parse now c _).2 h
          rw [h1, h2]
          exact ⟨rfl, fun _ => rfl, h3⟩
      · rw [if_neg hu]
        intro h
        obtain ⟨h1, h2, h3⟩ := (processPublishedAt_spec parse now c _).2 h
        rw [h1]
        exact ⟨rfl, fun h => absurd h hu, h3⟩
  · intro parse2 e1 e2 e3
    unfold ProcessGhostPost processPublishedAt
    rw [e1]
    cases hc : parse post.SqlCreatedAt with
    | error e => rfl
    | ok created =>
      simp only []
      by_cases hu : post.SqlUpdatedAt.Valid = true
      · rw [if_pos hu, if_pos hu, e2 hu]
        cases hup : parse post.SqlUpdatedAt.String with
        | error e => rfl
        | ok updated =>
          simp only []
          by_cases hp : post.SqlPublishedAt.Valid = true
          · rw [if_pos hp, if_pos hp, e3 hp]
          · rw [if_neg hp, if_neg hp]
      · rw [if_neg hu, if_neg hu]
        by_cases hp : post.SqlPublishedAt.Valid = true
        · rw [if_pos hp, if_pos hp, e3 hp]
        · rw [if_neg hp, if_neg hp]

/-- C18, witness: the cases of `TestProcessGhostPost`. The date
`2006-01-02 15:04:05` gives the instant 2006-01-02 15:04:05 UTC in all three
fields; the date `0-99-99 50:99:99` gives an error in each of them. -/
theorem C18_error_iff_parse_fails_witness :
    (ProcessGhostPost parseTest time2006 { PublishDrafts := true } testPost).1.2 = none ∧
    (ProcessGhostPost parseTest time2006 { PublishDrafts := true } testPost).1.1.CreatedAt
      = time2006 ∧
    (ProcessGhostPost parseTest time2006 { PublishDrafts := true } testPost).1.1.UpdatedAt
      = time2006 ∧
    (ProcessGhostPost parseTest time2006 { PublishDrafts := true } testPost).1.1.PublishedAt
      = time2006 ∧
    (ProcessGhostPost parseTest time2006 { PublishDrafts := true }
      { testPost with SqlCreatedAt := badDate }).1.2 ≠ none ∧
    (ProcessGhostPost parseTest time2006 { PublishDrafts := true }
      { testPost with SqlUpdatedAt := { String := badDate, Valid := true } }).1.2 ≠ none ∧
    (ProcessGhostPost parseTest time2006 { PublishDrafts := true }
      { testPost with SqlPublishedAt := { String := badDate, Valid := true } }).1.2 ≠ none :=
  ⟨by decide, by decide, by decide, by decide,
    (C18_error_iff_parse_fails parseTest time2006 { PublishDrafts := true }
      { testPost with SqlCreatedAt := badDate }).1.mpr
      (Or.inl (by
        rintro ⟨t, ht⟩
        have h2 : parseTest badDate = Except.error ("cannot parse " ++ badDate) := rfl
        change parseTest badDate = _ at ht
        rw [h2] at ht
        cases ht)),
    by decide, by decide⟩

/-! ## C19 -/

theorem Time_IsZero_iff (t : Time) : t.IsZero = true ↔ t.nsec = 0 := by
  simp [Time.IsZero]

/-- A call on a post with a non-null published date leaves the `Config` as it
is. -/
theorem ProcessGhostPost_config_valid (parse : String → Except String Time) (now : Time)
    (c : Config) (post : GhostPost) (hv : post.SqlPublishedAt.Valid = true) :
    (ProcessGhostPost parse now c post).2 = c := by
  unfold ProcessGhostPost
  cases parse post.SqlCreatedAt with
  | error e => rfl
  | ok created =>
    simp only []
    by_cases hu : post.SqlUpdatedAt.Valid = true
    · rw [if_pos hu]
      cases parse post.SqlUpdatedAt.String with
      | error e => rfl
      | ok updated =>
        simp only []
        unfold processPublishedAt
        rw [if_pos hv]
        cases parse post.SqlPublishedAt.String <;> rfl
    · rw [if_neg hu]
      unfold processPublishedAt
      rw [if_pos hv]
      cases parse post.SqlPublishedAt.String <;> rfl

/-- A successful call on a post with a null published date, with
`SetUnpublishedToNow` true: the counter is set to the clock if it was zero,
then moved back by one second, and the post gets the new value. -/
theorem ProcessGhostPost_config_null (parse : String → Except String Time) (now : Time)
    (c : Config) (post : GhostPost) (hv : post.SqlPublishedAt.Valid = false)
    (hset : c.SetUnpublishedToNow = true)
    (hok : (ProcessGhostPost parse now c post).1.2 = none) :
    (ProcessGhostPost parse now c post).2 = { c with lastPublishOverride :=
        ((if c.lastPublishOverride.IsZero = true then now
          else c.lastPublishOverride).Add (-1 * Second)) } ∧
    (ProcessGhostPost parse now c post).1.1.PublishedAt
      = (if c.lastPublishOverride.IsZero = true then now
          else c.lastPublishOverride).Add (-1 * Second) := by
  have hnv : ¬ post.SqlPublishedAt.Valid = true := by rw [hv]; decide
  have hs : (!post.SqlPublishedAt.Valid && c.SetUnpublishedToNow) = true := by
    rw [hv, hset]; rfl
  have key : ∀ p : GhostPost, p.SqlPublishedAt = post.SqlPublishedAt →
      (processPublishedAt parse now c p).2 = { c with lastPublishOverride :=
        ((if c.lastPublishOverride.IsZero = true then now
          else c.lastPublishOverride).Add (-1 * Second)) } ∧
      (processPublishedAt parse now c p).1.1.PublishedAt
        = (if c.lastPublishOverride.IsZero = true then now
          else c.lastPublishOverride).Add (-1 * Second) := by
    intro p hp
    unfold processPublishedAt
    rw [hp, if_neg hnv, if_pos hs]
    simp only [(markDraft_times _ _).2.2]
    by_cases hz : c.lastPublishOverride.IsZero = true
    · simp [hz]
    · simp [hz]
  unfold ProcessGhostPost at hok ⊢
  cases hc : parse post.SqlCreatedAt with
  | error e => rw [hc] at hok; simp at hok
  | ok created =>
    rw [hc] at hok
    simp only [] at hok ⊢
    by_cases hu : post.SqlUpdatedAt.Valid = true
    · rw [if_pos hu] at hok ⊢
      cases hup : parse post.SqlUpdatedAt.String with
      | error e => rw [hup] at hok; simp at hok
      | ok updated =>
        simp only []
        exact key _ rfl
    · rw [if_neg hu]
      exact key _ rfl

theorem processAll_append (parse : String → Except String Time) (a b : List (Time × GhostPost)) :
    ∀ c : Config, processAll parse c (a ++ b)
      = ((processAll parse c a).1 ++ (processAll parse (processAll parse c a).2 b).1,
          (processAll parse (processAll parse c a).2 b).2) := by
  induction a with
  | nil => intro c; rfl
  | cons x a ih =>
    intro c
    obtain ⟨now, post⟩ := x
    rw [List.cons_append]
    simp only [processAll]
    rw [ih]
    rfl

theorem nullCalls_append (a b : List (Time × GhostPost)) :
    nullCalls (a ++ b) = nullCalls a ++ nullCalls b := by
  unfold nullCalls
  exact List.filter_append _ _

theorem nullCalls_single_null (now : Time) (post : GhostPost)
    (h : post.SqlPublishedAt.Valid = false) : nullCalls [(now, post)] = [(now, post)] := by
  simp [nullCalls, h]

theorem nullCalls_single_valid (now : Time) (post : GhostPost)
    (h : post.SqlPublishedAt.Valid = true) : nullCalls [(now, post)] = [] := by
  simp [nullCalls, h]

theorem Time_Add_Add (t : Time) (a b : Int) : (t.Add a).Add b = t.Add (a + b) := by
  simp [Time.Add, add_assoc]

/-- The counter after a run of successful calls on a `Config` that started
with `SetUnpublishedToNow` true and the counter at the zero time: it is still
zero if no post had a null published date, and otherwise it is the clock value
of the first such call minus one second per such call, as long as it did not
pass through the zero time on the way. -/
theorem processAll_counter (parse : String → Except String Time) (c : Config)
    (hset : c.SetUnpublishedToNow = true) (hzero : c.lastPublishOverride = Time.zero)
    (pre : List (Time × GhostPost)) :
    (∀ r ∈ (processAll parse c pre).1, r.2 = none) →
    (∀ T, ((nullCalls pre).head?).map Prod.fst = some T →
      ∀ j : Nat, 1 ≤ j → j < (nullCalls pre).length → T.nsec ≠ (j : Int) * Second) →
    (processAll parse c pre).2.SetUnpublishedToNow = true ∧
    (nullCalls pre = [] → (processAll parse c pre).2.lastPublishOverride = Time.zero) ∧
    (∀ T, ((nullCalls pre).head?).map Prod.fst = some T →
      (processAll parse c pre).2.lastPublishOverride
        = T.Add (-((nullCalls pre).length : Int) * Second)) := by
  induction pre using List.reverseRecOn with
  | nil =>
    intro _ _
    refine ⟨hset, fun _ => hzero, ?_⟩
    intro T hT
    simp [nullCalls] at hT
  | append_singleton l x ih =>
    obtain ⟨now, post⟩ := x
    intro hok hclock
    rw [processAll_append] at hok
    rw [processAll_append]
    have hokl : ∀ r ∈ (processAll parse c l).1, r.2 = none :=
      fun r hr => hok r (List.mem_append_left _ hr)
    have hokx : (ProcessGhostPost parse now (processAll parse c l).2 post).1.2 = none :=
      hok _ (List.mem_append_right _ (List.mem_singleton.mpr rfl))
    rw [nullCalls_append] at hclock ⊢
    change _ ∧ _ ∧ _
    cases hv : post.SqlPublishedAt.Valid with
    | true =>
      rw [nullCalls_single_valid now post hv, List.append_nil] at hclock ⊢
      have hst : (processAll parse (processAll parse c l).2 [(now, post)]).2
          = (processAll parse c l).2 :=
        ProcessGhostPost_config_valid parse now _ post hv
      simp only [hst]
      exact ih hokl hclock
    | false =>
      rw [nullCalls_single_null now post hv] at hclock ⊢
      have hcl : ∀ T, ((nullCalls l).head?).map Prod.fst = some T →
          ∀ j : Nat, 1 ≤ j → j < (nullCalls l).length → T.nsec ≠ (j : Int) * Second := by
        intro T hT j h1 h2
        refine hclock T ?_ j h1 ?_
        · cases hnl : nullCalls l with
          | nil => rw [hnl] at hT; simp at hT
          | cons y ys => rw [hnl] at hT; simpa using hT
        · rw [List.length_append]; exact Nat.lt_succ_of_lt h2
      obtain ⟨hs, hz, hT⟩ := ih hokl hcl
      obtain ⟨hcfg, _⟩ := ProcessGhostPost_config_null parse now _ post hv hs hokx
      have hst : (processAll parse (processAll parse c l).2 [(now, post)]).2
          = (ProcessGhostPost parse now (processAll parse c l).2 post).2 := rfl
      simp only [hst, hcfg]
      refine ⟨hs, ?_, ?_⟩
      · intro h; simp at h
      · intro T hT2
        cases hnl : nullCalls l with
        | nil =>
          rw [hnl] at hT2
          have hTn : now = T := by simpa using hT2
          subst hTn
          rw [hz hnl]
          simp [Time.zero, Time.IsZero]
        | cons y ys =>
          rw [hnl] at hT2 hclock
          have hTy : y.1 = T := by simpa using hT2
          have hlast := hT T (by rw [hnl]; simpa using hTy)
          rw [hnl] at hlast
          have hne : T.nsec ≠ ((ys.length + 1 : Nat) : Int) * Second :=
            hclock T (by simpa using hTy) (ys.length + 1) (by omega) (by simp)
          have hnz : ¬ ((processAll parse c l).2.lastPublishOverride.IsZero = true) := by
            rw [hlast, Time_IsZero_iff]
            simp only [Time.Add, List.length_cons]
            intro h0
            apply hne
            push_cast at h0 ⊢
            linarith
          rw [if_neg hnz, hlast, Time_Add_Add]
          congr 1
          simp only [List.length_append, List.length_cons, List.length_nil]
          push_cast
          ring

/-- C19: take a `Config` with `SetUnpublishedToNow` true whose counter
`lastPublishOverride` is the zero time, a run `pre` of calls of
`ProcessGhostPost` on it followed by a call at clock value `now` on a post with
a null published date, all of them successful.  Let `T` be the clock value of
the first call of the run on a post with a null published date, and suppose the
counter did not pass through the zero time on the way (`T` is not exactly `j`
seconds after the zero time for `1 ≤ j ≤` the number of such posts in `pre`).
Then this post, the `k`-th with a null published date for
`k = (nullCalls pre).length + 1`, gets `PublishedAt = T - k` seconds; if it is
the first such post, `T` is `now`; and a call on a post with a non-null
published date leaves the `Config`, the counter included, as it is. -/
theorem C19_unpublished_posts_count_down (parse : String → Except String Time) (c : Config)
    (pre : List (Time × GhostPost)) (now : Time) (post : GhostPost) (T : Time)
    (hset : c.SetUnpublishedToNow = true) (hzero : c.lastPublishOverride = Time.zero)
    (hok : ∀ r ∈ (processAll parse c (pre ++ [(now, post)])).1, r.2 = none)
    (hnull : post.SqlPublishedAt.Valid = false)
    (hT : ((nullCalls (pre ++ [(now, post)])).head?).map Prod.fst = some T)
    (hclock : ∀ j : Nat, 1 ≤ j → j ≤ (nullCalls pre).length → T.nsec ≠ (j : Int) * Second) :
    (ProcessGhostPost parse now (processAll parse c pre).2 post).1.1.PublishedAt
        = T.Add (-(((nullCalls pre).length + 1 : Nat) : Int) * Second) ∧
      (nullCalls pre = [] → T = now) ∧
      (∀ (t : Time) (c0 : Config) (q : GhostPost), q.SqlPublishedAt.Valid = true →
        (ProcessGhostPost parse t c0 q).2 = c0) := by
  refine ⟨?_, ?_, fun t c0 q hq => ProcessGhostPost_config_valid parse t c0 q hq⟩
  · have hall := processAll_counter parse c hset hzero (pre ++ [(now, post)]) hok (by
      intro T2 hT2 j h1 h2
      rw [hT] at hT2
      cases hT2
      refine hclock j h1 ?_
      rw [nullCalls_append, nullCalls_single_null now post hnull, List.length_append] at h2
      simpa [Nat.lt_succ_iff] using h2)
    have hlast := hall.2.2 T hT
    rw [processAll_append] at hok
    have hokx : (ProcessGhostPost parse now (processAll parse c pre).2 post).1.2 = none :=
      hok _ (List.mem_append_right _ (List.mem_singleton.mpr rfl))
    have hokl : ∀ r ∈ (processAll parse c pre).1, r.2 = none :=
      fun r hr => hok r (List.mem_append_left _ hr)
    have hpre := processAll_counter parse c hset hzero pre hokl (by
      intro T2 hT2 j h1 h2
      have hTT : T2 = T := by
        rw [nullCalls_append] at hT
        cases hnl : nullCalls pre with
        | nil => rw [hnl] at hT2; simp at hT2
        | cons y ys =>
          rw [hnl] at hT2 hT
          simp at hT2 hT
          rw [← hT2, ← hT]
      rw [hTT]
      exact hclock j h1 (Nat.le_of_lt h2))
    obtain ⟨hcfg, hpub⟩ := ProcessGhostPost_config_null parse now _ post hnull hpre.1 hokx
    rw [processAll_append] at hlast
    have hst : (processAll parse (processAll parse c pre).2 [(now, post)]).2
        = (ProcessGhostPost parse now (processAll parse c pre).2 post).2 := rfl
    simp only [hst, hcfg] at hlast
    rw [hpub, hlast, nullCalls_append, nullCalls_single_null now post hnull]
    simp
  · intro hnil
    rw [nullCalls_append, hnil, nullCalls_single_null now post hnull] at hT
    simpa using hT.symm

set_option maxRecDepth 100000 in
/-- C19, an instance: after a post with a null published date processed at
`clock1` and a post with a published date processed at `clock2`, a second post
with a null published date processed at `clock3` gets `clock1` minus two
seconds. -/
theorem C19_unpublished_posts_count_down_witness :
    (ProcessGhostPost parseTest clock3 (processAll parseTest counterConfig twoCalls).2
        unpublishedPost).1.1.PublishedAt = ⟨63899999998 * 1000000000⟩ ∧
      nullCalls twoCalls = [(clock1, unpublishedPost)] :=
  ⟨(C19_unpublished_posts_count_down parseTest counterConfig twoCalls clock3 unpublishedPost
      clock1 rfl rfl (by decide) rfl rfl (by
        intro j h1 h2
        have h3 : j = 1 := Nat.le_antisymm h2 h1
        subst h3
        decide)).1, rfl⟩

/-! ## C20 -/

/-- A list whose elements all occur in `old` and that begins the result of the
scan also begins the scanned string, when no character of `new` occurs in
`old` and `new` is not empty. -/
theorem replaceScan_head (old new : List Char) (hnew : new ≠ [])
    (hdis : ∀ ch ∈ new, ch ∉ old) :
    ∀ (fuel : Nat) (s o : List Char), (∀ ch ∈ o, ch ∈ old) →
      o <+: replaceScan old new fuel s → o <+: s := by
  intro fuel
  induction fuel with
  | zero => intro s o _ h; exact h
  | succ fuel ih =>
    intro s o ho h
    cases s with
    | nil => exact h
    | cons ch t =>
      cases o with
      | nil => exact List.nil_prefix
      | cons a o2 =>
        by_cases hp : old.isPrefixOf (ch :: t) = true
        · exfalso
          simp only [replaceScan, if_pos hp] at h
          obtain ⟨n0, ns, rfl⟩ := List.exists_cons_of_ne_nil hnew
          rw [List.cons_append] at h
          have ha : a = n0 := (List.cons_prefix_cons.mp h).1
          exact hdis n0 (List.mem_cons_self _ _) (ha ▸ ho a (List.mem_cons_self _ _))
        · simp only [replaceScan, if_neg hp] at h
          obtain ⟨ha, h2⟩ := List.cons_prefix_cons.mp h
          exact List.cons_prefix_cons.mpr
            ⟨ha, ih t o2 (fun x hx => ho x (List.mem_cons_of_mem _ hx)) h2⟩

/-- An occurrence of `old` in `new ++ x` lies in `x` when no character of `new`
occurs in `old`. -/
theorem infix_skip_disjoint (old x : List Char) (hold : old ≠ []) :
    ∀ new : List Char, (∀ ch ∈ new, ch ∉ old) → old <:+: new ++ x → old <:+: x := by
  intro new
  induction new with
  | nil => intro _ h; exact h
  | cons n ns ih =>
    intro hdis h
    rw [List.cons_append, List.infix_cons_iff] at h
    rcases h with h | h
    · exfalso
      obtain ⟨a, o2, rfl⟩ := List.exists_cons_of_ne_nil hold
      have ha : a = n := (List.cons_prefix_cons.mp h).1
      exact hdis n (List.mem_cons_self _ _) (ha ▸ List.mem_cons_self _ _)
    · exact ih (fun ch hc => hdis ch (List.mem_cons_of_mem _ hc)) h

/-- No occurrence of `old` is left by the scan when `new` is not empty and has
no character in common with `old`. -/
theorem replaceScan_none_left (old new : List Char) (hold : old ≠ []) (hnew : new ≠ [])
    (hdis : ∀ ch ∈ new, ch ∉ old) :
    ∀ (fuel : Nat) (s : List Char), s.length ≤ fuel →
      ¬ old <:+: replaceScan old new fuel s := by
  have hlen : 1 ≤ old.length := List.length_pos.mpr hold
  intro fuel
  induction fuel with
  | zero =>
    intro s hs h
    have h0 : s = [] := List.length_eq_zero.mp (Nat.le_zero.mp hs)
    subst h0
    exact hold (List.infix_nil.mp h)
  | succ fuel ih =>
    intro s hs h
    cases s with
    | nil => exact hold (List.infix_nil.mp h)
    | cons ch t =>
      have hpre : ¬ old <+: replaceScan old new (fuel + 1) (ch :: t) := by
        intro hp
        have hp2 : old <+: ch :: t :=
          replaceScan_head old new hnew hdis (fuel + 1) (ch :: t) old (fun _ hx => hx) hp
        have hp3 : old.isPrefixOf (ch :: t) = true := List.isPrefixOf_iff_prefix.mpr hp2
        simp only [replaceScan, if_pos hp3] at hp
        obtain ⟨n0, ns, rfl⟩ := List.exists_cons_of_ne_nil hnew
        obtain ⟨a, o2, rfl⟩ := List.exists_cons_of_ne_nil hold
        rw [List.cons_append] at hp
        have ha : a = n0 := (List.cons_prefix_cons.mp hp).1
        exact hdis n0 (List.mem_cons_self _ _) (ha ▸ List.mem_cons_self _ _)
      by_cases hp : old.isPrefixOf (ch :: t) = true
      · simp only [replaceScan, if_pos hp] at h
        refine ih ((ch :: t).drop old.length) ?_ (infix_skip_disjoint old _ hold new hdis h)
        rw [List.length_drop]
        simp only [List.length_cons] at hs ⊢
        omega
      · have h2 := h
        simp only [replaceScan, if_neg hp] at h2
        rw [List.infix_cons_iff] at h2
        rcases h2 with h2 | h2
        · apply hpre
          simp only [replaceScan, if_neg hp]
          exact h2
        · exact ih t (by simp only [List.length_cons] at hs; omega) h2

/-- No occurrence of a non-empty pattern is left by `strings.ReplaceAll` when
the replacement is not empty and has no character in common with the pattern. -/
theorem ReplaceAll_none_left (s old new : String) (hold : old ≠ "") (hnew : new ≠ "")
    (hdis : ∀ ch ∈ new.data, ch ∉ old.data) :
    ¬ old.data <:+: (ReplaceAll s old new).data := by
  have hd : old.data ≠ [] := fun h => hold (String.ext h)
  have hn : new.data ≠ [] := fun h => hnew (String.ext h)
  have hne : old ≠ new := by
    intro h
    obtain ⟨n0, ns, hns⟩ := List.exists_cons_of_ne_nil hn
    exact hdis n0 (by rw [hns]; exact List.mem_cons_self _ _)
      (by rw [h, hns]; exact List.mem_cons_self _ _)
  unfold ReplaceAll
  rw [if_neg hne, if_neg hd]
  exact replaceScan_none_left old.data new.data hd hn hdis _ _ (Nat.le_refl _)

/-- On a text without markup, with the encoder that writes character data as it
is, `ProcessHTML` returns the text. -/
theorem ProcessHTML_plainText (c : Config) (ρ : RangeOrders) (h : String) :
    ProcessHTML textWriter c ρ (plainText h) = some (h, none) := by
  have h0 : ("" : String) ++ h = h := String.ext (by simp)
  simp [ProcessHTML, loop, iteration, passThrough, plainText, textWriter, Decoder.Token, h0]

/-- With a tokenizer and an encoder that hand a text on unchanged and a
template that prints `PostHTML`, `RenderString` returns the text it handed to
`ProcessHTML`. -/
theorem RenderString_plainText (format : Time → String) (c : Config) (ρ : RangeOrders)
    (post : GhostPost) (hf : (!post.HTML.Valid && c.ForbidEmptyPosts) = false) :
    RenderString textWriter plainText format (fun t => .ok t.PostHTML) c ρ post
      = some (ReplaceAll post.HTML.String ghostUrl c.GhostURL, none) := by
  unfold RenderString
  rw [if_neg (by rw [hf]; decide)]
  simp only [ProcessHTML_plainText]

/-- C20 (as amended). The HTML text `RenderString` passes on to `ProcessHTML`
is `strings.ReplaceAll(post.HTML.String, "__GHOST_URL__", c.GhostURL)`: the
result depends on the tokenizer only through the tokens of that text, and with
a tokenizer and an encoder that hand a text on unchanged and a template that
prints `PostHTML`, the result is that text.  That text is the post's HTML
itself when the placeholder does not occur in it; otherwise the leftmost
occurrence is replaced by `GhostURL` and the replacement goes on in what
follows that occurrence.  No occurrence of the placeholder is left when
`GhostURL` is not empty and has no character in common with the placeholder;
`src="__GHOST_URL__/foo.png"` with `https://example.com` becomes
`src="https://example.com/foo.png"`. -/
theorem C20_ghost_url_replaced {σ : Type} (enc : Encoder σ String)
    (tokenize : String → Decoder) (format : Time → String)
    (execute : postTemplate → Except String String) (c : Config) (ρ : RangeOrders)
    (post : GhostPost) :
    (∀ tokenize2 : String → Decoder,
        tokenize2 (ReplaceAll post.HTML.String ghostUrl c.GhostURL)
          = tokenize (ReplaceAll post.HTML.String ghostUrl c.GhostURL) →
        RenderString enc tokenize2 format execute c ρ post
          = RenderString enc tokenize format execute c ρ post) ∧
      ((!post.HTML.Valid && c.ForbidEmptyPosts) = false →
        RenderString textWriter plainText format (fun t => .ok t.PostHTML) c ρ post
          = some (ReplaceAll post.HTML.String ghostUrl c.GhostURL, none)) ∧
      (¬ ghostUrl.data <:+: post.HTML.String.data →
        ReplaceAll post.HTML.String ghostUrl c.GhostURL = post.HTML.String) ∧
      (∀ p q : String, post.HTML.String = p ++ ghostUrl ++ q →
        ¬ ghostUrl.data <:+: p.data ++ ghostUrl.data.dropLast →
        ReplaceAll post.HTML.String ghostUrl c.GhostURL
          = p ++ c.GhostURL ++ ReplaceAll q ghostUrl c.GhostURL) ∧
      (c.GhostURL ≠ "" → (∀ ch ∈ c.GhostURL.data, ch ∉ ghostUrl.data) →
        ¬ ghostUrl.data <:+: (ReplaceAll post.HTML.String ghostUrl c.GhostURL).data) ∧
      ReplaceAll ghostImgSrc ghostUrl exampleGhostURL = "src=\"https://example.com/foo.png\"" := by
  refine ⟨?_, ?_, ?_, ?_, ?_, by decide⟩
  · intro tokenize2 h
    unfold RenderString
    simp only [h]
  · exact RenderString_plainText format c ρ post
  · intro hno
    exact ReplaceAll_of_absent _ _ _ hno
  · intro p q hpq hno
    rw [hpq]
    by_cases hne : ghostUrl = c.GhostURL
    · rw [← hne]
      simp [ReplaceAll]
    · exact ReplaceAll_leftmost p q ghostUrl c.GhostURL (by decide) hne hno
  · intro hne hdis
    exact ReplaceAll_none_left _ _ _ (by decide) hne hdis

/-- C20, an instance: with the `GhostURL` `https://example.com`, no occurrence
of the placeholder is left in the text of a post whose HTML is
`src="__GHOST_URL__/foo.png"`. -/
theorem C20_ghost_url_replaced_witness :
    ¬ ghostUrl.data <:+: (ReplaceAll ghostImgSrc ghostUrl exampleGhostURL).data :=
  (C20_ghost_url_replaced textWriter plainText (fun _ => "") (fun t => .ok t.PostHTML)
    { GhostURL := exampleGhostURL } (fun _ => [])
    { HTML := { String := ghostImgSrc, Valid := true } }).2.2.2.2.1 (by decide) (by decide)

/-- C20, the claim as stated fails. With an empty `GhostURL`, the text
`__GHOST___GHOST_URL__URL__` becomes `__GHOST_URL__`: the text handed to
`ProcessHTML`, and with it the rendered post, is the placeholder itself.  The
same happens whenever `GhostURL` contains the placeholder. -/
theorem C20_counterexample :
    RenderString textWriter plainText (fun _ => "") (fun t => .ok t.PostHTML) {} (fun _ => [])
        { HTML := { String := nestedPlaceholder, Valid := true } }
        = some ("__GHOST_URL__", none) ∧
      ReplaceAll nestedPlaceholder ghostUrl "" = "__GHOST_URL__" ∧
      ghostUrl.data <:+: (ReplaceAll nestedPlaceholder ghostUrl "").data ∧
      ReplaceAll "__GHOST_URL__/foo.png" ghostUrl "__GHOST_URL__/blog"
        = "__GHOST_URL__/blog/foo.png" := by
  refine ⟨?_, by decide, ?_, by decide⟩
  · rw [RenderString_plainText (fun _ => "") {} (fun _ => [])
      { HTML := { String := nestedPlaceholder, Valid := true } } rfl]
    decide
  · have h : ReplaceAll nestedPlaceholder ghostUrl "" = "__GHOST_URL__" := by decide
    rw [h]
    exact List.infix_refl _

/-! ## A decode that fails; the loop up to a token does not depend on what follows -/

/-- `Skip` fails only by running out of tokens: the error is the one the stream
ends with, and no token is left. -/
theorem skipTokens_err (terminal : String) (ts : List Token) :
    ∀ depth, (skipTokens terminal depth ts).1 = none ∨
      skipTokens terminal depth ts = (some terminal, []) := by
  induction ts with
  | nil => intro depth; right; cases depth <;> rfl
  | cons t ts ih =>
    intro depth
    cases t with
    | StartElement n a => simp only [skipTokens]; exact ih _
    | EndElement n =>
      cases depth with
      | zero => left; rfl
      | succ d => simp only [skipTokens]; exact ih _
    | CharData d => simp only [skipTokens]; exact ih _
    | Comment d => simp only [skipTokens]; exact ih _
    | ProcInst a b => simp only [skipTokens]; exact ih _
    | Directive d => simp only [skipTokens]; exact ih _

theorem skipTokens_lt (terminal : String) (ts : List Token) (hts : ts ≠ []) (depth : Nat) :
    (skipTokens terminal depth ts).2.length < ts.length := by
  rcases skipTokens_err terminal ts depth with h | h
  · exact skipTokens_ok_length terminal ts depth h
  · rw [h]
    exact List.length_pos.mpr hts

/-- `Skip` is local: if it leaves at least the tokens `suf` that follow `p`, it
has found the end of the element inside `p`, and does the same on `p` alone. -/
theorem skipTokens_local (terminal : String) (suf : List Token) (hsuf : suf ≠ []) :
    ∀ (p : List Token) (depth : Nat),
      suf.length ≤ (skipTokens terminal depth (p ++ suf)).2.length →
      (skipTokens terminal depth p).1 = none ∧
        skipTokens terminal depth (p ++ suf)
          = (none, (skipTokens terminal depth p).2 ++ suf) := by
  intro p
  induction p with
  | nil =>
    intro depth h
    have := skipTokens_lt terminal suf hsuf depth
    rw [List.nil_append] at h
    omega
  | cons t p ih =>
    intro depth h
    rw [List.cons_append] at h ⊢
    cases t with
    | StartElement n a => simp only [skipTokens] at h ⊢; exact ih _ h
    | EndElement n =>
      cases depth with
      | zero => exact ⟨rfl, rfl⟩
      | succ d => simp only [skipTokens] at h ⊢; exact ih _ h
    | CharData d => simp only [skipTokens] at h ⊢; exact ih _ h
    | Comment d => simp only [skipTokens] at h ⊢; exact ih _ h
    | ProcInst a b => simp only [skipTokens] at h ⊢; exact ih _ h
    | Directive d => simp only [skipTokens] at h ⊢; exact ih _ h

/-- `unmarshalEl` takes at least one token when there is one, and it fails only
by running out of tokens. -/
theorem unmarshalEl_length (terminal : String) :
    ∀ (fuel : Nat) (data : String) (ts : List Token) (r : Except String String × List Token),
      unmarshalEl terminal fuel data ts = some r →
      (ts ≠ [] → r.2.length < ts.length) ∧
        (∀ e, r.1 = Except.error e → r = (Except.error terminal, [])) := by
  intro fuel
  induction fuel with
  | zero => intro data ts r h; cases h
  | succ fuel ih =>
    intro data ts r h
    cases ts with
    | nil =>
      simp only [unmarshalEl, Option.some.injEq] at h
      subst h
      exact ⟨fun h => absurd rfl h, fun _ _ => rfl⟩
    | cons t ts =>
      cases t with
      | StartElement n a =>
        simp only [unmarshalEl] at h
        have hlen := skipTokens_length terminal ts 0
        rcases skipTokens_err terminal ts 0 with hsk | hsk
        · rcases hsk2 : skipTokens terminal 0 ts with ⟨e, q⟩
          rw [hsk2] at hsk hlen h
          simp only at hsk hlen
          subst hsk
          simp only at h
          have h2 := ih data q r h
          refine ⟨fun _ => ?_, h2.2⟩
          simp only [List.length_cons]
          cases q with
          | nil =>
            have : r.2.length ≤ 0 := by
              rcases hr : unmarshalEl terminal fuel data [] with _ | r2
              · rw [hr] at h; cases h
              · cases fuel with
                | zero => simp [unmarshalEl] at hr
                | succ f =>
                  simp only [unmarshalEl, Option.some.injEq] at h
                  subst h
                  exact Nat.le_refl _
            omega
          | cons q0 qs =>
            have := h2.1 (List.cons_ne_nil _ _)
            omega
        · rw [hsk] at h
          simp only [Option.some.injEq] at h
          subst h
          exact ⟨fun _ => by simp, fun _ _ => rfl⟩
      | EndElement n =>
        simp only [unmarshalEl, Option.some.injEq] at h
        subst h
        exact ⟨fun _ => by simp, fun e he => by cases he⟩
      | CharData d =>
        simp only [unmarshalEl] at h
        have h2 := ih _ ts r h
        refine ⟨fun _ => ?_, h2.2⟩
        simp only [List.length_cons]
        cases ts with
        | nil =>
          cases fuel with
          | zero => simp [unmarshalEl] at h
          | succ f =>
            simp only [unmarshalEl, Option.some.injEq] at h
            subst h
            simp
        | cons q0 qs =>
          have := h2.1 (List.cons_ne_nil _ _)
          omega
      | Comment d =>
        simp only [unmarshalEl] at h
        have h2 := ih _ ts r h
        refine ⟨fun _ => ?_, h2.2⟩
        simp only [List.length_cons]
        cases ts with
        | nil =>
          cases fuel with
          | zero => simp [unmarshalEl] at h
          | succ f =>
            simp only [unmarshalEl, Option.some.injEq] at h
            subst h
            simp
        | cons q0 qs =>
          have := h2.1 (List.cons_ne_nil _ _)
          omega
      | ProcInst a b =>
        simp only [unmarshalEl] at h
        have h2 := ih _ ts r h
        refine ⟨fun _ => ?_, h2.2⟩
        simp only [List.length_cons]
        cases ts with
        | nil =>
          cases fuel with
          | zero => simp [unmarshalEl] at h
          | succ f =>
            simp only [unmarshalEl, Option.some.injEq] at h
            subst h
            simp
        | cons q0 qs =>
          have := h2.1 (List.cons_ne_nil _ _)
          omega
      | Directive d =>
        simp only [unmarshalEl] at h
        have h2 := ih _ ts r h
        refine ⟨fun _ => ?_, h2.2⟩
        simp only [List.length_cons]
        cases ts with
        | nil =>
          cases fuel with
          | zero => simp [unmarshalEl] at h
          | succ f =>
            simp only [unmarshalEl, Option.some.injEq] at h
            subst h
            simp
        | cons q0 qs =>
          have := h2.1 (List.cons_ne_nil _ _)
          omega

/-- More fuel does not change a result of `unmarshalEl`. -/
theorem unmarshalEl_more_fuel (terminal : String) :
    ∀ (fuel : Nat) (data : String) (ts : List Token) (r : Except String String × List Token),
      unmarshalEl terminal fuel data ts = some r →
      ∀ fuel2, fuel ≤ fuel2 → unmarshalEl terminal fuel2 data ts = some r := by
  intro fuel
  induction fuel with
  | zero => intro data ts r h; cases h
  | succ fuel ih =>
    intro data ts r h fuel2 hle
    obtain ⟨f2, rfl⟩ : ∃ f2, fuel2 = f2 + 1 := ⟨fuel2 - 1, by omega⟩
    have hle2 : fuel ≤ f2 := by omega
    cases ts with
    | nil => simpa only [unmarshalEl] using h
    | cons t ts =>
      cases t with
      | StartElement n a =>
        simp only [unmarshalEl] at h ⊢
        rcases hsk : skipTokens terminal 0 ts with ⟨e, q⟩
        rw [hsk] at h
        cases e with
        | some err => exact h
        | none => exact ih data q r h f2 hle2
      | EndElement n => simpa only [unmarshalEl] using h
      | CharData d => simp only [unmarshalEl] at h ⊢; exact ih _ ts r h f2 hle2
      | Comment d => simp only [unmarshalEl] at h ⊢; exact ih _ ts r h f2 hle2
      | ProcInst a b => simp only [unmarshalEl] at h ⊢; exact ih _ ts r h f2 hle2
      | Directive d => simp only [unmarshalEl] at h ⊢; exact ih _ ts r h f2 hle2

/-- `unmarshalEl` is local: if it leaves at least the tokens `suf` that follow
`p`, it has found the end of the element inside `p`, and does the same on `p`
alone. -/
theorem unmarshalEl_local (terminal : String) (suf : List Token) (hsuf : suf ≠ []) :
    ∀ (fuel : Nat) (data : String) (p : List Token)
      (r : Except String String × List Token),
      unmarshalEl terminal fuel data (p ++ suf) = some r → suf.length ≤ r.2.length →
      ∃ q, r.2 = q ++ suf ∧ unmarshalEl terminal fuel data p = some (r.1, q) := by
  intro fuel
  induction fuel with
  | zero => intro data p r h; cases h
  | succ fuel ih =>
    intro data p r h hlen
    cases p with
    | nil =>
      rw [List.nil_append] at h
      have := (unmarshalEl_length terminal _ _ _ _ h).1 hsuf
      omega
    | cons t p =>
      rw [List.cons_append] at h
      cases t with
      | StartElement n a =>
        simp only [unmarshalEl] at h ⊢
        rcases skipTokens_err terminal (p ++ suf) 0 with hsk | hsk
        · rcases hsk2 : skipTokens terminal 0 (p ++ suf) with ⟨e, q⟩
          rw [hsk2] at hsk h
          simp only at hsk
          subst hsk
          simp only at h
          have hq : suf.length ≤ q.length := by
            have h1 := unmarshalEl_length terminal _ _ _ _ h
            cases q with
            | nil =>
              cases fuel with
              | zero => simp [unmarshalEl] at h
              | succ f =>
                simp only [unmarshalEl, Option.some.injEq] at h
                subst h
                exact hlen
            | cons q0 qs =>
              have := h1.1 (List.cons_ne_nil _ _)
              omega
          have hloc := skipTokens_local terminal suf hsuf p 0 (by rw [hsk2]; exact hq)
          rw [hsk2] at hloc
          simp only [Prod.mk.injEq, true_and] at hloc
          obtain ⟨hp1, hp2⟩ := hloc
          rcases hsk3 : skipTokens terminal 0 p with ⟨e3, q3⟩
          rw [hsk3] at hp1 hp2
          simp only at hp1 hp2
          subst hp1
          subst hp2
          simp only
          exact ih data q3 r h hlen
        · rw [hsk] at h
          simp only [Option.some.injEq] at h
          subst h
          simp only [List.length_nil] at hlen
          exact absurd (List.length_eq_zero.mp (Nat.le_zero.mp hlen)) hsuf
      | EndElement n =>
        simp only [unmarshalEl, Option.some.injEq] at h ⊢
        subst h
        exact ⟨p, rfl, rfl⟩
      | CharData d => simp only [unmarshalEl] at h ⊢; exact ih _ p r h hlen
      | Comment d => simp only [unmarshalEl] at h ⊢; exact ih _ p r h hlen
      | ProcInst a b => simp only [unmarshalEl] at h ⊢; exact ih _ p r h hlen
      | Directive d => simp only [unmarshalEl] at h ⊢; exact ih _ p r h hlen

/-- `DecodeElement` into `el` is local. -/
theorem DecodeElementEl_local (terminal : String) (p suf : List Token) (hsuf : suf ≠ [])
    (res : Except String String) (x2 : Decoder)
    (h : Decoder.DecodeElementEl ⟨p ++ suf, terminal⟩ = some (res, x2))
    (hlen : suf.length ≤ x2.pending.length) :
    ∃ q, x2 = ⟨q ++ suf, terminal⟩ ∧
      Decoder.DecodeElementEl ⟨p, terminal⟩ = some (res, ⟨q, terminal⟩) := by
  unfold Decoder.DecodeElementEl at h ⊢
  simp only at h ⊢
  rcases hu : unmarshalEl terminal ((p ++ suf).length + 1) "" (p ++ suf) with _ | r
  · rw [hu] at h; cases h
  · rw [hu] at h
    simp only [Option.map_some', Option.some.injEq, Prod.mk.injEq] at h
    obtain ⟨h1, h2⟩ := h
    subst h1
    subst h2
    obtain ⟨q, hq, hq2⟩ := unmarshalEl_local terminal suf hsuf _ _ p r hu hlen
    obtain ⟨r2, hr2, -⟩ := unmarshalEl_returns terminal (p.length + 1) "" p (Nat.lt_succ_self _)
    have hr3 := unmarshalEl_more_fuel terminal _ _ _ _ hr2 ((p ++ suf).length + 1)
      (by rw [List.length_append]; omega)
    rw [hq2] at hr3
    cases hr3
    refine ⟨q, by rw [hq], ?_⟩
    rw [hr2]
    rfl

/-- `DecodeElement` into `el` fails only by running out of tokens. -/
theorem DecodeElementEl_err (d x2 : Decoder) (e : String)
    (h : d.DecodeElementEl = some (Except.error e, x2)) : x2 = ⟨[], d.terminal⟩ := by
  unfold Decoder.DecodeElementEl at h
  rcases hu : unmarshalEl d.terminal (d.pending.length + 1) "" d.pending with _ | r
  · rw [hu] at h; cases h
  · rw [hu] at h
    simp only [Option.map_some', Option.some.injEq, Prod.mk.injEq] at h
    obtain ⟨h1, h2⟩ := h
    have := (unmarshalEl_length d.terminal _ _ _ _ hu).2 e h1
    subst h2
    rw [this]

theorem passThrough_local {σ ω : Type} [Inhabited ω] (enc : Encoder σ ω) (x0 x0b x xb : Decoder)
    (xe : σ) (k : Nat) (t : Token) (s2 : State σ)
    (h : passThrough enc ⟨x0, xe, k⟩ x t = Step.next s2) :
    s2.x = x ∧ passThrough enc ⟨x0b, xe, k⟩ xb t = Step.next ⟨xb, s2.xe, s2.ranges⟩ := by
  unfold passThrough at h ⊢
  simp only at h ⊢
  cases he : enc.EncodeToken xe t with
  | error e => rw [he] at h; cases h
  | ok xe1 =>
    rw [he] at h
    simp only [Step.next.injEq] at h
    subst h
    exact ⟨rfl, rfl⟩

theorem imageNormalize_local {σ ω : Type} [Inhabited ω] (enc : Encoder σ ω) (x0 x0b : Decoder)
    (xe : σ) (k : Nat) (terminal : String) (p suf : List Token) (hsuf : suf ≠ [])
    (name : Name) (attr : List Attr) (s2 : State σ)
    (h : imageNormalize enc ⟨x0, xe, k⟩ ⟨p ++ suf, terminal⟩ name attr = Step.next s2)
    (hlen : suf.length ≤ s2.x.pending.length) :
    ∃ q, s2.x = ⟨q ++ suf, terminal⟩ ∧
      imageNormalize enc ⟨x0b, xe, k⟩ ⟨p, terminal⟩ name attr
        = Step.next ⟨⟨q, terminal⟩, s2.xe, s2.ranges⟩ := by
  have hx2 : s2.x = ⟨(skipTokens terminal 0 (p ++ suf)).2, terminal⟩ := by
    unfold imageNormalize at h
    simp only [Decoder.DecodeElementAny, Decoder.Skip] at h
    split at h
    · next heq =>
      cases h
      simp only [Prod.mk.injEq] at heq
      exact heq.2.symm
    · next heq =>
      simp only [Prod.mk.injEq] at heq
      obtain ⟨-, rfl⟩ := heq
      split at h
      · cases h
      · split at h
        · cases h
        · cases h; rfl
  have hloc := skipTokens_local terminal suf hsuf p 0 (by rw [hx2] at hlen; exact hlen)
  obtain ⟨hp1, hp2⟩ := hloc
  refine ⟨(skipTokens terminal 0 p).2, by rw [hx2, hp2], ?_⟩
  unfold imageNormalize at h ⊢
  simp only [Decoder.DecodeElementAny, Decoder.Skip] at h ⊢
  rw [hp2] at h
  rw [hp1]
  simp only at h ⊢
  generalize (if attr.length ≠ 0 then imgAttrLoop attr.length attr else attr) = attr2 at h ⊢
  cases he1 : enc.EncodeToken xe (Token.StartElement name attr2) with
  | error e => rw [he1] at h; cases h
  | ok xe1 =>
    rw [he1] at h
    simp only at h ⊢
    cases he2 : enc.EncodeToken xe1 (Token.EndElement name) with
    | error e => rw [he2] at h; cases h
    | ok xe2 =>
      rw [he2] at h
      simp only [Step.next.injEq] at h ⊢
      subst h
      rfl

theorem anchorRewrite_local {σ ω : Type} [Inhabited ω] (enc : Encoder σ ω) (ρ : RangeOrders)
    (x0 x0b : Decoder) (xe : σ) (k : Nat) (terminal : String) (p suf : List Token)
    (hsuf : suf ≠ []) (name : Name) (attr : List Attr) (s2 : State σ)
    (h : anchorRewrite enc ρ ⟨x0, xe, k⟩ ⟨p ++ suf, terminal⟩ name attr = some (Step.next s2))
    (hlen : suf.length ≤ s2.x.pending.length) :
    ∃ q, s2.x = ⟨q ++ suf, terminal⟩ ∧
      anchorRewrite enc ρ ⟨x0b, xe, k⟩ ⟨p, terminal⟩ name attr
        = some (Step.next ⟨⟨q, terminal⟩, s2.xe, s2.ranges⟩) := by
  obtain ⟨r, hr, -, -⟩ := DecodeElementEl_returns ⟨p ++ suf, terminal⟩
  rcases r with ⟨res, x2⟩
  have hx2 : s2.x = x2 := by
    unfold anchorRewrite at h
    rw [hr] at h
    cases res with
    | error e =>
      simp only [Option.some.injEq, Step.next.injEq] at h
      subst h
      rfl
    | ok content =>
      simp only at h
      split at h
      · cases h
      · split at h
        · cases h
        · split at h
          · cases h
          · cases h; rfl
  obtain ⟨q, hq, hq2⟩ := DecodeElementEl_local terminal p suf hsuf res x2 hr
    (by rw [← hx2]; exact hlen)
  refine ⟨q, by rw [hx2, hq], ?_⟩
  unfold anchorRewrite at h ⊢
  rw [hr] at h
  rw [hq2]
  cases res with
  | error e =>
    exfalso
    have := DecodeElementEl_err _ _ _ hr
    rw [this] at hq
    simp only [Decoder.mk.injEq, and_true] at hq
    have : (q ++ suf).length = 0 := by rw [← hq]; rfl
    rw [List.length_append] at this
    exact hsuf (List.length_eq_zero.mp (by omega))
  | ok content =>
    simp only at h ⊢
    cases he1 : enc.EncodeToken xe (Token.StartElement name (aAttrLoop ρ attr.length k attr).2) with
    | error e => rw [he1] at h; cases h
    | ok xe1 =>
      rw [he1] at h
      simp only at h ⊢
      cases he2 : enc.EncodeToken xe1 (Token.CharData content) with
      | error e => rw [he2] at h; cases h
      | ok xe2 =>
        rw [he2] at h
        simp only at h ⊢
        cases he3 : enc.EncodeToken xe2 (Token.EndElement name) with
        | error e => rw [he3] at h; cases h
        | ok xe3 =>
          rw [he3] at h
          simp only [Option.some.injEq, Step.next.injEq] at h ⊢
          subst h
          rfl

/-- One iteration is local: if the loop goes on and the decoder still holds at
least the tokens `suf` that follow `p`, the iteration has read inside `p` only,
and does the same, with the same calls of the encoder, on `p` alone. -/
theorem iteration_local {σ ω : Type} [Inhabited ω] (enc : Encoder σ ω) (c : Config)
    (ρ : RangeOrders) (terminal : String) (p suf : List Token) (hsuf : suf ≠ [])
    (xe : σ) (k : Nat) (s2 : State σ)
    (h : iteration enc c ρ ⟨⟨p ++ suf, terminal⟩, xe, k⟩ = some (Step.next s2))
    (hlen : suf.length ≤ s2.x.pending.length) :
    ∃ q, s2.x = ⟨q ++ suf, terminal⟩ ∧
      iteration enc c ρ ⟨⟨p, terminal⟩, xe, k⟩
        = some (Step.next ⟨⟨q, terminal⟩, s2.xe, s2.ranges⟩) := by
  cases p with
  | nil =>
    have := (iteration_next enc c ρ _ _ h).1
    simp only [List.nil_append] at this
    omega
  | cons t p =>
    unfold iteration at h ⊢
    simp only [Decoder.Token, List.cons_append] at h ⊢
    cases t with
    | StartElement name attr =>
      simp only at h ⊢
      by_cases himg : name.Local = "img"
      · rw [if_pos himg] at h ⊢
        simp only [Option.some.injEq] at h ⊢
        exact imageNormalize_local enc _ _ xe k terminal p suf hsuf name attr s2 h hlen
      · rw [if_neg himg] at h ⊢
        by_cases ha : name.Local = "a" ∧ c.ReplaceLinks = true ∧ attr.length ≠ 0
        · rw [if_pos ha] at h ⊢
          exact anchorRewrite_local enc ρ _ _ xe k terminal p suf hsuf name attr s2 h hlen
        · rw [if_neg ha] at h ⊢
          simp only [Option.some.injEq] at h ⊢
          obtain ⟨h1, h2⟩ := passThrough_local enc _
            ⟨Token.StartElement name attr :: p, terminal⟩ _ ⟨p, terminal⟩ xe k _ s2 h
          exact ⟨p, h1, h2⟩
    | EndElement n =>
      simp only [Option.some.injEq] at h ⊢
      obtain ⟨h1, h2⟩ := passThrough_local enc _
        ⟨Token.EndElement n :: p, terminal⟩ _ ⟨p, terminal⟩ xe k _ s2 h
      exact ⟨p, h1, h2⟩
    | CharData d =>
      simp only [Option.some.injEq] at h ⊢
      obtain ⟨h1, h2⟩ := passThrough_local enc _
        ⟨Token.CharData d :: p, terminal⟩ _ ⟨p, terminal⟩ xe k _ s2 h
      exact ⟨p, h1, h2⟩
    | Comment d =>
      simp only [Option.some.injEq] at h ⊢
      obtain ⟨h1, h2⟩ := passThrough_local enc _
        ⟨Token.Comment d :: p, terminal⟩ _ ⟨p, terminal⟩ xe k _ s2 h
      exact ⟨p, h1, h2⟩
    | ProcInst a b =>
      simp only [Option.some.injEq] at h ⊢
      obtain ⟨h1, h2⟩ := passThrough_local enc _
        ⟨Token.ProcInst a b :: p, terminal⟩ _ ⟨p, terminal⟩ xe k _ s2 h
      exact ⟨p, h1, h2⟩
    | Directive d =>
      simp only [Option.some.injEq] at h ⊢
      obtain ⟨h1, h2⟩ := passThrough_local enc _
        ⟨Token.Directive d :: p, terminal⟩ _ ⟨p, terminal⟩ xe k _ s2 h
      exact ⟨p, h1, h2⟩

/-- The loop is local: if after `n` iterations the decoder holds exactly the
tokens `suf` that followed `p`, then on `p` alone the loop uses up the decoder
in `n` iterations, with the same calls of the encoder. -/
theorem iterate_local {σ ω : Type} [Inhabited ω] (enc : Encoder σ ω) (c : Config)
    (ρ : RangeOrders) (terminal : String) (suf : List Token) (hsuf : suf ≠ []) :
    ∀ (n : Nat) (p : List Token) (xe : σ) (k : Nat) (s : State σ),
      iterate enc c ρ n ⟨⟨p ++ suf, terminal⟩, xe, k⟩ = some s → s.x.pending = suf →
      iterate enc c ρ n ⟨⟨p, terminal⟩, xe, k⟩ = some ⟨⟨[], terminal⟩, s.xe, s.ranges⟩ := by
  intro n
  induction n with
  | zero =>
    intro p xe k s h hs
    simp only [iterate, Option.some.injEq] at h
    subst h
    simp only at hs
    have hp : p = [] := by
      have := congrArg List.length hs
      rw [List.length_append] at this
      exact List.length_eq_zero.mp (by omega)
    subst hp
    rfl
  | succ n ih =>
    intro p xe k s h hs
    rw [iterate] at h ⊢
    rcases hit : iteration enc c ρ ⟨⟨p ++ suf, terminal⟩, xe, k⟩ with _ | st
    · rw [hit] at h; cases h
    · rw [hit] at h
      cases st with
      | brk s1 => cases h
      | ret o e => cases h
      | next s1 =>
        simp only at h
        have hb := (iterate_bounds enc c ρ n s1 s h).1
        obtain ⟨q, hq, hq2⟩ := iteration_local enc c ρ terminal p suf hsuf xe k s1 hit
          (by rw [hs] at hb; omega)
        rw [hq2]
        simp only
        have hs1 : s1 = ⟨⟨q ++ suf, terminal⟩, s1.xe, s1.ranges⟩ := by
          rcases s1 with ⟨x1, xe1, k1⟩
          simp only at hq
          subst hq
          rfl
        rw [hs1] at h
        exact ih q s1.xe s1.ranges s h hs

/-- The iteration that takes the start tag of an `img`, or of an anchor on the
rewriting path, whose element fails to decode: the loop goes on, the encoder is
not called, and the decoder has no token left. -/
theorem iteration_decode_failure {σ ω : Type} [Inhabited ω] (enc : Encoder σ ω) (c : Config)
    (ρ : RangeOrders) (rest : List Token) (t : String) (name : Name) (attr : List Attr)
    (xe : σ) (k : Nat)
    (hfail : (name.Local = "img" ∧ (Decoder.DecodeElementAny ⟨rest, t⟩).1 ≠ none) ∨
      (name.Local = "a" ∧ c.ReplaceLinks = true ∧ attr.length ≠ 0 ∧
        ∃ e x2, Decoder.DecodeElementEl ⟨rest, t⟩ = some (Except.error e, x2))) :
    iteration enc c ρ ⟨⟨Token.StartElement name attr :: rest, t⟩, xe, k⟩
      = some (Step.next ⟨⟨[], t⟩, xe, k⟩) := by
  unfold iteration
  simp only [Decoder.Token]
  rcases hfail with ⟨himg, hdec⟩ | ⟨ha, hrl, hattr, e, x2, hdec⟩
  · rw [if_pos himg]
    simp only [Decoder.DecodeElementAny, Decoder.Skip] at hdec
    rcases skipTokens_err t rest 0 with hsk | hsk
    · exact absurd hsk hdec
    · unfold imageNormalize
      simp only [Decoder.DecodeElementAny, Decoder.Skip, hsk]
  · have himg : ¬ name.Local = "img" := by rw [ha]; decide
    rw [if_neg himg, if_pos ⟨ha, hrl, hattr⟩]
    have hx2 := DecodeElementEl_err _ _ _ hdec
    unfold anchorRewrite
    rw [hdec, hx2]

/-! ## C21 -/

/-- Tokens that close the `k` levels open before them, followed by anything:
the depth after them is what it was `k` levels further out. -/
theorem balanced_append (b : List Token) :
    ∀ (k : Nat), balanced k b = true → ∀ (d : Nat) (rest : List Token),
      balanced (k + d) (b ++ rest) = balanced d rest := by
  induction b with
  | nil =>
    intro k h d rest
    have hk : k = 0 := by simpa [balanced] using h
    subst hk
    simp
  | cons t b ih =>
    intro k h d rest
    rw [List.cons_append]
    cases t with
    | StartElement nm a =>
      simp only [balanced] at h ⊢
      have := ih (k + 1) h d rest
      rw [← this]
      congr 1
      omega
    | EndElement nm =>
      cases k with
      | zero => simp [balanced] at h
      | succ k =>
        simp only [balanced] at h
        have e1 : k + 1 + d = (k + d) + 1 := by omega
        rw [e1]
        simp only [balanced]
        exact ih k h d rest
    | CharData s =>
      have hs : ∀ m l, balanced m (Token.CharData s :: l) = balanced m l := by
        intro m l; cases m <;> simp only [balanced]
      rw [hs] at h ⊢
      exact ih k h d rest
    | Comment s =>
      have hs : ∀ m l, balanced m (Token.Comment s :: l) = balanced m l := by
        intro m l; cases m <;> simp only [balanced]
      rw [hs] at h ⊢
      exact ih k h d rest
    | ProcInst s1 s2 =>
      have hs : ∀ m l, balanced m (Token.ProcInst s1 s2 :: l) = balanced m l := by
        intro m l; cases m <;> simp only [balanced]
      rw [hs] at h ⊢
      exact ih k h d rest
    | Directive s =>
      have hs : ∀ m l, balanced m (Token.Directive s :: l) = balanced m l := by
        intro m l; cases m <;> simp only [balanced]
      rw [hs] at h ⊢
      exact ih k h d rest

/-- When `Skip` succeeds, it has read properly nested tokens and the end tag
that closes the element it started in. -/
theorem skipTokens_ok_balanced (terminal : String) (ts : List Token) :
    ∀ (k : Nat) (r : List Token), skipTokens terminal k ts = (none, r) →
      ∃ b e, ts = b ++ Token.EndElement e :: r ∧ balanced k b = true := by
  induction ts with
  | nil => intro k r h; cases k <;> simp [skipTokens] at h
  | cons t ts ih =>
    intro k r h
    cases t with
    | StartElement nm a =>
      simp only [skipTokens] at h
      obtain ⟨b, e, h1, h2⟩ := ih (k + 1) r h
      exact ⟨Token.StartElement nm a :: b, e, by rw [h1]; rfl, by simpa only [balanced] using h2⟩
    | EndElement nm =>
      cases k with
      | zero =>
        simp only [skipTokens, Prod.mk.injEq, true_and] at h
        subst h
        exact ⟨[], nm, rfl, rfl⟩
      | succ k =>
        simp only [skipTokens] at h
        obtain ⟨b, e, h1, h2⟩ := ih k r h
        exact ⟨Token.EndElement nm :: b, e, by rw [h1]; rfl, by simpa only [balanced] using h2⟩
    | CharData s =>
      have hs : skipTokens terminal k (Token.CharData s :: ts) = skipTokens terminal k ts := by
        cases k <;> simp only [skipTokens]
      rw [hs] at h
      obtain ⟨b, e, h1, h2⟩ := ih k r h
      refine ⟨Token.CharData s :: b, e, by rw [h1]; rfl, ?_⟩
      cases k <;> simpa only [balanced] using h2
    | Comment s =>
      have hs : skipTokens terminal k (Token.Comment s :: ts) = skipTokens terminal k ts := by
        cases k <;> simp only [skipTokens]
      rw [hs] at h
      obtain ⟨b, e, h1, h2⟩ := ih k r h
      refine ⟨Token.Comment s :: b, e, by rw [h1]; rfl, ?_⟩
      cases k <;> simpa only [balanced] using h2
    | ProcInst s1 s2 =>
      have hs : skipTokens terminal k (Token.ProcInst s1 s2 :: ts)
          = skipTokens terminal k ts := by
        cases k <;> simp only [skipTokens]
      rw [hs] at h
      obtain ⟨b, e, h1, h2⟩ := ih k r h
      refine ⟨Token.ProcInst s1 s2 :: b, e, by rw [h1]; rfl, ?_⟩
      cases k <;> simpa only [balanced] using h2
    | Directive s =>
      have hs : skipTokens terminal k (Token.Directive s :: ts) = skipTokens terminal k ts := by
        cases k <;> simp only [skipTokens]
      rw [hs] at h
      obtain ⟨b, e, h1, h2⟩ := ih k r h
      refine ⟨Token.Directive s :: b, e, by rw [h1]; rfl, ?_⟩
      cases k <;> simpa only [balanced] using h2

/-- When decoding into `el` succeeds, the tokens read are the properly nested
content of the element and its end tag. -/
theorem unmarshalEl_ok_balanced (terminal : String) :
    ∀ (fuel : Nat) (data : String) (ts : List Token) (content : String) (r : List Token),
      unmarshalEl terminal fuel data ts = some (Except.ok content, r) →
      ∃ body e, ts = body ++ Token.EndElement e :: r ∧ balanced 0 body = true := by
  intro fuel
  induction fuel with
  | zero => intro data ts content r h; cases h
  | succ fuel ih =>
    intro data ts content r h
    cases ts with
    | nil => simp [unmarshalEl] at h
    | cons t ts =>
      cases t with
      | StartElement nm a =>
        simp only [unmarshalEl] at h
        rcases hsk : skipTokens terminal 0 ts with ⟨err, q⟩
        rw [hsk] at h
        cases err with
        | some e0 => simp at h
        | none =>
          simp only at h
          obtain ⟨b, e1, hb1, hb2⟩ := skipTokens_ok_balanced terminal ts 0 q hsk
          obtain ⟨body2, e, h1, h2⟩ := ih data q content r h
          refine ⟨Token.StartElement nm a :: (b ++ Token.EndElement e1 :: body2), e, ?_, ?_⟩
          · rw [hb1, h1]
            simp
          · simp only [balanced]
            have := balanced_append b 0 hb2 1 (Token.EndElement e1 :: body2)
            simp only [Nat.zero_add] at this
            rw [this]
            simpa only [balanced] using h2
      | EndElement nm =>
        simp only [unmarshalEl, Option.some.injEq, Prod.mk.injEq] at h
        obtain ⟨-, rfl⟩ := h
        exact ⟨[], nm, rfl, rfl⟩
      | CharData s =>
        simp only [unmarshalEl] at h
        obtain ⟨body2, e, h1, h2⟩ := ih _ ts content r h
        exact ⟨Token.CharData s :: body2, e, by rw [h1]; rfl, by simpa only [balanced] using h2⟩
      | Comment s =>
        simp only [unmarshalEl] at h
        obtain ⟨body2, e, h1, h2⟩ := ih _ ts content r h
        exact ⟨Token.Comment s :: body2, e, by rw [h1]; rfl, by simpa only [balanced] using h2⟩
      | ProcInst s1 s2 =>
        simp only [unmarshalEl] at h
        obtain ⟨body2, e, h1, h2⟩ := ih _ ts content r h
        exact ⟨Token.ProcInst s1 s2 :: body2, e, by rw [h1]; rfl,
          by simpa only [balanced] using h2⟩
      | Directive s =>
        simp only [unmarshalEl] at h
        obtain ⟨body2, e, h1, h2⟩ := ih _ ts content r h
        exact ⟨Token.Directive s :: body2, e, by rw [h1]; rfl, by simpa only [balanced] using h2⟩

/-- A successful `DecodeElement` into `el`: the decoder held the properly
nested content of the element and its end tag, it is left right behind that end
tag, and the captured text is the character data that are direct children. -/
theorem DecodeElementEl_ok (terminal : String) (rest : List Token) (content : String)
    (x2 : Decoder)
    (h : Decoder.DecodeElementEl ⟨rest, terminal⟩ = some (Except.ok content, x2)) :
    ∃ body e post, rest = body ++ Token.EndElement e :: post ∧ balanced 0 body = true ∧
      x2 = ⟨post, terminal⟩ ∧ content = directChildText 0 body := by
  have h0 := h
  unfold Decoder.DecodeElementEl at h
  simp only at h
  rcases hu : unmarshalEl terminal (rest.length + 1) "" rest with _ | r
  · rw [hu] at h; cases h
  · rw [hu] at h
    simp only [Option.map_some', Option.some.injEq, Prod.mk.injEq] at h
    obtain ⟨h1, h2⟩ := h
    rcases r with ⟨res, post⟩
    simp only at h1 h2
    subst h1
    obtain ⟨body, e, hb1, hb2⟩ := unmarshalEl_ok_balanced terminal _ _ _ _ _ hu
    have hf := DecodeElementEl_balanced terminal e body post hb2
    rw [← hb1, h0] at hf
    simp only [Option.some.injEq, Prod.mk.injEq, Except.ok.injEq] at hf
    exact ⟨body, e, post, hb1, hb2, hf.2, hf.1⟩

/-- A successful `Skip` does the same whatever follows the tokens it read. -/
theorem skipTokens_extend (terminal : String) (suf : List Token) :
    ∀ (p : List Token) (k : Nat) (q : List Token), skipTokens terminal k p = (none, q) →
      skipTokens terminal k (p ++ suf) = (none, q ++ suf) := by
  intro p
  induction p with
  | nil => intro k q h; cases k <;> simp [skipTokens] at h
  | cons t p ih =>
    intro k q h
    rw [List.cons_append]
    cases t with
    | StartElement nm a => simp only [skipTokens] at h ⊢; exact ih _ q h
    | EndElement nm =>
      cases k with
      | zero =>
        simp only [skipTokens, Prod.mk.injEq, true_and] at h ⊢
        rw [h]
      | succ k => simp only [skipTokens] at h ⊢; exact ih _ q h
    | CharData s => simp only [skipTokens] at h ⊢; exact ih _ q h
    | Comment s => simp only [skipTokens] at h ⊢; exact ih _ q h
    | ProcInst s1 s2 => simp only [skipTokens] at h ⊢; exact ih _ q h
    | Directive s => simp only [skipTokens] at h ⊢; exact ih _ q h

theorem imageNormalize_swap {σ ω : Type} [Inhabited ω] (enc : Encoder σ ω) (x0 : Decoder)
    (xe : σ) (k : Nat) (terminal : String) (p suf : List Token) (hsuf : suf ≠ [])
    (name : Name) (attr : List Attr) (s2 : State σ)
    (h : imageNormalize enc ⟨x0, xe, k⟩ ⟨p ++ suf, terminal⟩ name attr = Step.next s2)
    (hlen : suf.length ≤ s2.x.pending.length) :
    ∃ q, s2.x = ⟨q ++ suf, terminal⟩ ∧ ∀ (suf2 : List Token) (x0b : Decoder),
      imageNormalize enc ⟨x0b, xe, k⟩ ⟨p ++ suf2, terminal⟩ name attr
        = Step.next ⟨⟨q ++ suf2, terminal⟩, s2.xe, s2.ranges⟩ := by
  have hx2 : s2.x = ⟨(skipTokens terminal 0 (p ++ suf)).2, terminal⟩ := by
    unfold imageNormalize at h
    simp only [Decoder.DecodeElementAny, Decoder.Skip] at h
    split at h
    · next heq =>
      cases h
      simp only [Prod.mk.injEq] at heq
      exact heq.2.symm
    · next heq =>
      simp only [Prod.mk.injEq] at heq
      obtain ⟨-, rfl⟩ := heq
      split at h
      · cases h
      · split at h
        · cases h
        · cases h; rfl
  obtain ⟨hp1, hp2⟩ := skipTokens_local terminal suf hsuf p 0
    (by rw [hx2] at hlen; exact hlen)
  refine ⟨(skipTokens terminal 0 p).2, by rw [hx2, hp2], ?_⟩
  intro suf2 x0b
  have hext : skipTokens terminal 0 (p ++ suf2) = (none, (skipTokens terminal 0 p).2 ++ suf2) :=
    skipTokens_extend terminal suf2 p 0 _ (Prod.ext hp1 rfl)
  unfold imageNormalize at h ⊢
  simp only [Decoder.DecodeElementAny, Decoder.Skip] at h ⊢
  rw [hp2] at h
  rw [hext]
  simp only at h ⊢
  generalize (if attr.length ≠ 0 then imgAttrLoop attr.length attr else attr) = attr2 at h ⊢
  cases he1 : enc.EncodeToken xe (Token.StartElement name attr2) with
  | error e => rw [he1] at h; cases h
  | ok xe1 =>
    rw [he1] at h
    simp only at h ⊢
    cases he2 : enc.EncodeToken xe1 (Token.EndElement name) with
    | error e => rw [he2] at h; cases h
    | ok xe2 =>
      rw [he2] at h
      simp only [Step.next.injEq] at h ⊢
      subst h
      rfl

theorem anchorRewrite_swap {σ ω : Type} [Inhabited ω] (enc : Encoder σ ω) (ρ : RangeOrders)
    (x0 : Decoder) (xe : σ) (k : Nat) (terminal : String) (p suf : List Token)
    (hsuf : suf ≠ []) (name : Name) (attr : List Attr) (s2 : State σ)
    (h : anchorRewrite enc ρ ⟨x0, xe, k⟩ ⟨p ++ suf, terminal⟩ name attr = some (Step.next s2))
    (hlen : suf.length ≤ s2.x.pending.length) :
    ∃ q, s2.x = ⟨q ++ suf, terminal⟩ ∧ ∀ (suf2 : List Token) (x0b : Decoder),
      anchorRewrite enc ρ ⟨x0b, xe, k⟩ ⟨p ++ suf2, terminal⟩ name attr
        = some (Step.next ⟨⟨q ++ suf2, terminal⟩, s2.xe, s2.ranges⟩) := by
  obtain ⟨r, hr, -, -⟩ := DecodeElementEl_returns ⟨p ++ suf, terminal⟩
  rcases r with ⟨res, x2⟩
  have hx2 : s2.x = x2 := by
    unfold anchorRewrite at h
    rw [hr] at h
    cases res with
    | error e =>
      simp only [Option.some.injEq, Step.next.injEq] at h
      subst h
      rfl
    | ok content =>
      simp only at h
      split at h
      · cases h
      · split at h
        · cases h
        · split at h
          · cases h
          · cases h; rfl
  obtain ⟨q, hq, hq2⟩ := DecodeElementEl_local terminal p suf hsuf res x2 hr
    (by rw [← hx2]; exact hlen)
  refine ⟨q, by rw [hx2, hq], ?_⟩
  intro suf2 x0b
  cases res with
  | error e =>
    exfalso
    have := DecodeElementEl_err _ _ _ hr
    rw [this] at hq
    simp only [Decoder.mk.injEq, and_true] at hq
    have : (q ++ suf).length = 0 := by rw [← hq]; rfl
    rw [List.length_append] at this
    exact hsuf (List.length_eq_zero.mp (by omega))
  | ok content =>
    obtain ⟨body, e, post, hb1, hb2, hb3, hb4⟩ := DecodeElementEl_ok terminal p content _ hq2
    simp only [Decoder.mk.injEq, and_true] at hb3
    subst hb3
    have hdec2 : Decoder.DecodeElementEl ⟨p ++ suf2, terminal⟩
        = some (Except.ok content, ⟨q ++ suf2, terminal⟩) := by
      have := DecodeElementEl_balanced terminal e body (q ++ suf2) hb2
      rw [hb1, hb4, List.append_assoc, List.cons_append]
      exact this
    unfold anchorRewrite at h ⊢
    rw [hr] at h
    rw [hdec2]
    simp only at h ⊢
    cases he1 : enc.EncodeToken xe (Token.StartElement name (aAttrLoop ρ attr.length k attr).2) with
    | error e => rw [he1] at h; cases h
    | ok xe1 =>
      rw [he1] at h
      simp only at h ⊢
      cases he2 : enc.EncodeToken xe1 (Token.CharData content) with
      | error e => rw [he2] at h; cases h
      | ok xe2 =>
        rw [he2] at h
        simp only at h ⊢
        cases he3 : enc.EncodeToken xe2 (Token.EndElement name) with
        | error e => rw [he3] at h; cases h
        | ok xe3 =>
          rw [he3] at h
          simp only [Option.some.injEq, Step.next.injEq] at h ⊢
          subst h
          rfl

/-- One iteration that reads only inside `p` does the same, with the same calls
of the encoder, whatever follows `p`. -/
theorem iteration_swap {σ ω : Type} [Inhabited ω] (enc : Encoder σ ω) (c : Config)
    (ρ : RangeOrders) (terminal : String) (p suf : List Token) (hsuf : suf ≠ [])
    (xe : σ) (k : Nat) (s2 : State σ)
    (h : iteration enc c ρ ⟨⟨p ++ suf, terminal⟩, xe, k⟩ = some (Step.next s2))
    (hlen : suf.length ≤ s2.x.pending.length) :
    ∃ q, s2.x = ⟨q ++ suf, terminal⟩ ∧ ∀ suf2 : List Token,
      iteration enc c ρ ⟨⟨p ++ suf2, terminal⟩, xe, k⟩
        = some (Step.next ⟨⟨q ++ suf2, terminal⟩, s2.xe, s2.ranges⟩) := by
  cases p with
  | nil =>
    have := (iteration_next enc c ρ _ _ h).1
    simp only [List.nil_append] at this
    omega
  | cons t p =>
    unfold iteration at h
    simp only [Decoder.Token, List.cons_append] at h
    cases t with
    | StartElement name attr =>
      simp only at h
      by_cases himg : name.Local = "img"
      · rw [if_pos himg] at h
        simp only [Option.some.injEq] at h
        obtain ⟨q, hq, hq2⟩ := imageNormalize_swap enc _ xe k terminal p suf hsuf name attr s2 h hlen
        refine ⟨q, hq, fun suf2 => ?_⟩
        unfold iteration
        simp only [Decoder.Token, List.cons_append]
        rw [if_pos himg]
        simp only [Option.some.injEq]
        exact hq2 suf2 _
      · rw [if_neg himg] at h
        by_cases ha : name.Local = "a" ∧ c.ReplaceLinks = true ∧ attr.length ≠ 0
        · rw [if_pos ha] at h
          obtain ⟨q, hq, hq2⟩ := anchorRewrite_swap enc ρ _ xe k terminal p suf hsuf name attr
            s2 h hlen
          refine ⟨q, hq, fun suf2 => ?_⟩
          unfold iteration
          simp only [Decoder.Token, List.cons_append]
          rw [if_neg himg, if_pos ha]
          exact hq2 suf2 _
        · rw [if_neg ha] at h
          simp only [Option.some.injEq] at h
          refine ⟨p, (passThrough_local enc _ ⟨[], terminal⟩ _ ⟨[], terminal⟩ xe k _ s2 h).1,
            fun suf2 => ?_⟩
          unfold iteration
          simp only [Decoder.Token, List.cons_append]
          rw [if_neg himg, if_neg ha]
          simp only [Option.some.injEq]
          exact (passThrough_local enc _ _ _ ⟨p ++ suf2, terminal⟩ xe k _ s2 h).2
    | EndElement n =>
      simp only [Option.some.injEq] at h
      refine ⟨p, (passThrough_local enc _ ⟨[], terminal⟩ _ ⟨[], terminal⟩ xe k _ s2 h).1,
        fun suf2 => ?_⟩
      unfold iteration
      simp only [Decoder.Token, List.cons_append, Option.some.injEq]
      exact (passThrough_local enc _ _ _ ⟨p ++ suf2, terminal⟩ xe k _ s2 h).2
    | CharData d =>
      simp only [Option.some.injEq] at h
      refine ⟨p, (passThrough_local enc _ ⟨[], terminal⟩ _ ⟨[], terminal⟩ xe k _ s2 h).1,
        fun suf2 => ?_⟩
      unfold iteration
      simp only [Decoder.Token, List.cons_append, Option.some.injEq]
      exact (passThrough_local enc _ _ _ ⟨p ++ suf2, terminal⟩ xe k _ s2 h).2
    | Comment d =>
      simp only [Option.some.injEq] at h
      refine ⟨p, (passThrough_local enc _ ⟨[], terminal⟩ _ ⟨[], terminal⟩ xe k _ s2 h).1,
        fun suf2 => ?_⟩
      unfold iteration
      simp only [Decoder.Token, List.cons_append, Option.some.injEq]
      exact (passThrough_local enc _ _ _ ⟨p ++ suf2, terminal⟩ xe k _ s2 h).2
    | ProcInst a b =>
      simp only [Option.some.injEq] at h
      refine ⟨p, (passThrough_local enc _ ⟨[], terminal⟩ _ ⟨[], terminal⟩ xe k _ s2 h).1,
        fun suf2 => ?_⟩
      unfold iteration
      simp only [Decoder.Token, List.cons_append, Option.some.injEq]
      exact (passThrough_local enc _ _ _ ⟨p ++ suf2, terminal⟩ xe k _ s2 h).2
    | Directive d =>
      simp only [Option.some.injEq] at h
      refine ⟨p, (passThrough_local enc _ ⟨[], terminal⟩ _ ⟨[], terminal⟩ xe k _ s2 h).1,
        fun suf2 => ?_⟩
      unfold iteration
      simp only [Decoder.Token, List.cons_append, Option.some.injEq]
      exact (passThrough_local enc _ _ _ ⟨p ++ suf2, terminal⟩ xe k _ s2 h).2

/-- The loop up to a token does not depend on what stands from that token on:
if after `n` iterations the decoder holds exactly the tokens `suf` that
followed `p`, then with any tokens `suf2` in their place the loop reaches
`suf2` in `n` iterations, with the same calls of the encoder. -/
theorem iterate_swap {σ ω : Type} [Inhabited ω] (enc : Encoder σ ω) (c : Config)
    (ρ : RangeOrders) (terminal : String) (suf : List Token) (hsuf : suf ≠ [])
    (suf2 : List Token) :
    ∀ (n : Nat) (p : List Token) (xe : σ) (k : Nat) (s : State σ),
      iterate enc c ρ n ⟨⟨p ++ suf, terminal⟩, xe, k⟩ = some s → s.x.pending = suf →
      iterate enc c ρ n ⟨⟨p ++ suf2, terminal⟩, xe, k⟩
        = some ⟨⟨suf2, terminal⟩, s.xe, s.ranges⟩ := by
  intro n
  induction n with
  | zero =>
    intro p xe k s h hs
    simp only [iterate, Option.some.injEq] at h
    subst h
    simp only at hs
    have hp : p = [] := by
      have := congrArg List.length hs
      rw [List.length_append] at this
      exact List.length_eq_zero.mp (by omega)
    subst hp
    rfl
  | succ n ih =>
    intro p xe k s h hs
    rw [iterate] at h ⊢
    rcases hit : iteration enc c ρ ⟨⟨p ++ suf, terminal⟩, xe, k⟩ with _ | st
    · rw [hit] at h; cases h
    · rw [hit] at h
      cases st with
      | brk s1 => cases h
      | ret o e => cases h
      | next s1 =>
        simp only at h
        have hb := (iterate_bounds enc c ρ n s1 s h).1
        obtain ⟨q, hq, hq2⟩ := iteration_swap enc c ρ terminal p suf hsuf xe k s1 hit
          (by rw [hs] at hb; omega)
        rw [hq2 suf2]
        simp only
        have hs1 : s1 = ⟨⟨q ++ suf, terminal⟩, s1.xe, s1.ranges⟩ := by
          rcases s1 with ⟨x1, xe1, k1⟩
          simp only at hq
          subst hq
          rfl
        rw [hs1] at h
        exact ih q s1.xe s1.ranges s h hs

/-- The result of `ProcessHTML`, read off a state the loop reaches. -/
theorem ProcessHTML_of_reach {σ ω : Type} [Inhabited ω] (enc : Encoder σ ω) (c : Config)
    (ρ : RangeOrders) (x : Decoder) (n : Nat) (s : State σ)
    (hreach : iterate enc c ρ n ⟨x, enc.init, 0⟩ = some s) :
    ProcessHTML enc c ρ x =
      match loop enc c ρ (s.x.pending.length + 1) s with
      | none => none
      | some (.inr r) => some r
      | some (.inl s2) =>
        match enc.Flush s2.xe with
        | .error e => some (default, some ("failed to flush token re-encoder: " ++ e))
        | .ok xe => some (enc.contents xe, none) := by
  unfold ProcessHTML
  rw [loop_iterate enc c ρ n _ s (x.pending.length + 1) hreach (Nat.lt_succ_self _)]

/-- Two states in which the next iteration does the same: the loop does the
same from both. -/
theorem loop_congr {σ ω : Type} [Inhabited ω] (enc : Encoder σ ω) (c : Config)
    (ρ : RangeOrders) (s1 s2 : State σ)
    (h : iteration enc c ρ s1 = iteration enc c ρ s2) :
    loop enc c ρ (s1.x.pending.length + 1) s1 = loop enc c ρ (s2.x.pending.length + 1) s2 := by
  rw [loop, loop]
  rcases hit : iteration enc c ρ s2 with _ | st
  · rw [h, hit]
  · rw [h, hit]
    cases st with
    | brk s3 => rfl
    | ret o e => rfl
    | next s3 =>
      simp only
      have h1 := (iteration_next enc c ρ s1 s3 (h.trans hit)).1
      have h2 := (iteration_next enc c ρ s2 s3 hit).1
      exact loop_fuel enc c ρ _ _ s3 h1 h2

/-- C21: take a token stream `pre ++ StartElement name attr :: rest` in which
the main loop of `ProcessHTML` reaches the start tag of an anchor on the
rewriting path (`ReplaceLinks` true, at least one attribute) and `DecodeElement`
succeeds on it, with the text `content`, leaving the decoder in state `x2`.
Then `rest` is the properly nested content `body` of the anchor, its end tag
and the tokens still pending in `x2`, and `content` is the concatenation of the
character data that are direct children of the anchor.  The iteration writes
three tokens for the anchor: its start tag, one `CharData` with that text, an
end tag; the loop goes on behind the anchor, so no token nested in the anchor
is ever taken by the loop and none reaches the `img` case.  For every encoder
the result of `ProcessHTML` is the same as on the stream in which the content
of the anchor is any other properly nested content with the same direct-child
character data, and so the same as on the stream in which the anchor holds
that text and no element at all. -/
theorem C21_nested_elements_dropped {σ ω : Type} [Inhabited ω] (enc : Encoder σ ω)
    (c : Config) (ρ : RangeOrders) (pre rest : List Token) (t : String) (name : Name)
    (attr : List Attr) (n : Nat) (xe : σ) (k : Nat) (content : String) (x2 : Decoder)
    (hreach : iterate enc c ρ n ⟨⟨pre ++ Token.StartElement name attr :: rest, t⟩, enc.init, 0⟩
      = some ⟨⟨Token.StartElement name attr :: rest, t⟩, xe, k⟩)
    (hn : name.Local = "a") (hrl : c.ReplaceLinks = true) (hattr : attr ≠ [])
    (hdec : Decoder.DecodeElementEl ⟨rest, t⟩ = some (Except.ok content, x2)) :
    (∃ body e, rest = body ++ Token.EndElement e :: x2.pending ∧ balanced 0 body = true ∧
        content = directChildText 0 body) ∧
      x2.terminal = t ∧
      (∀ acc : List Token,
        iteration recorder c ρ ⟨⟨Token.StartElement name attr :: rest, t⟩, acc, k⟩
          = some (Step.next ⟨x2,
              acc ++ [Token.StartElement name (rewriteHrefs ρ k attr).2,
                Token.CharData content, Token.EndElement name],
              (rewriteHrefs ρ k attr).1⟩)) ∧
      (∀ (body2 : List Token) (e2 : Name), balanced 0 body2 = true →
        directChildText 0 body2 = content →
        ProcessHTML enc c ρ ⟨pre ++ Token.StartElement name attr :: rest, t⟩
          = ProcessHTML enc c ρ
              ⟨pre ++ Token.StartElement name attr ::
                (body2 ++ Token.EndElement e2 :: x2.pending), t⟩) ∧
      ProcessHTML enc c ρ ⟨pre ++ Token.StartElement name attr :: rest, t⟩
        = ProcessHTML enc c ρ
            ⟨pre ++ Token.StartElement name attr ::
              Token.CharData content :: Token.EndElement name :: x2.pending, t⟩ := by
  obtain ⟨body, e, post, hb1, hb2, hb3, hb4⟩ := DecodeElementEl_ok t rest content x2 hdec
  subst hb3
  have himg : ¬ name.Local = "img" := by rw [hn]; decide
  have hlen : attr.length ≠ 0 := fun h => hattr (List.length_eq_zero.mp h)
  have key : ∀ (body2 : List Token) (e2 : Name), balanced 0 body2 = true →
      directChildText 0 body2 = content →
      ProcessHTML enc c ρ ⟨pre ++ Token.StartElement name attr :: rest, t⟩
        = ProcessHTML enc c ρ
            ⟨pre ++ Token.StartElement name attr ::
              (body2 ++ Token.EndElement e2 :: post), t⟩ := by
    intro body2 e2 hbal2 htext
    have hreach2 := iterate_swap enc c ρ t (Token.StartElement name attr :: rest)
      (List.cons_ne_nil _ _) (Token.StartElement name attr ::
        (body2 ++ Token.EndElement e2 :: post)) n pre enc.init 0 _ hreach rfl
    have hdec2 := DecodeElementEl_balanced t e2 body2 post hbal2
    rw [htext] at hdec2
    have hit : iteration enc c ρ ⟨⟨Token.StartElement name attr :: rest, t⟩, xe, k⟩
        = iteration enc c ρ
            ⟨⟨Token.StartElement name attr :: (body2 ++ Token.EndElement e2 :: post), t⟩,
              xe, k⟩ := by
      unfold iteration
      simp only [Decoder.Token]
      rw [if_neg himg, if_pos ⟨hn, hrl, hlen⟩, if_neg himg, if_pos ⟨hn, hrl, hlen⟩]
      unfold anchorRewrite
      rw [hdec, hdec2]
    rw [ProcessHTML_of_reach enc c ρ _ n _ hreach, ProcessHTML_of_reach enc c ρ _ n _ hreach2,
      loop_congr enc c ρ _ _ hit]
  refine ⟨⟨body, e, hb1, hb2, hb4⟩, rfl, ?_, key, ?_⟩
  · intro acc
    exact iteration_a c ρ ⟨⟨Token.StartElement name attr :: rest, t⟩, acc, k⟩ name attr rest
      content ⟨post, t⟩ rfl hn hrl hattr hdec
  · refine key [Token.CharData content] name rfl ?_
    simp only [directChildText]
    exact String.ext (by simp)

set_option maxRecDepth 100000 in
/-- C21, an instance: on
`<p>Test</p><a href="x">go <em>here</em><img height="900"> on</a><img height="900"/>`
the result is that of `<p>Test</p><a href="x">go  on</a><img height="900"/>`:
the anchor is written as `<a href="x">go  on</a>`, and the only `img` in the
output is the one behind the anchor. -/
theorem C21_nested_elements_dropped_witness :
    ProcessHTML recorder { ReplaceLinks := true } (fun _ => []) anchorNesting
        = ProcessHTML recorder { ReplaceLinks := true } (fun _ => []) anchorFlat ∧
      ProcessHTML recorder { ReplaceLinks := true } (fun _ => []) anchorNesting
        = some (paragraphTokens ++
            [.StartElement (mkName "a") [mkAttr "href" "x"], .CharData "go  on",
              .EndElement (mkName "a"),
              .StartElement (mkName "img") [mkAttr "height" ""], .EndElement (mkName "img")],
            none) :=
  ⟨(C21_nested_elements_dropped recorder { ReplaceLinks := true } (fun _ => [])
      paragraphTokens
      [.CharData "go ", .StartElement (mkName "em") [], .CharData "here",
        .EndElement (mkName "em"),
        .StartElement (mkName "img") [mkAttr "height" "900"], .EndElement (mkName "img"),
        .CharData " on", .EndElement (mkName "a"),
        .StartElement (mkName "img") [mkAttr "height" "900"], .EndElement (mkName "img")]
      "EOF" (mkName "a") [mkAttr "href" "x"] 3 paragraphTokens 0 "go  on"
      ⟨[.StartElement (mkName "img") [mkAttr "height" "900"], .EndElement (mkName "img")], "EOF"⟩
      (by decide) rfl rfl (by decide) rfl).2.2.2.2,
    by decide⟩

/-! ## C11 -/

/-- In a properly nested stream, what follows any point of it is properly
nested from the depth reached there. -/
theorem balanced_suffix (a : List Token) :
    ∀ (k : Nat) (b : List Token), balanced k (a ++ b) = true → ∃ d, balanced d b = true := by
  induction a with
  | nil => intro k b h; exact ⟨k, h⟩
  | cons t a ih =>
    intro k b h
    rw [List.cons_append] at h
    cases t with
    | StartElement nm at_ =>
      simp only [balanced] at h
      exact ih _ b h
    | EndElement nm =>
      cases k with
      | zero => simp [balanced] at h
      | succ k =>
        simp only [balanced] at h
        exact ih _ b h
    | CharData s =>
      have hs : balanced k (Token.CharData s :: (a ++ b)) = balanced k (a ++ b) := by
        cases k <;> simp only [balanced]
      rw [hs] at h
      exact ih _ b h
    | Comment s =>
      have hs : balanced k (Token.Comment s :: (a ++ b)) = balanced k (a ++ b) := by
        cases k <;> simp only [balanced]
      rw [hs] at h
      exact ih _ b h
    | ProcInst s1 s2 =>
      have hs : balanced k (Token.ProcInst s1 s2 :: (a ++ b)) = balanced k (a ++ b) := by
        cases k <;> simp only [balanced]
      rw [hs] at h
      exact ih _ b h
    | Directive s =>
      have hs : balanced k (Token.Directive s :: (a ++ b)) = balanced k (a ++ b) := by
        cases k <;> simp only [balanced]
      rw [hs] at h
      exact ih _ b h

/-- Inside a properly nested stream `Skip` succeeds: the end tag it looks for
is there. -/
theorem skipTokens_of_balanced (terminal : String) (rest : List Token) (d : Nat)
    (h : balanced (d + 1) rest = true) :
    ∃ b e r, rest = b ++ Token.EndElement e :: r ∧ balanced 0 b = true ∧
      skipTokens terminal 0 rest = (none, r) := by
  obtain ⟨r, -, -, -, h4⟩ := skipTokens_balanced terminal rest 0 d (by rw [← h]; congr 1; omega)
  have h5 := h4 []
  simp only [List.append_nil] at h5
  obtain ⟨b, e, hb1, hb2⟩ := skipTokens_ok_balanced terminal rest 0 r h5
  exact ⟨b, e, r, hb1, hb2, h5⟩

/-- Both ways of decoding an element fail only on a stream that is not properly
nested: one that ends inside an open element. -/
theorem decode_failure_unbalanced (c : Config) (pre rest : List Token) (t : String)
    (name : Name) (attr : List Attr)
    (hfail : (name.Local = "img" ∧ (Decoder.DecodeElementAny ⟨rest, t⟩).1 ≠ none) ∨
      (name.Local = "a" ∧ c.ReplaceLinks = true ∧ attr.length ≠ 0 ∧
        ∃ e x2, Decoder.DecodeElementEl ⟨rest, t⟩ = some (Except.error e, x2))) :
    balanced 0 (pre ++ Token.StartElement name attr :: rest) = false := by
  cases hb : balanced 0 (pre ++ Token.StartElement name attr :: rest) with
  | false => rfl
  | true =>
    exfalso
    obtain ⟨d, hd⟩ := balanced_suffix pre 0 _ hb
    simp only [balanced] at hd
    obtain ⟨b, e, r, hb1, hb2, hsk⟩ := skipTokens_of_balanced t rest d hd
    rcases hfail with ⟨-, hdec⟩ | ⟨-, -, -, e2, x2, hdec⟩
    · simp only [Decoder.DecodeElementAny, Decoder.Skip, hsk] at hdec
      exact hdec rfl
    · have := DecodeElementEl_balanced t e b r hb2
      rw [← hb1, hdec] at this
      simp at this

/-- C11 (as amended). Take a token stream `pre ++ StartElement name attr :: rest`
in which the main loop of `ProcessHTML` reaches the start tag after `n`
iterations (the encoder is then in state `xe`), and in which the element fails
to decode: it is an `img` whose `DecodeElement` returns an error, or an anchor
on the rewriting path (`ReplaceLinks` true, at least one attribute) whose
`DecodeElement` returns an error.  The decoder reports `EOF` only at the end of
a properly nested stream (`hlib`, what `xml.Decoder` guarantees).  Then the
iteration that takes the start tag goes on to the next one without calling the
encoder, and leaves the decoder without a token: the failure itself is not
propagated.  But the stream is not properly nested, it ends inside an open
element, so its end is an error other than `EOF`, which the next `Token()` call
returns: for every encoder `ProcessHTML` returns the zero value of its output
together with the error `token parsing error: ...`.  A decode failure is never
recovered from. -/
theorem C11_decode_failure_fails_the_call {σ ω : Type} [Inhabited ω] (enc : Encoder σ ω)
    (c : Config) (ρ : RangeOrders) (pre rest : List Token) (t : String) (name : Name)
    (attr : List Attr) (n : Nat) (xe : σ) (k : Nat)
    (hreach : iterate enc c ρ n ⟨⟨pre ++ Token.StartElement name attr :: rest, t⟩, enc.init, 0⟩
      = some ⟨⟨Token.StartElement name attr :: rest, t⟩, xe, k⟩)
    (hfail : (name.Local = "img" ∧ (Decoder.DecodeElementAny ⟨rest, t⟩).1 ≠ none) ∨
      (name.Local = "a" ∧ c.ReplaceLinks = true ∧ attr.length ≠ 0 ∧
        ∃ e x2, Decoder.DecodeElementEl ⟨rest, t⟩ = some (Except.error e, x2)))
    (hlib : t = "EOF" → balanced 0 (pre ++ Token.StartElement name attr :: rest) = true) :
    iteration enc c ρ ⟨⟨Token.StartElement name attr :: rest, t⟩, xe, k⟩
        = some (Step.next ⟨⟨[], t⟩, xe, k⟩) ∧
      balanced 0 (pre ++ Token.StartElement name attr :: rest) = false ∧
      t ≠ "EOF" ∧
      ProcessHTML enc c ρ ⟨pre ++ Token.StartElement name attr :: rest, t⟩
        = some (default, some ("token parsing error: " ++ t)) := by
  have hit := iteration_decode_failure enc c ρ rest t name attr xe k hfail
  have hunb := decode_failure_unbalanced c pre rest t name attr hfail
  have hne : t ≠ "EOF" := by
    intro h
    rw [hlib h] at hunb
    cases hunb
  refine ⟨hit, hunb, hne, ?_⟩
  have h1 := iterate_succ enc c ρ n _ _ _ hreach hit
  rw [ProcessHTML_of_reach enc c ρ _ (n + 1) _ h1]
  simp [loop, iteration, Decoder.Token, hne]

/-- C11, an instance: on `<p>Test</p><a href="x">go`, with `ReplaceLinks` true,
the anchor fails to decode and the call returns no output and the error of the
decoder. -/
theorem C11_decode_failure_fails_the_call_witness :
    ProcessHTML recorder { ReplaceLinks := true } (fun _ => []) unclosedAnchor
      = some ([], some "token parsing error: XML syntax error on line 1: unexpected EOF") :=
  (C11_decode_failure_fails_the_call recorder { ReplaceLinks := true } (fun _ => [])
    paragraphTokens [Token.CharData "go"] "XML syntax error on line 1: unexpected EOF"
    (mkName "a") [mkAttr "href" "x"] 3 paragraphTokens 0 (by decide)
    (Or.inr ⟨rfl, rfl, by decide, "XML syntax error on line 1: unexpected EOF",
      ⟨[], "XML syntax error on line 1: unexpected EOF"⟩, rfl⟩)
    (fun h => absurd h (by decide))).2.2.2

/-- C11, counterexample to the claim as stated: in `<p>Test</p><img src="foo.png">`
the loop reaches the `img` after writing the three tokens of `<p>Test</p>`, the
`img` fails to decode, and nothing else is wrong with the input; yet the call
does not return success with those tokens, it returns no output and an error.
Without the failing element, on `<p>Test</p>`, it returns the three tokens. -/
theorem C11_counterexample :
    iterate recorder {} (fun _ => []) 3 ⟨unclosedImg, [], 0⟩
        = some ⟨⟨[.StartElement (mkName "img") [mkAttr "src" "foo.png"]],
            "XML syntax error on line 1: unexpected EOF"⟩, paragraphTokens, 0⟩ ∧
      (Decoder.DecodeElementAny ⟨[], "XML syntax error on line 1: unexpected EOF"⟩).1 ≠ none ∧
      ProcessHTML recorder {} (fun _ => []) unclosedImg
        = some ([], some "token parsing error: XML syntax error on line 1: unexpected EOF") ∧
      ProcessHTML recorder {} (fun _ => []) ⟨paragraphTokens, "EOF"⟩
        = some (paragraphTokens, none) := by
  refine ⟨by decide, by decide, by decide, by decide⟩

/-! ## What the recording encoder records is what every encoder is handed -/

theorem feedAll_split {σ ω : Type} (enc : Encoder σ ω) (a b : List Token) :
    ∀ (xe xe3 : σ), feedAll enc xe (a ++ b) = Except.ok xe3 →
      ∃ xe2, feedAll enc xe a = Except.ok xe2 ∧ feedAll enc xe2 b = Except.ok xe3 := by
  induction a with
  | nil => intro xe xe3 h; exact ⟨xe, rfl, h⟩
  | cons t a ih =>
    intro xe xe3 h
    simp only [feedAll, List.cons_append] at h ⊢
    cases henc : enc.EncodeToken xe t with
    | error e => rw [henc] at h; cases h
    | ok xe1 =>
      rw [henc] at h
      exact ih xe1 xe3 h

theorem passThrough_feed {σ ω : Type} [Inhabited ω] (enc : Encoder σ ω) (x0 x : Decoder)
    (xe xe1 : σ) (k : Nat) (t : Token)
    (hf : feedAll enc xe [t] = Except.ok xe1) :
    passThrough enc ⟨x0, xe, k⟩ x t = Step.next ⟨x, xe1, k⟩ := by
  unfold passThrough
  simp only [feedAll] at hf ⊢
  cases he : enc.EncodeToken xe t with
  | error e => rw [he] at hf; cases hf
  | ok xe2 =>
    rw [he] at hf
    simp only [Except.ok.injEq] at hf
    subst hf
    rfl

theorem imageNormalize_feed {σ ω : Type} [Inhabited ω] (enc : Encoder σ ω) (x0 : Decoder)
    (xe xe1 : σ) (k : Nat) (terminal : String) (p r : List Token) (name : Name)
    (attr : List Attr) (hsk : skipTokens terminal 0 p = (none, r))
    (hf : feedAll enc xe [Token.StartElement name (imgAttrLoop attr.length attr),
      Token.EndElement name] = Except.ok xe1) :
    imageNormalize enc ⟨x0, xe, k⟩ ⟨p, terminal⟩ name attr
      = Step.next ⟨⟨r, terminal⟩, xe1, k⟩ := by
  unfold imageNormalize
  simp only [Decoder.DecodeElementAny, Decoder.Skip, hsk, imgAttrLoop_zero_length]
  simp only [feedAll] at hf
  cases he1 : enc.EncodeToken xe (Token.StartElement name (imgAttrLoop attr.length attr)) with
  | error e => rw [he1] at hf; cases hf
  | ok xe2 =>
    rw [he1] at hf
    simp only at hf ⊢
    cases he2 : enc.EncodeToken xe2 (Token.EndElement name) with
    | error e => rw [he2] at hf; cases hf
    | ok xe3 =>
      rw [he2] at hf
      simp only [Except.ok.injEq] at hf
      subst hf
      rfl

theorem anchorRewrite_feed {σ ω : Type} [Inhabited ω] (enc : Encoder σ ω) (ρ : RangeOrders)
    (x0 : Decoder) (xe xe1 : σ) (k : Nat) (terminal : String) (p r : List Token) (name : Name)
    (attr : List Attr) (content : String)
    (hun : unmarshalEl terminal (p.length + 1) "" p = some (Except.ok content, r))
    (hf : feedAll enc xe [Token.StartElement name (aAttrLoop ρ attr.length k attr).2,
      Token.CharData content, Token.EndElement name] = Except.ok xe1) :
    anchorRewrite enc ρ ⟨x0, xe, k⟩ ⟨p, terminal⟩ name attr
      = some (Step.next ⟨⟨r, terminal⟩, xe1, (aAttrLoop ρ attr.length k attr).1⟩) := by
  unfold anchorRewrite
  simp only [Decoder.DecodeElementEl, hun, Option.map_some']
  simp only [feedAll] at hf
  cases he1 : enc.EncodeToken xe
      (Token.StartElement name (aAttrLoop ρ attr.length k attr).2) with
  | error e => rw [he1] at hf; cases hf
  | ok xe2 =>
    rw [he1] at hf
    simp only at hf ⊢
    cases he2 : enc.EncodeToken xe2 (Token.CharData content) with
    | error e => rw [he2] at hf; cases hf
    | ok xe3 =>
      rw [he2] at hf
      simp only at hf ⊢
      cases he3 : enc.EncodeToken xe3 (Token.EndElement name) with
      | error e => rw [he3] at hf; cases hf
      | ok xe4 =>
        rw [he3] at hf
        simp only [Except.ok.injEq] at hf
        subst hf
        rfl

/-- An iteration run with the recording encoder and the same iteration run with
any encoder that accepts the tokens recorded: the loop goes on alike. -/
theorem iteration_feed {σ ω : Type} [Inhabited ω] (enc : Encoder σ ω) (c : Config)
    (ρ : RangeOrders) (x x1 : Decoder) (acc em : List Token) (k k1 : Nat) (xe xe1 : σ)
    (h : iteration recorder c ρ ⟨x, acc, k⟩ = some (Step.next ⟨x1, acc ++ em, k1⟩))
    (hf : feedAll enc xe em = Except.ok xe1) :
    iteration enc c ρ ⟨x, xe, k⟩ = some (Step.next ⟨x1, xe1, k1⟩) := by
  obtain ⟨p, t⟩ := x
  have hnil : ∀ l : List Token, acc ++ l = acc ++ em → l = em :=
    fun l hl => List.append_cancel_left hl
  have hself : acc = acc ++ em → em = [] := by
    intro hl
    have := congrArg List.length hl
    rw [List.length_append] at this
    exact List.length_eq_zero.mp (by omega)
  cases p with
  | nil =>
    have := (iteration_next recorder c ρ _ _ h).1
    simp at this
  | cons tok p =>
    unfold iteration at h ⊢
    simp only [Decoder.Token] at h ⊢
    cases tok with
    | StartElement name attr =>
      simp only at h ⊢
      by_cases himg : name.Local = "img"
      · rw [if_pos himg] at h ⊢
        rw [imageNormalize_recorder] at h
        simp only at h
        rcases hsk : skipTokens t 0 p with ⟨_ | e, r⟩
        · rw [hsk] at h
          simp only [Option.some.injEq, Step.next.injEq, State.mk.injEq] at h
          obtain ⟨h1, h2, h3⟩ := h
          subst h1
          subst h3
          have := hnil _ h2
          subst this
          rw [imageNormalize_feed enc _ xe xe1 k t p r name attr hsk hf]
        · rw [hsk] at h
          simp only [Option.some.injEq, Step.next.injEq, State.mk.injEq] at h
          obtain ⟨h1, h2, h3⟩ := h
          subst h1
          subst h3
          have := hself h2
          subst this
          simp only [feedAll, Except.ok.injEq] at hf
          subst hf
          unfold imageNormalize
          simp only [Decoder.DecodeElementAny, Decoder.Skip, hsk]
      · rw [if_neg himg] at h ⊢
        by_cases ha : name.Local = "a" ∧ c.ReplaceLinks = true ∧ attr.length ≠ 0
        · rw [if_pos ha] at h ⊢
          rw [anchorRewrite_recorder] at h
          simp only at h
          rcases hun : unmarshalEl t (p.length + 1) "" p with _ | ⟨_ | content, r⟩
          · rw [hun] at h; simp at h
          · rw [hun] at h
            simp only [Option.some.injEq, Step.next.injEq, State.mk.injEq] at h
            obtain ⟨h1, h2, h3⟩ := h
            subst h1
            subst h3
            have := hself h2
            subst this
            simp only [feedAll, Except.ok.injEq] at hf
            subst hf
            unfold anchorRewrite
            simp only [Decoder.DecodeElementEl, hun, Option.map_some']
          · rw [hun] at h
            simp only [Option.some.injEq, Step.next.injEq, State.mk.injEq] at h
            obtain ⟨h1, h2, h3⟩ := h
            subst h1
            subst h3
            have := hnil _ h2
            subst this
            exact anchorRewrite_feed enc ρ _ xe xe1 k t p r name attr content hun hf
        · rw [if_neg ha] at h ⊢
          simp only [passThrough_recorder, Option.some.injEq, Step.next.injEq,
            State.mk.injEq] at h
          obtain ⟨h1, h2, h3⟩ := h
          subst h1
          subst h3
          have := hnil _ h2
          subst this
          rw [passThrough_feed enc _ _ xe xe1 k _ hf]
    | EndElement nm =>
      simp only [passThrough_recorder, Option.some.injEq, Step.next.injEq,
        State.mk.injEq] at h
      obtain ⟨h1, h2, h3⟩ := h
      subst h1
      subst h3
      have := hnil _ h2
      subst this
      simp only [Option.some.injEq]
      exact passThrough_feed enc _ _ xe xe1 k _ hf
    | CharData d =>
      simp only [passThrough_recorder, Option.some.injEq, Step.next.injEq,
        State.mk.injEq] at h
      obtain ⟨h1, h2, h3⟩ := h
      subst h1
      subst h3
      have := hnil _ h2
      subst this
      simp only [Option.some.injEq]
      exact passThrough_feed enc _ _ xe xe1 k _ hf
    | Comment d =>
      simp only [passThrough_recorder, Option.some.injEq, Step.next.injEq,
        State.mk.injEq] at h
      obtain ⟨h1, h2, h3⟩ := h
      subst h1
      subst h3
      have := hnil _ h2
      subst this
      simp only [Option.some.injEq]
      exact passThrough_feed enc _ _ xe xe1 k _ hf
    | ProcInst d1 d2 =>
      simp only [passThrough_recorder, Option.some.injEq, Step.next.injEq,
        State.mk.injEq] at h
      obtain ⟨h1, h2, h3⟩ := h
      subst h1
      subst h3
      have := hnil _ h2
      subst this
      simp only [Option.some.injEq]
      exact passThrough_feed enc _ _ xe xe1 k _ hf
    | Directive d =>
      simp only [passThrough_recorder, Option.some.injEq, Step.next.injEq,
        State.mk.injEq] at h
      obtain ⟨h1, h2, h3⟩ := h
      subst h1
      subst h3
      have := hnil _ h2
      subst this
      simp only [Option.some.injEq]
      exact passThrough_feed enc _ _ xe xe1 k _ hf

theorem loop_recorder_extends (c : Config) (ρ : RangeOrders) :
    ∀ (fuel : Nat) (s sr : State (List Token)),
      loop recorder c ρ fuel s = some (Sum.inl sr) → ∃ em, sr.xe = s.xe ++ em := by
  intro fuel
  induction fuel with
  | zero => intro s sr h; simp [loop] at h
  | succ fuel ih =>
    intro s sr h
    rw [loop] at h
    rcases hit : iteration recorder c ρ s with _ | st
    · rw [hit] at h; cases h
    · rw [hit] at h
      cases st with
      | next s1 =>
        simp only at h
        obtain ⟨em1, h1⟩ := iteration_recorder_next c ρ s s1 hit
        obtain ⟨em2, h2⟩ := ih s1 sr h
        exact ⟨em1 ++ em2, by rw [h2, h1, List.append_assoc]⟩
      | brk s1 =>
        simp only [Option.some.injEq, Sum.inl.injEq] at h
        subst h
        obtain ⟨rfl, -, -⟩ := iteration_brk recorder c ρ s s1 hit
        exact ⟨[], by simp⟩
      | ret o e => simp at h

/-- The loop run with the recording encoder and the loop run with any encoder
that accepts the tokens recorded end alike. -/
theorem loop_feed {σ ω : Type} [Inhabited ω] (enc : Encoder σ ω) (c : Config)
    (ρ : RangeOrders) :
    ∀ (fuel : Nat) (x : Decoder) (acc : List Token) (k : Nat) (xe xe1 : σ)
      (sr : State (List Token)) (em : List Token),
      loop recorder c ρ fuel ⟨x, acc, k⟩ = some (Sum.inl sr) → sr.xe = acc ++ em →
      feedAll enc xe em = Except.ok xe1 →
      loop enc c ρ fuel ⟨x, xe, k⟩ = some (Sum.inl ⟨sr.x, xe1, sr.ranges⟩) := by
  intro fuel
  induction fuel with
  | zero => intro x acc k xe xe1 sr em h; simp [loop] at h
  | succ fuel ih =>
    intro x acc k xe xe1 sr em h hem hf
    rw [loop] at h
    rcases hit : iteration recorder c ρ ⟨x, acc, k⟩ with _ | st
    · rw [hit] at h; cases h
    · rw [hit] at h
      cases st with
      | next s1 =>
        simp only at h
        obtain ⟨em1, h1⟩ := iteration_recorder_next c ρ _ s1 hit
        obtain ⟨em2, h2⟩ := loop_recorder_extends c ρ fuel s1 sr h
        simp only at h1
        have hsplit : em = em1 ++ em2 := by
          apply List.append_cancel_left
          rw [← hem, h2, h1, List.append_assoc]
        rw [hsplit] at hf
        obtain ⟨xe2, hf1, hf2⟩ := feedAll_split enc em1 em2 xe xe1 hf
        obtain ⟨x1, a1, k1⟩ := s1
        simp only at h1
        subst h1
        have hit2 := iteration_feed enc c ρ x x1 acc em1 k k1 xe xe2 hit hf1
        rw [loop, hit2]
        simp only
        exact ih x1 (acc ++ em1) k1 xe2 xe1 sr em2 h h2 hf2
      | brk s1 =>
        simp only [Option.some.injEq, Sum.inl.injEq] at h
        subst h
        obtain ⟨rfl, hp, ht⟩ := iteration_brk recorder c ρ _ s1 hit
        simp only at hp ht hem ⊢
        have hnil : em = [] := by
          have := congrArg List.length hem
          rw [List.length_append] at this
          exact List.length_eq_zero.mp (by omega)
        subst hnil
        simp only [feedAll, Except.ok.injEq] at hf
        subst hf
        obtain ⟨p, t⟩ := x
        simp only at hp ht
        subst hp ht
        simp [loop, iteration, Decoder.Token]
      | ret o e => simp at h

/-- A call that succeeds with the recording encoder succeeds with every encoder
that accepts the tokens recorded and whose `Flush` succeeds, and returns what
that encoder made of them. -/
theorem ProcessHTML_feed {σ ω : Type} [Inhabited ω] (enc : Encoder σ ω) (c : Config)
    (ρ : RangeOrders) (x : Decoder) (toks : List Token) (xe xe2 : σ)
    (h : ProcessHTML recorder c ρ x = some (toks, none))
    (hf : feedAll enc enc.init toks = Except.ok xe) (hfl : enc.Flush xe = Except.ok xe2) :
    ProcessHTML enc c ρ x = some (enc.contents xe2, none) := by
  unfold ProcessHTML at h ⊢
  rcases hl : loop recorder c ρ (x.pending.length + 1) ⟨x, recorder.init, 0⟩ with _ | r
  · rw [hl] at h; cases h
  · rw [hl] at h
    cases r with
    | inr r =>
      obtain ⟨o, e⟩ := r
      simp only [Option.some.injEq, Prod.mk.injEq] at h
      exact absurd h.2 (loop_inr recorder c ρ _ _ o e hl).2
    | inl sr =>
      have htoks : sr.xe = toks := by
        simp only [recorder, Option.some.injEq, Prod.mk.injEq, and_true] at h
        exact h
      have hinit : recorder.init = ([] : List Token) := rfl
      rw [hinit] at hl
      have := loop_feed enc c ρ _ x [] 0 enc.init xe sr toks hl (by simp [htoks]) hf
      rw [this]
      simp only [hfl]

/-- A call that succeeds with some encoder: that encoder accepted the tokens the
recording encoder records, its `Flush` succeeded, and the decoder ended with
`EOF`. -/
theorem ProcessHTML_success {σ ω : Type} [Inhabited ω] (enc : Encoder σ ω) (c : Config)
    (ρ : RangeOrders) (x : Decoder) (out : ω)
    (h : ProcessHTML enc c ρ x = some (out, none)) :
    x.terminal = "EOF" ∧ ∃ toks xe xe2, ProcessHTML recorder c ρ x = some (toks, none) ∧
      feedAll enc enc.init toks = Except.ok xe ∧ enc.Flush xe = Except.ok xe2 ∧
      out = enc.contents xe2 := by
  unfold ProcessHTML at h
  rcases hl : loop enc c ρ (x.pending.length + 1) ⟨x, enc.init, 0⟩ with _ | r
  · rw [hl] at h; cases h
  · rw [hl] at h
    cases r with
    | inr r =>
      obtain ⟨o, e⟩ := r
      simp only [Option.some.injEq, Prod.mk.injEq] at h
      exact absurd h.2 (loop_inr enc c ρ _ _ o e hl).2
    | inl s2 =>
      have hterm : x.terminal = "EOF" := loop_inl enc c ρ _ _ s2 hl
      obtain ⟨em, hrec, hfeed⟩ := loop_param enc c ρ _ x enc.init 0 [] s2 hl
      simp only at h
      cases hfl : enc.Flush s2.xe with
      | error e => rw [hfl] at h; simp at h
      | ok xe2 =>
        rw [hfl] at h
        simp only [Option.some.injEq, Prod.mk.injEq, and_true] at h
        refine ⟨hterm, em, s2.xe, xe2, ?_, hfeed, hfl, h.symm⟩
        unfold ProcessHTML
        have hinit : recorder.init = ([] : List Token) := rfl
        rw [hinit, hrec]
        simp [recorder]

/-! ## C1 -/

/-- C1 (as amended). Whenever the loop of `ProcessHTML` itself takes from the
decoder a start tag named `img` and decoding the element does not fail, that
iteration hands the encoder one start tag with the element's name and, once
that is accepted, one explicit end tag with the same name (`img`), and nothing
else; it returns an error if the encoder refuses one of the two, and otherwise
goes on behind the element.  The tokens the loop has handed out are then the
ones handed out before, followed by the two.  The call returns success exactly
when the decoder ends with `EOF`, the encoder accepts every token handed to it
and the final `Flush` succeeds; its output is then what the encoder made of a
token sequence in which the two tokens stand next to each other, right after
everything handed out before. -/
theorem C1_img_start_then_end {σ ω : Type} [Inhabited ω] (enc : Encoder σ ω) (c : Config)
    (ρ : RangeOrders) (x : Decoder)
    (n : Nat) (s : State (List Token)) (name : Name) (attr : List Attr) (rest : List Token)
    (hreach : iterate recorder c ρ n ⟨x, [], 0⟩ = some s)
    (hp : s.x.pending = Token.StartElement name attr :: rest) (hn : name.Local = "img")
    (hdec : (Decoder.DecodeElementAny ⟨rest, x.terminal⟩).1 = none) :
    ∃ attr2,
      iterate recorder c ρ (n + 1) ⟨x, [], 0⟩ = some
        ⟨(Decoder.DecodeElementAny ⟨rest, x.terminal⟩).2,
          s.xe ++ [Token.StartElement name attr2, Token.EndElement name], s.ranges⟩ ∧
      (∀ xe : σ, iteration enc c ρ ⟨s.x, xe, s.ranges⟩ =
        match enc.EncodeToken xe (Token.StartElement name attr2) with
        | .error e => some (Step.ret default (some ("failed to re-encode token: " ++ e)))
        | .ok xe1 =>
          match enc.EncodeToken xe1 (Token.EndElement name) with
          | .error e => some (Step.ret default (some ("failed to encode end token: " ++ e)))
          | .ok xe2 =>
            some (Step.next ⟨(Decoder.DecodeElementAny ⟨rest, x.terminal⟩).2, xe2, s.ranges⟩)) ∧
      (x.terminal = "EOF" → ∃ after,
        ProcessHTML recorder c ρ x = some
          (s.xe ++ [Token.StartElement name attr2, Token.EndElement name] ++ after, none) ∧
        ∀ out, ProcessHTML enc c ρ x = some (out, none) ↔
          ∃ xe xe2,
            feedAll enc enc.init
              (s.xe ++ [Token.StartElement name attr2, Token.EndElement name] ++ after)
              = Except.ok xe ∧
            enc.Flush xe = Except.ok xe2 ∧ out = enc.contents xe2) ∧
      (x.terminal ≠ "EOF" → ∀ out, ProcessHTML enc c ρ x ≠ some (out, none)) := by
  have hterm : s.x.terminal = x.terminal := (iterate_bounds recorder c ρ n _ s hreach).2
  have hit := iteration_img c ρ s name attr rest hp hn (by rw [hterm]; exact hdec)
  rw [hterm] at hit
  obtain ⟨h1, h2⟩ := emitted_then_output c ρ x n s _ hreach hit
  refine ⟨_, h1, ?_, ?_, ?_⟩
  · intro xe
    obtain ⟨⟨p, t⟩, acc, k⟩ := s
    simp only at hp hterm ⊢
    subst hp
    subst hterm
    unfold iteration
    simp only [Decoder.Token]
    rw [if_pos hn]
    unfold imageNormalize
    simp only [Decoder.DecodeElementAny, Decoder.Skip] at hdec ⊢
    rcases hsk : skipTokens x.terminal 0 rest with ⟨e, r⟩
    rw [hsk] at hdec
    simp only at hdec
    subst hdec
    simp only [imgAttrLoop_zero_length]
    simp only [imgAttrLoop_eq_map]
    cases he1 : enc.EncodeToken xe (Token.StartElement name (attr.map (fun a =>
        if a.Name.Local = "height" ∨ a.Name.Local = "width"
        then { a with Value := "" } else a))) with
    | error e => rfl
    | ok xe1 =>
      simp only
      cases he2 : enc.EncodeToken xe1 (Token.EndElement name) with
      | error e => rfl
      | ok xe2 => rfl
  · intro heof
    obtain ⟨after, hafter⟩ := h2 heof
    refine ⟨after, hafter, fun out => ⟨?_, ?_⟩⟩
    · intro hout
      obtain ⟨-, toks, xe, xe2, hrec, hfeed, hfl, ho⟩ := ProcessHTML_success enc c ρ x out hout
      rw [hafter] at hrec
      simp only [Option.some.injEq, Prod.mk.injEq, and_true] at hrec
      subst hrec
      exact ⟨xe, xe2, hfeed, hfl, ho⟩
    · rintro ⟨xe, xe2, hfeed, hfl, ho⟩
      rw [ho]
      exact ProcessHTML_feed enc c ρ x _ xe xe2 hafter hfeed hfl
  · intro hne out hout
    exact hne (ProcessHTML_success enc c ρ x out hout).1

/-- C1, witness: the `img` of
`<p>Test</p><img height="900" width="200" src="foo.png"><p>Test 2</p>`, which
the loop reaches after three iterations; and an encoder that refuses end tags
makes the call fail. -/
theorem C1_img_start_then_end_witness :
    (∃ attr2,
      iterate recorder {} (fun _ => []) 4 ⟨⟨testTokens1, "EOF"⟩, [], 0⟩ = some
        ⟨⟨[.StartElement (mkName "p") [], .CharData "Test 2", .EndElement (mkName "p")], "EOF"⟩,
          [.StartElement (mkName "p") [], .CharData "Test", .EndElement (mkName "p")]
            ++ [Token.StartElement (mkName "img") attr2, Token.EndElement (mkName "img")], 0⟩ ∧
      (∃ after,
        ProcessHTML recorder {} (fun _ => []) ⟨testTokens1, "EOF"⟩ = some
          ([.StartElement (mkName "p") [], .CharData "Test", .EndElement (mkName "p")]
            ++ [Token.StartElement (mkName "img") attr2, Token.EndElement (mkName "img")]
            ++ after, none))) ∧
    ProcessHTML failOnEnd {} (fun _ => []) ⟨testTokens1, "EOF"⟩
      = some ("", some "failed to re-encode token: boom") :=
  ⟨(C1_img_start_then_end failOnEnd {} (fun _ => []) ⟨testTokens1, "EOF"⟩ 3
    ⟨⟨testTokens1.drop 3, "EOF"⟩, testTokens1.take 3, 0⟩ (mkName "img")
    [mkAttr "height" "900", mkAttr "width" "200", mkAttr "src" "foo.png"]
    (testTokens1.drop 4) (by decide) rfl rfl (by decide)).imp
    fun _ h => ⟨h.1, (h.2.2.1 rfl).imp fun _ h2 => h2.1⟩, by decide⟩

end GhostToHugo
